import Mathlib

/-!
# cmCTestMultiProcessHandler: the parallel test scheduler of CTest

A shallow embedding of `Source/CTest/cmCTestMultiProcessHandler.cxx`.

* `std::set<int>` is a list of ids in ascending order, `std::map<K, V>` an association
  list in ascending key order; `operator[]` default-inserts, as in C++.
* `std::map<int, bool>` is only ever read and written through `operator[]`, never
  iterated, so it is the total function it denotes (absent key = `false`).
* `PropertiesMap` maps an id to a pointer; it is a function to `Option`, the null pointer
  (and the absent key, which `operator[]` turns into one) being `none`.  Dereferencing it
  is the fault `Fault.nullDeref`.
* `size_t` is a natural number below `2 ^ 64`, with wrapping subtraction and addition.
* A `float` cost is the rational it denotes.  What the C library makes of a number is
  explicit: `toDouble` and `toFloat` round to the nearest `double` and `float` (ties to
  even), `atofFloat` is `static_cast<float>(atof(..))` on a decimal, and `sixDigits` is the
  decimal that `operator<<` prints for a `float`.  Infinities and NaN are outside the
  model.
* A line of the cost file is what `SplitString` makes of it: `short` when there are fewer
  than two fields, otherwise `atoi(parts[0])` and the number that `parts[1]` spells, which
  `ReadCostData` converts with `atofFloat`.  Indexing a field that is not there is the
  fault `Fault.outOfRange`.
* Recursion and `while` loops that the source does not bound take fuel; running out is the
  fault `Fault.outOfFuel`.
* What the collaborators answer (does the child start, is it still live, did it pass, how
  long did it run, where does the new handle sort in the pointer-ordered running set) is
  an `Env` the operation receives.
-/

/-- Modelled from the spec: the fields of `cmCTestTestHandler::cmCTestTestProperties`
(declared in `cmCTestTestHandler.h`, which is not part of the sources at hand) that the
scheduler reads: name, directory, processor weight, serial flag and cost. -/
structure cmCTestTestProperties where
  Name : String
  Directory : String
  Processors : Int
  RunSerial : Bool
  Cost : ℚ
  deriving DecidableEq

/-- Modelled from the spec: a `cmCTestRunTest` handle (declared in `cmCTestRunTest.h`, not
part of the sources at hand), as far as the scheduler uses it: `GetIndex()` and
`GetTestProperties()`. -/
structure cmCTestRunTest where
  Index : Int
  TestProperties : cmCTestTestProperties
  deriving DecidableEq

namespace cmCTestMultiProcessHandler

/-- The C++ `struct TestSet : public std::set<int>`. -/
abbrev TestSet := List Int

/-- The C++ `struct TestMap : public std::map<int, TestSet>`. -/
abbrev TestMap := List (Int × TestSet)

/-- The C++ `struct TestCostMap : public std::map<float, TestSet>`. -/
abbrev TestCostMap := List (ℚ × TestSet)

/-- The C++ `struct PropertiesMap : public std::map<int, cmCTestTestProperties*>`. -/
abbrev PropertiesMap := Int → Option cmCTestTestProperties

/-- Ways in which an operation fails to return. -/
inductive Fault where
  | nullDeref
  | outOfFuel
  | outOfRange
  deriving DecidableEq, Repr

/-- Rounding to the nearest integer, ties to even. -/
def roundEven (x : ℚ) : Int :=
  let f := ⌊x⌋
  let r := x - f
  if r < 1 / 2 then f else if 1 / 2 < r then f + 1 else if f % 2 = 0 then f else f + 1

/-- Rounding to the nearest binary floating-point number with `p` significant bits and
least normal exponent `emin`, ties to even (no overflow to infinity). -/
def roundBinary (p : Nat) (emin : Int) (q : ℚ) : ℚ :=
  if q = 0 then 0
  else
    let e := max (Int.log 2 |q|) emin
    let quantum : ℚ := 2 ^ (e - (p - 1))
    roundEven (q / quantum) * quantum

/-- The conversion to `double`. -/
def toDouble (q : ℚ) : ℚ := roundBinary 53 (-1022) q

/-- The conversion to `float`. -/
def toFloat (q : ℚ) : ℚ := roundBinary 24 (-126) q

/-- The value of `static_cast<float>(atof(text))` for a text that is the decimal `q`. -/
def atofFloat (q : ℚ) : ℚ := toFloat (toDouble q)

/-- The decimal that `operator<<` prints for the `float` `x`: six significant digits. -/
def sixDigits (x : ℚ) : ℚ :=
  if x = 0 then 0
  else
    let e := Int.log 10 |x|
    let quantum : ℚ := 10 ^ (e - 5)
    roundEven (x / quantum) * quantum

/-- A line of the cost file as `SplitString` cuts it: `short` when there are fewer than
two fields, otherwise `full index cost` with `index = atoi(parts[0])` and `cost` the
number that `parts[1]` spells, as written and before any rounding. -/
inductive CostLine where
  | short
  | full (index : Int) (cost : ℚ)
  deriving DecidableEq

/-- Ghost history, in program order: every entry into `StartTestProcess`, every assignment
`TestFinishMap[test] = true`, and every cycle error message.  It is written, never read. -/
inductive Event where
  | startProcess (test : Int)
  | markFinished (test : Int)
  | cycleError (name : String)
  deriving DecidableEq, Repr

/-- What the collaborators answer during one operation.  `start test` is `none` when
`testRun->StartTest(Total)` fails and `some k` when it succeeds, `k` being the rank of the
new handle in the pointer-ordered set `RunningTests`; `live` is `p->CheckOutput()`, `pass`
is `p->EndTest(..)`, `time` is `p->GetTestResults().ExecutionTime`. -/
structure Env where
  start : Int → Option Nat
  live : Int → Bool
  pass : Int → Bool
  time : Int → ℚ

/-- The number of values of a `size_t`. -/
def sizeMod : Nat := 2 ^ 64

/-- The `size_t` subtraction `a - b`. -/
def sizeSub (a b : Nat) : Nat := (a + (sizeMod - b % sizeMod)) % sizeMod

/-- The `size_t` addition `a + b`. -/
def sizeAdd (a b : Nat) : Nat := (a + b) % sizeMod

/-- The conversion of an `int` to `size_t`. -/
def sizeOfInt (i : Int) : Nat := (i % (sizeMod : Int)).toNat

/-- Insertion of a new element at its place in ascending order. -/
def setInsertNew : TestSet → Int → TestSet
  | [], t => [t]
  | x :: xs, t => if t < x then t :: x :: xs else x :: setInsertNew xs t

/-- The C++ `std::set<int>::insert`: nothing when the element is present. -/
def setInsert (s : TestSet) (t : Int) : TestSet := if t ∈ s then s else setInsertNew s t

/-- The C++ `std::set<int>::erase(key)`. -/
def setErase (s : TestSet) (t : Int) : TestSet := s.filter (fun x => decide (x ≠ t))

/-- The C++ `std::map::find`, as an option. -/
def mapFind {κ : Type} [DecidableEq κ] : List (κ × TestSet) → κ → Option TestSet
  | [], _ => none
  | (k', v) :: m, k => if k = k' then some v else mapFind m k

/-- Insertion of a new key, bound to the empty set, at its place in ascending key order. -/
def mapInsertNew {κ : Type} [LT κ] [DecidableRel (fun a b : κ => a < b)] :
    List (κ × TestSet) → κ → List (κ × TestSet)
  | [], k => [(k, [])]
  | (k', v) :: m, k => if k < k' then (k, []) :: (k', v) :: m else (k', v) :: mapInsertNew m k

/-- The map after `operator[]` on key `k`: unchanged when `k` is present, with `k` bound to
the empty set when it is absent. -/
def mapTouch {κ : Type} [DecidableEq κ] [LT κ] [DecidableRel (fun a b : κ => a < b)]
    (m : List (κ × TestSet)) (k : κ) : List (κ × TestSet) :=
  match mapFind m k with
  | some _ => m
  | none => mapInsertNew m k

/-- The value `operator[]` yields on key `k`. -/
def mapAt {κ : Type} [DecidableEq κ] (m : List (κ × TestSet)) (k : κ) : TestSet :=
  (mapFind m k).getD []

/-- The C++ `std::map::erase(key)`. -/
def mapErase (m : TestMap) (k : Int) : TestMap := m.filter (fun e => decide (e.1 ≠ k))

/-- The C++ `TestCosts[cost].insert(test)`: `operator[]`, then the insertion into the set
it refers to. -/
def bucketInsert (m : TestCostMap) (c : ℚ) (t : Int) : TestCostMap :=
  (mapTouch m c).map (fun e => (e.1, if e.1 = c then setInsert e.2 t else e.2))

/-- The loop of `EraseTest` over `TestCosts`: erase `test` from the first bucket (in
ascending cost order) that holds it, then stop. -/
def eraseFromFirstBucket : TestCostMap → Int → TestCostMap
  | [], _ => []
  | (c, s) :: m, t =>
    if t ∈ s then (c, setErase s t) :: m else (c, s) :: eraseFromFirstBucket m t

/-- Assignment `m[k] = v` on a `std::map<int, bool>`. -/
def flagSet (m : Int → Bool) (k : Int) (v : Bool) : Int → Bool :=
  fun i => if i = k then v else m i

/-- Insertion of a new handle into the pointer-ordered set `RunningTests`, at the rank the
allocator gave it. -/
def insertAt (k : Nat) (p : cmCTestRunTest) (l : List cmCTestRunTest) : List cmCTestRunTest :=
  l.take k ++ p :: l.drop k

end cmCTestMultiProcessHandler

open cmCTestMultiProcessHandler in
/-- The data members of `class cmCTestMultiProcessHandler`, followed by the state of its
collaborators: the `ShowOnly` and `Failover` options of `cmCTest`, the max index published
to the test handler, the two files under `Testing/Temporary` (`none` = the file does not
exist; a checkpoint line is `atoi(line)`), and the ghost history. -/
structure cmCTestMultiProcessHandler where
  Tests : TestMap
  TestCosts : TestCostMap
  Total : Nat
  Completed : Nat
  RunningCount : Nat
  Properties : PropertiesMap
  TestRunningMap : Int → Bool
  TestFinishMap : Int → Bool
  Passed : List String
  Failed : List String
  ParallelLevel : Nat
  RunningTests : List cmCTestRunTest
  ShowOnly : Bool
  Failover : Bool
  MaxIndex : Int
  CostDataFile : Option (List CostLine)
  CheckpointFile : Option (List Int)
  Trace : List Event

namespace cmCTestMultiProcessHandler

/-- The constructor: `ParallelLevel = 1`, `Completed = 0`, `RunningCount = 0`, empty
containers; the collaborators' state is what the caller has set up (`SetCTest`,
`SetPassFailVectors`, the files on disk). -/
def construct (showOnly failover : Bool) (costData : Option (List CostLine))
    (checkpoint : Option (List Int)) : cmCTestMultiProcessHandler :=
  { Tests := [], TestCosts := [], Total := 0, Completed := 0, RunningCount := 0,
    Properties := fun _ => none, TestRunningMap := fun _ => false,
    TestFinishMap := fun _ => false, Passed := [], Failed := [], ParallelLevel := 1,
    RunningTests := [], ShowOnly := showOnly, Failover := failover, MaxIndex := 0,
    CostDataFile := costData, CheckpointFile := checkpoint, Trace := [] }

/-- The C++ `SetParallelLevel`. -/
def SetParallelLevel (this : cmCTestMultiProcessHandler) (level : Nat) :
    cmCTestMultiProcessHandler :=
  { this with ParallelLevel := if level < 1 then 1 else level }

/-- The C++ `EraseTest`. -/
def EraseTest (this : cmCTestMultiProcessHandler) (test : Int) : cmCTestMultiProcessHandler :=
  { this with Tests := mapErase this.Tests test,
              TestCosts := eraseFromFirstBucket this.TestCosts test }

/-- The C++ `GetProcessorsUsed`. -/
def GetProcessorsUsed (this : cmCTestMultiProcessHandler) (test : Int) : Except Fault Nat :=
  match this.Properties test with
  | none => .error .nullDeref
  | some p =>
    let processors := sizeOfInt p.Processors
    if p.RunSerial = true ∨ processors > this.ParallelLevel then .ok this.ParallelLevel
    else .ok processors

/-- The C++ `StartTestProcess`. -/
def StartTestProcess (env : Env) (this : cmCTestMultiProcessHandler) (test : Int) :
    Except Fault cmCTestMultiProcessHandler :=
  let this := { this with Trace := this.Trace ++ [Event.startProcess test],
                          TestRunningMap := flagSet this.TestRunningMap test true }
  let this := EraseTest this test
  match this.Properties test with
  | none => .error .nullDeref
  | some p =>
    match env.start test with
    | some rank => .ok { this with RunningTests := insertAt rank ⟨test, p⟩ this.RunningTests }
    | none =>
      let this := { this with Completed := sizeAdd this.Completed 1,
                              TestFinishMap := flagSet this.TestFinishMap test true,
                              Trace := this.Trace ++ [Event.markFinished test],
                              TestRunningMap := flagSet this.TestRunningMap test false }
      match GetProcessorsUsed this test with
      | .error e => .error e
      | .ok n => .ok { this with RunningCount := sizeSub this.RunningCount n,
                                 Failed := this.Failed ++ [p.Name] }

/-- How the loop of `StartTest` over the copied dependency set ends: by returning the
recursive call on a dependency, or by falling through with the counter `totalDepends`. -/
inductive DependScan where
  | startDepend (d : Int)
  | remaining (totalDepends : Nat)
  deriving DecidableEq, Repr

/-- The loop of `StartTest` over `depends`, `n` being `totalDepends`. -/
def scanDepends (this : cmCTestMultiProcessHandler) : List Int → Nat → DependScan
  | [], n => .remaining n
  | d :: ds, n =>
    if this.TestRunningMap d = false then
      if this.TestFinishMap d = false then .startDepend d
      else scanDepends this ds (n - 1)
    else scanDepends this ds n

/-- The C++ `StartTest`; `fuel` bounds the depth of the recursion. -/
def StartTest (env : Env) : Nat → cmCTestMultiProcessHandler → Int →
    Except Fault (Bool × cmCTestMultiProcessHandler)
  | 0, _, _ => .error .outOfFuel
  | fuel + 1, this, test =>
    let depends := mapAt this.Tests test
    let this := { this with Tests := mapTouch this.Tests test }
    match scanDepends this depends depends.length with
    | .startDepend d => StartTest env fuel this d
    | .remaining totalDepends =>
      if totalDepends = 0 then
        match StartTestProcess env this test with
        | .error e => .error e
        | .ok this => .ok (true, this)
      else .ok (false, this)

/-- The inner loop of `StartNextTests` over the copy `tests` of one bucket.  The first
component of the result is `none` when the function has returned, and the value of
`numToStart` when the loop ran to its end. -/
def startBucket (env : Env) (fuel : Nat) :
    List Int → Nat → cmCTestMultiProcessHandler →
    Except Fault (Option Nat × cmCTestMultiProcessHandler)
  | [], numToStart, this => .ok (some numToStart, this)
  | test :: tests, numToStart, this =>
    if this.TestRunningMap test = true ∨ this.TestFinishMap test = true then
      startBucket env fuel tests numToStart this
    else
      match GetProcessorsUsed this test with
      | .error e => .error e
      | .ok processors =>
        if processors > numToStart then .ok (none, this)
        else
          match StartTest env fuel this test with
          | .error e => .error e
          | .ok (true, this) =>
            let numToStart := sizeSub numToStart processors
            let this := { this with RunningCount := sizeAdd this.RunningCount processors }
            if numToStart = 0 then .ok (none, this)
            else startBucket env fuel tests numToStart this
          | .ok (false, this) =>
            if numToStart = 0 then .ok (none, this)
            else startBucket env fuel tests numToStart this

/-- The outer loop of `StartNextTests` over the cost keys in descending order; each bucket
is copied when the loop reaches it. -/
def startBuckets (env : Env) (fuel : Nat) :
    List ℚ → Nat → cmCTestMultiProcessHandler → Except Fault cmCTestMultiProcessHandler
  | [], _, this => .ok this
  | c :: cs, numToStart, this =>
    match startBucket env fuel (mapAt this.TestCosts c) numToStart this with
    | .error e => .error e
    | .ok (none, this) => .ok this
    | .ok (some numToStart, this) => startBuckets env fuel cs numToStart this

/-- The C++ `StartNextTests`. -/
def StartNextTests (env : Env) (fuel : Nat) (this : cmCTestMultiProcessHandler) :
    Except Fault cmCTestMultiProcessHandler :=
  let numToStart := sizeSub this.ParallelLevel this.RunningCount
  if numToStart = 0 then .ok this
  else startBuckets env fuel (this.TestCosts.map Prod.fst).reverse numToStart this

/-- The C++ `WriteCostData`: the argument is converted to the `float` parameter, and the
line appended is the text of the index, a blank and the six digits printed for the cost. -/
def WriteCostData (this : cmCTestMultiProcessHandler) (index : Int) (cost : ℚ) :
    cmCTestMultiProcessHandler :=
  { this with CostDataFile := some (this.CostDataFile.getD [] ++
      [CostLine.full index (sixDigits (toFloat cost))]) }

/-- The C++ `WriteCheckpoint`. -/
def WriteCheckpoint (this : cmCTestMultiProcessHandler) (index : Int) :
    cmCTestMultiProcessHandler :=
  { this with CheckpointFile := some (this.CheckpointFile.getD [] ++ [index]) }

/-- The body of the second loop of `CheckOutput`, for one finished handle `p`. -/
def finishTest (env : Env) (this : cmCTestMultiProcessHandler) (p : cmCTestRunTest) :
    Except Fault cmCTestMultiProcessHandler :=
  let this := { this with Completed := sizeAdd this.Completed 1 }
  let test := p.Index
  let this :=
    if env.pass test = true then { this with Passed := this.Passed ++ [p.TestProperties.Name] }
    else { this with Failed := this.Failed ++ [p.TestProperties.Name] }
  let this := { this with Tests := this.Tests.map (fun (e : Int × TestSet) => (e.1, setErase e.2 test)) }
  let this := { this with TestFinishMap := flagSet this.TestFinishMap test true,
                          Trace := this.Trace ++ [Event.markFinished test],
                          TestRunningMap := flagSet this.TestRunningMap test false,
                          RunningTests := this.RunningTests.erase p }
  let this := WriteCheckpoint this test
  let this := WriteCostData this test (env.time test)
  match GetProcessorsUsed this test with
  | .error e => .error e
  | .ok n => .ok { this with RunningCount := sizeSub this.RunningCount n }

/-- The second loop of `CheckOutput`, over the vector `finished`. -/
def finishAll (env : Env) :
    List cmCTestRunTest → cmCTestMultiProcessHandler → Except Fault cmCTestMultiProcessHandler
  | [], this => .ok this
  | p :: ps, this =>
    match finishTest env this p with
    | .error e => .error e
    | .ok this => finishAll env ps this

/-- The C++ `CheckOutput`. -/
def CheckOutput (env : Env) (this : cmCTestMultiProcessHandler) :
    Except Fault (Bool × cmCTestMultiProcessHandler) :=
  if this.RunningTests.length = 0 then .ok (false, this)
  else
    let finished := this.RunningTests.filter (fun p => !env.live p.Index)
    match finishAll env finished this with
    | .error e => .error e
    | .ok this => .ok (true, this)

/-- The body of the read loop of `ReadCostData` for a line with both fields, `index`
being `atoi(parts[0])` and `cost` the `float` `static_cast<float>(atof(parts[1]))`. -/
def readCostLine (props : PropertiesMap) (index : Int) (cost : ℚ) : PropertiesMap :=
  match props index with
  | none => props
  | some p => if p.Cost = 0 then fun i => if i = index then some { p with Cost := cost }
                                          else props i
              else props

/-- The read loop of `ReadCostData`: `parts[0]` and `parts[1]` are indexed unchecked, so a
line with fewer than two fields is a fault; the cost is read by `atof` and cast to
`float`. -/
def readCostLines : List CostLine → PropertiesMap → Except Fault PropertiesMap
  | [], props => .ok props
  | .short :: _, _ => .error .outOfRange
  | .full index cost :: lines, props =>
    readCostLines lines (readCostLine props index (atofFloat cost))

/-- The C++ `ReadCostData`: the file is read when it exists and `ParallelLevel > 1`, and
removed once the read loop is through. -/
def ReadCostData (this : cmCTestMultiProcessHandler) :
    Except Fault cmCTestMultiProcessHandler :=
  match this.CostDataFile with
  | some lines =>
    if this.ParallelLevel > 1 then
      match readCostLines lines this.Properties with
      | .error e => .error e
      | .ok props => .ok { this with Properties := props, CostDataFile := none }
    else .ok { this with CostDataFile := none }
  | none => .ok { this with CostDataFile := none }

/-- The loop of `CreateTestCostList`, over the keys of `Tests`. -/
def costListLoop (props : PropertiesMap) : List Int → TestCostMap → Except Fault TestCostMap
  | [], costs => .ok costs
  | t :: ts, costs =>
    match props t with
    | none => .error .nullDeref
    | some p => costListLoop props ts (bucketInsert costs p.Cost t)

/-- The C++ `CreateTestCostList`. -/
def CreateTestCostList (this : cmCTestMultiProcessHandler) :
    Except Fault cmCTestMultiProcessHandler :=
  match costListLoop this.Properties (this.Tests.map Prod.fst) this.TestCosts with
  | .error e => .error e
  | .ok costs => .ok { this with TestCosts := costs }

/-- The C++ `SetTests`. -/
def SetTests (this : cmCTestMultiProcessHandler) (tests : TestMap) (properties : PropertiesMap) :
    Except Fault cmCTestMultiProcessHandler :=
  let this := { this with Tests := tests, Properties := properties, Total := tests.length }
  let this := (tests.map Prod.fst).foldl
    (fun (h : cmCTestMultiProcessHandler) i =>
      { h with TestRunningMap := flagSet h.TestRunningMap i false,
               TestFinishMap := flagSet h.TestFinishMap i false }) this
  if this.ShowOnly = true then .ok this
  else
    match ReadCostData this with
    | .error e => .error e
    | .ok this => CreateTestCostList this

/-- The C++ `MarkFinished`. -/
def MarkFinished (this : cmCTestMultiProcessHandler) : cmCTestMultiProcessHandler :=
  { this with CheckpointFile := none }

/-- The C++ `RemoveTest`. -/
def RemoveTest (this : cmCTestMultiProcessHandler) (index : Int) : cmCTestMultiProcessHandler :=
  let this := EraseTest this index
  { this with Properties := fun i => if i = index then none else this.Properties i,
              TestRunningMap := flagSet this.TestRunningMap index false,
              TestFinishMap := flagSet this.TestFinishMap index true,
              Trace := this.Trace ++ [Event.markFinished index],
              Completed := sizeAdd this.Completed 1 }

/-- The C++ `CheckResume`. -/
def CheckResume (this : cmCTestMultiProcessHandler) : cmCTestMultiProcessHandler :=
  if this.Failover = true then
    match this.CheckpointFile with
    | some lines => lines.foldl RemoveTest this
    | none => this
  else
    match this.CheckpointFile with
    | some _ => { this with CheckpointFile := none }
    | none => this

/-- The C++ `FindMaxIndex`. -/
def FindMaxIndex (this : cmCTestMultiProcessHandler) : Int :=
  (this.Tests.map Prod.fst).foldl (fun max i => if i > max then i else max) 0

/-- How the loop of `CheckCycles` over the dependencies of one test ends: at a dependency
found in `visited`, or with the new stack and `visited`. -/
inductive PushResult where
  | cycle (d : Int)
  | pushed (s visited : List Int)
  deriving DecidableEq, Repr

/-- The loop of `CheckCycles` over the dependencies `d` of the test popped off the stack:
push `d` on the stack `s` (top first), report `d` if it is in `visited`, else append it. -/
def pushDepends : List Int → List Int → List Int → PushResult
  | [], s, visited => .pushed s visited
  | d :: ds, s, visited =>
    if d ∈ visited then .cycle d else pushDepends ds (d :: s) (visited ++ [d])

/-- The loop `while(!s.empty())` of `CheckCycles`; the result is `false` when a cycle was
reported and `true` when the stack ran empty. -/
def cycleSearch : Nat → cmCTestMultiProcessHandler → List Int → List Int →
    Except Fault (Bool × cmCTestMultiProcessHandler)
  | _, this, [], _ => .ok (true, this)
  | 0, _, _ :: _, _ => .error .outOfFuel
  | fuel + 1, this, test :: s, visited =>
    let depends := mapAt this.Tests test
    let this := { this with Tests := mapTouch this.Tests test }
    match pushDepends depends s visited with
    | .cycle d =>
      match this.Properties d with
      | none => .error .nullDeref
      | some p => .ok (false, { this with Trace := this.Trace ++ [Event.cycleError p.Name] })
    | .pushed s visited => cycleSearch fuel this s visited.dropLast

/-- The first key of the map: `Tests.begin()`. -/
def firstKey (m : TestMap) : Option Int := m.head?.map Prod.fst

/-- The key after `k` in the map: `++it`. -/
def nextKey (m : TestMap) (k : Int) : Option Int :=
  (m.find? (fun e => decide (k < e.1))).map Prod.fst

/-- The outer loop of `CheckCycles` over the keys of `Tests`, `it` being the iterator
(`none` = `Tests.end()`); `n` bounds its iterations and `fuel` those of each inner loop. -/
def cycleRoots (fuel : Nat) : Nat → cmCTestMultiProcessHandler → Option Int →
    Except Fault (Bool × cmCTestMultiProcessHandler)
  | _, this, none => .ok (true, this)
  | 0, _, some _ => .error .outOfFuel
  | n + 1, this, some root =>
    match cycleSearch fuel this [root] [root] with
    | .error e => .error e
    | .ok (false, this) => .ok (false, this)
    | .ok (true, this) => cycleRoots fuel n this (nextKey this.Tests root)

/-- The C++ `CheckCycles`. -/
def CheckCycles (fuel : Nat) (this : cmCTestMultiProcessHandler) :
    Except Fault (Bool × cmCTestMultiProcessHandler) :=
  cycleRoots fuel fuel this (firstKey this.Tests)

/-- The loop `while(this->Tests.size() != 0)` of `RunTests`; `i` counts the polls made so
far, so that each poll gets its own answers from the collaborators. -/
def pendingLoop (env : Nat → Env) (fuel : Nat) : Nat → Nat → cmCTestMultiProcessHandler →
    Except Fault (Nat × cmCTestMultiProcessHandler)
  | 0, i, this => if this.Tests.length = 0 then .ok (i, this) else .error .outOfFuel
  | n + 1, i, this =>
    if this.Tests.length = 0 then .ok (i, this)
    else
      match CheckOutput (env i) this with
      | .error e => .error e
      | .ok (_, this) =>
        match StartNextTests (env i) fuel this with
        | .error e => .error e
        | .ok this => pendingLoop env fuel n (i + 1) this

/-- The loop `while(this->CheckOutput())` of `RunTests`. -/
def drainLoop (env : Nat → Env) : Nat → Nat → cmCTestMultiProcessHandler →
    Except Fault cmCTestMultiProcessHandler
  | 0, _, _ => .error .outOfFuel
  | n + 1, i, this =>
    match CheckOutput (env i) this with
    | .error e => .error e
    | .ok (false, this) => .ok this
    | .ok (true, this) => drainLoop env n (i + 1) this

/-- The C++ `RunTests`.  The first `StartNextTests` gets the answers `start`, the polls
get `env 0`, `env 1`, ...; `fuel` bounds every loop and recursion. -/
def RunTests (start : Env) (env : Nat → Env) (fuel : Nat) (this : cmCTestMultiProcessHandler) :
    Except Fault cmCTestMultiProcessHandler :=
  let this := CheckResume this
  match CheckCycles fuel this with
  | .error e => .error e
  | .ok (false, this) => .ok this
  | .ok (true, this) =>
    let this := { this with MaxIndex := FindMaxIndex this }
    match StartNextTests start fuel this with
    | .error e => .error e
    | .ok this =>
      match pendingLoop env fuel fuel 0 this with
      | .error e => .error e
      | .ok (i, this) =>
        match drainLoop env fuel i this with
        | .error e => .error e
        | .ok this => .ok (MarkFinished this)

/-! ## Runs and the vocabulary of the properties -/

/-- The inputs of a run: the `-j` level, the options and files of the collaborators, and
the arguments of `SetTests`. -/
structure Setup where
  level : Nat
  showOnly : Bool
  failover : Bool
  costData : Option (List CostLine)
  checkpoint : Option (List Int)
  tests : TestMap
  properties : PropertiesMap

/-- The handler after construction, `SetParallelLevel` and `SetTests`. -/
def Setup.init (c : Setup) : Except Fault cmCTestMultiProcessHandler :=
  SetTests (SetParallelLevel (construct c.showOnly c.failover c.costData c.checkpoint) c.level)
    c.tests c.properties

/-- The states of a run: the one `SetTests` leaves, and every state a `StartNextTests` or
`CheckOutput` step leads to from there, whatever the collaborators answer. -/
inductive Reachable (c : Setup) : cmCTestMultiProcessHandler → Prop where
  | setTests (s : cmCTestMultiProcessHandler) : c.init = .ok s → Reachable c s
  | startNextTests (env : Env) (fuel : Nat) (s s' : cmCTestMultiProcessHandler) :
      Reachable c s → StartNextTests env fuel s = .ok s' → Reachable c s'
  | checkOutput (env : Env) (s s' : cmCTestMultiProcessHandler) (b : Bool) :
      Reachable c s → CheckOutput env s = .ok (b, s') → Reachable c s'

/-- One scheduler or poll step of a run. -/
inductive Step where
  | startNextTests (env : Env) (fuel : Nat)
  | checkOutput (env : Env)

/-- The state after one step. -/
def Step.apply : Step → cmCTestMultiProcessHandler → Except Fault cmCTestMultiProcessHandler
  | .startNextTests env fuel, s => StartNextTests env fuel s
  | .checkOutput env, s =>
    match CheckOutput env s with
    | .error e => .error e
    | .ok (_, s) => .ok s

/-- The state after a sequence of steps. -/
def runFrom : List Step → cmCTestMultiProcessHandler → Except Fault cmCTestMultiProcessHandler
  | [], s => .ok s
  | st :: sts, s =>
    match st.apply s with
    | .error e => .error e
    | .ok s => runFrom sts s

/-- The state after `SetTests` and a sequence of steps. -/
def Setup.run (c : Setup) (steps : List Step) : Except Fault cmCTestMultiProcessHandler :=
  match c.init with
  | .error e => .error e
  | .ok s => runFrom steps s

/-- The verdict of `CheckCycles` on the handler `SetTests` leaves. -/
def Setup.checkCycles (c : Setup) (fuel : Nat) : Except Fault Bool :=
  match c.init with
  | .error e => .error e
  | .ok s => (CheckCycles fuel s).map Prod.fst

/-- The state after `SetTests` and a sequence of steps (the freshly constructed handler
should one of them fault). -/
def Setup.stateAfter (c : Setup) (steps : List Step) : cmCTestMultiProcessHandler :=
  match c.run steps with
  | .ok s => s
  | .error _ => construct c.showOnly c.failover c.costData c.checkpoint

/-- Test `a` depends directly on test `b` in the map `tests`. -/
def DependsOn (tests : TestMap) (a b : Int) : Prop := b ∈ mapAt tests a

/-- The map has a dependency cycle: a test that reaches itself through one or more
dependency edges. -/
def HasCycle (tests : TestMap) : Prop := ∃ t, Relation.TransGen (DependsOn tests) t t

/-- Every dependency is a key of the map. -/
def KnownDepends (tests : TestMap) : Prop :=
  ∀ t d, DependsOn tests t d → d ∈ tests.map Prod.fst

/-- The keys of the map ascend strictly, as a `std::map` keeps them. -/
def SortedKeys (tests : TestMap) : Prop := (tests.map Prod.fst).Pairwise (fun a b => a < b)

/-- The test started by a history entry, if it is one of `StartTestProcess`. -/
def Event.started : Event → Option Int
  | .startProcess t => some t
  | _ => none

/-- In the history `trace`, every occurrence of the entry `e` comes after an occurrence of
the entry `req`. -/
def EachAfter (trace : List Event) (e req : Event) : Prop :=
  ∀ pre post, trace = pre ++ e :: post → req ∈ pre

/-- Test `t` is a key of the map or a dependency of one. -/
def Known (tests : TestMap) (t : Int) : Prop :=
  t ∈ tests.map Prod.fst ∨ ∃ t', DependsOn tests t' t

/-- The invariant of a run of the scheduler on the map `tests` given to `SetTests`. -/
structure Inv (tests : TestMap) (s : cmCTestMultiProcessHandler) : Prop where
  depends_left : ∀ t, s.TestRunningMap t = false → s.TestFinishMap t = false →
    ∀ d ∈ mapAt tests t, d ∈ mapAt s.Tests t ∨ s.TestFinishMap d = true
  depends_sub : ∀ t d, d ∈ mapAt s.Tests t → d ∈ mapAt tests t
  finish_iff : ∀ d, s.TestFinishMap d = true ↔ Event.markFinished d ∈ s.Trace
  started_iff : ∀ t, Event.startProcess t ∈ s.Trace ↔
    (s.TestRunningMap t = true ∨ s.TestFinishMap t = true)
  not_both : ∀ t, s.TestRunningMap t = true → s.TestFinishMap t = false
  starts_after : ∀ t, ∀ d ∈ mapAt tests t,
    EachAfter s.Trace (Event.startProcess t) (Event.markFinished d)
  finish_after : ∀ d, EachAfter s.Trace (Event.markFinished d) (Event.startProcess d)
  starts_nodup : (s.Trace.filterMap Event.started).Nodup
  running_iff : ∀ t, s.TestRunningMap t = true ↔ ∃ p ∈ s.RunningTests, p.Index = t
  running_nodup : (s.RunningTests.map (fun p => p.Index)).Nodup
  started_known : ∀ t, Event.startProcess t ∈ s.Trace → Known tests t
  bucket_known : ∀ e ∈ s.TestCosts, ∀ t ∈ e.2, t ∈ tests.map Prod.fst
  bucket_cost : ∀ e ∈ s.TestCosts, ∀ t ∈ e.2, ∃ p, s.Properties t = some p ∧ p.Cost = e.1
  bucket_mem : s.ShowOnly = false → ∀ t ∈ tests.map Prod.fst, s.TestRunningMap t = false →
    s.TestFinishMap t = false → ∀ p, s.Properties t = some p → t ∈ mapAt s.TestCosts p.Cost
  bucket_sorted : (s.TestCosts.map Prod.fst).Pairwise (fun a b => a < b)
  show_only : s.ShowOnly = true → s.TestCosts = []

/-- The handler `s'` differs from `s` at most in `RunningCount` and in keys that
`operator[]` added to `Tests` with empty sets. -/
structure TouchStep (s s' : cmCTestMultiProcessHandler) : Prop where
  tests : ∀ x, mapAt s'.Tests x = mapAt s.Tests x
  keys : ∀ x ∈ s.Tests.map Prod.fst, x ∈ s'.Tests.map Prod.fst
  costs : s'.TestCosts = s.TestCosts
  running : s'.TestRunningMap = s.TestRunningMap
  finish : s'.TestFinishMap = s.TestFinishMap
  trace : s'.Trace = s.Trace
  handles : s'.RunningTests = s.RunningTests
  properties : s'.Properties = s.Properties
  showOnly : s'.ShowOnly = s.ShowOnly
  level : s'.ParallelLevel = s.ParallelLevel
  completed : s'.Completed = s.Completed
  passed : s'.Passed = s.Passed
  failed : s'.Failed = s.Failed
  costData : s'.CostDataFile = s.CostDataFile
  checkpoint : s'.CheckpointFile = s.CheckpointFile

/-- The effect of `StartTestProcess(t)` when the child starts: `s'` is `s` with `t`
running, erased from the pending map and its bucket, a handle for it in the running
set. -/
structure StartedStep (s s' : cmCTestMultiProcessHandler) (t : Int) : Prop where
  tests : s'.Tests = mapErase s.Tests t
  costs : s'.TestCosts = eraseFromFirstBucket s.TestCosts t
  running : ∀ i, s'.TestRunningMap i = if i = t then true else s.TestRunningMap i
  finish : s'.TestFinishMap = s.TestFinishMap
  trace : s'.Trace = s.Trace ++ [Event.startProcess t]
  handles : ∃ k p, s.Properties t = some p ∧
    s'.RunningTests = insertAt k ⟨t, p⟩ s.RunningTests
  properties : s'.Properties = s.Properties
  showOnly : s'.ShowOnly = s.ShowOnly
  level : s'.ParallelLevel = s.ParallelLevel
  count : s'.RunningCount = s.RunningCount
  completed : s'.Completed = s.Completed
  passed : s'.Passed = s.Passed
  failed : s'.Failed = s.Failed
  costData : s'.CostDataFile = s.CostDataFile
  checkpoint : s'.CheckpointFile = s.CheckpointFile

/-- The effect of `StartTestProcess(t)` when the child fails to start: `s'` is `s` with
`t` finished, erased from the pending map and its bucket, counted as completed and
failed, its weight subtracted from `RunningCount`. -/
structure FailedStep (s s' : cmCTestMultiProcessHandler) (t : Int) : Prop where
  tests : s'.Tests = mapErase s.Tests t
  costs : s'.TestCosts = eraseFromFirstBucket s.TestCosts t
  running : ∀ i, s'.TestRunningMap i = if i = t then false else s.TestRunningMap i
  finish : ∀ i, s'.TestFinishMap i = if i = t then true else s.TestFinishMap i
  trace : s'.Trace = s.Trace ++ [Event.startProcess t, Event.markFinished t]
  handles : s'.RunningTests = s.RunningTests
  properties : s'.Properties = s.Properties
  showOnly : s'.ShowOnly = s.ShowOnly
  level : s'.ParallelLevel = s.ParallelLevel
  count : ∃ n, GetProcessorsUsed s t = .ok n ∧ s'.RunningCount = sizeSub s.RunningCount n
  completed : s'.Completed = sizeAdd s.Completed 1
  passed : s'.Passed = s.Passed
  failed : ∃ p, s.Properties t = some p ∧ s'.Failed = s.Failed ++ [p.Name]
  costData : s'.CostDataFile = s.CostDataFile
  checkpoint : s'.CheckpointFile = s.CheckpointFile

/-- The effect of the body of the second loop of `CheckOutput` on the handle `p`. -/
structure FinishedStep (env : Env) (s s' : cmCTestMultiProcessHandler) (p : cmCTestRunTest) :
    Prop where
  tests : s'.Tests = s.Tests.map (fun (e : Int × TestSet) => (e.1, setErase e.2 p.Index))
  costs : s'.TestCosts = s.TestCosts
  running : ∀ i, s'.TestRunningMap i = if i = p.Index then false else s.TestRunningMap i
  finish : ∀ i, s'.TestFinishMap i = if i = p.Index then true else s.TestFinishMap i
  trace : s'.Trace = s.Trace ++ [Event.markFinished p.Index]
  handles : s'.RunningTests = s.RunningTests.erase p
  properties : s'.Properties = s.Properties
  showOnly : s'.ShowOnly = s.ShowOnly
  level : s'.ParallelLevel = s.ParallelLevel
  count : ∃ n, GetProcessorsUsed s p.Index = .ok n ∧
    s'.RunningCount = sizeSub s.RunningCount n
  completed : s'.Completed = sizeAdd s.Completed 1
  passed : s'.Passed =
    if env.pass p.Index = true then s.Passed ++ [p.TestProperties.Name] else s.Passed
  failed : s'.Failed =
    if env.pass p.Index = true then s.Failed else s.Failed ++ [p.TestProperties.Name]
  costData : s'.CostDataFile = some (s.CostDataFile.getD [] ++
    [CostLine.full p.Index (sixDigits (toFloat (env.time p.Index)))])
  checkpoint : s'.CheckpointFile = some (s.CheckpointFile.getD [] ++ [p.Index])

/-- What every step of the scheduler keeps: the properties, the options, the level, and
the history so far. -/
structure Kept (s s' : cmCTestMultiProcessHandler) : Prop where
  properties : s'.Properties = s.Properties
  showOnly : s'.ShowOnly = s.ShowOnly
  level : s'.ParallelLevel = s.ParallelLevel
  trace : ∃ l, s'.Trace = s.Trace ++ l

/-- What a call `StartTest(root)` adds to the history: nothing, or the start of one test
that `root` reaches through zero or more dependency edges, followed by its finish mark
when the child failed to start. -/
def Launch (tests : TestMap) (s s' : cmCTestMultiProcessHandler) (root : Int) : Prop :=
  s'.Trace = s.Trace ∨
  ∃ t, Relation.ReflTransGen (DependsOn tests) root t ∧
    (s'.Trace = s.Trace ++ [Event.startProcess t] ∨
     s'.Trace = s.Trace ++ [Event.startProcess t, Event.markFinished t])

/-- The handler `SetTests` leaves on a freshly constructed handler. -/
structure InitState (c : Setup) (s : cmCTestMultiProcessHandler) : Prop where
  tests : s.Tests = c.tests
  running : ∀ i, s.TestRunningMap i = false
  finish : ∀ i, s.TestFinishMap i = false
  trace : s.Trace = []
  handles : s.RunningTests = []
  showOnly : s.ShowOnly = c.showOnly
  failover : s.Failover = c.failover
  level : s.ParallelLevel = if c.level < 1 then 1 else c.level
  count : s.RunningCount = 0
  completed : s.Completed = 0
  total : s.Total = c.tests.length
  passed : s.Passed = []
  failed : s.Failed = []
  checkpoint : s.CheckpointFile = c.checkpoint
  costs : if c.showOnly = true then s.TestCosts = []
    else costListLoop s.Properties (c.tests.map Prod.fst) [] = .ok s.TestCosts
  properties : if c.showOnly = true then s.Properties = c.properties
    else ∃ r, ReadCostData { SetParallelLevel
      (construct c.showOnly c.failover c.costData c.checkpoint) c.level with
        Properties := c.properties } = .ok r ∧ s.Properties = r.Properties
  costFile : s.CostDataFile = if c.showOnly = true then c.costData else none

/-- A properties map given by its entries. -/
def propertiesOfList (l : List (Int × cmCTestTestProperties)) : PropertiesMap :=
  fun i => (l.find? (fun e => decide (e.1 = i))).map Prod.snd

/-- Collaborators under which every test starts, exits at the first poll and passes. -/
def promptEnv : Env :=
  { start := fun _ => some 0, live := fun _ => false, pass := fun _ => true,
    time := fun _ => 1 }

/-- A test with the given name, processor weight, serial flag and cost. -/
def testProperties (name : String) (processors : Int) (serial : Bool) (cost : ℚ) :
    cmCTestTestProperties :=
  { Name := name, Directory := ".", Processors := processors, RunSerial := serial, Cost := cost }

/-- Two tests of equal cost, `-j 4`: test 1 (weight 1) depends on test 2 (weight 4). -/
def weightedPair : Setup :=
  { level := 4, showOnly := false, failover := false, costData := none, checkpoint := none,
    tests := [(1, [2]), (2, [])],
    properties := propertiesOfList
      [(1, testProperties "t1" 1 false 0), (2, testProperties "t2" 4 false 0)] }

/-- Three tests, `-j 2`: test 1 is serial, test 2 (cost 2) depends on it, test 3 (cost 1)
is independent. -/
def serialDepend : Setup :=
  { level := 2, showOnly := false, failover := false, costData := none, checkpoint := none,
    tests := [(1, []), (2, [1]), (3, [])],
    properties := propertiesOfList
      [(1, testProperties "t1" 1 true 0), (2, testProperties "t2" 1 false 2),
       (3, testProperties "t3" 1 false 1)] }

/-- Three tests of weight 1 and cost 0 with the given dependency sets, `-j 4`. -/
def threeTests (d1 d2 d3 : TestSet) : Setup :=
  { level := 4, showOnly := false, failover := false, costData := none, checkpoint := none,
    tests := [(1, d1), (2, d2), (3, d3)],
    properties := propertiesOfList
      [(1, testProperties "t1" 1 false 0), (2, testProperties "t2" 1 false 0),
       (3, testProperties "t3" 1 false 0)] }

/-- Scenario S1, `-j 4`: tests 1, 2, 3 of cost 1, test 2 depends on 1 and test 3 on 2. -/
def linearChain : Setup :=
  { level := 4, showOnly := false, failover := false, costData := none, checkpoint := none,
    tests := [(1, []), (2, [1]), (3, [2])],
    properties := propertiesOfList
      [(1, testProperties "t1" 1 false 1), (2, testProperties "t2" 1 false 1),
       (3, testProperties "t3" 1 false 1)] }

/-- Two rounds of dispatch and poll, and a third dispatch, every child starting, exiting
at the first poll and passing. -/
def promptRounds : List Step :=
  [.startNextTests promptEnv 3, .checkOutput promptEnv, .startNextTests promptEnv 3,
   .checkOutput promptEnv, .startNextTests promptEnv 3]

/-- Scenario S2, `-j 1`: test 1 of cost 10 and test 2 of cost 5, no dependencies. -/
def costPair : Setup :=
  { level := 1, showOnly := false, failover := false, costData := none, checkpoint := none,
    tests := [(1, []), (2, [])],
    properties := propertiesOfList
      [(1, testProperties "t1" 1 false 10), (2, testProperties "t2" 1 false 5)] }

/-- Three tests of weight 1, `-j 4`: test 1 of cost 10 and test 2 of cost 5 have no
dependencies, test 3 of cost 20 depends on test 2. -/
def costTriple : Setup :=
  { level := 4, showOnly := false, failover := false, costData := none, checkpoint := none,
    tests := [(1, []), (2, []), (3, [2])],
    properties := propertiesOfList
      [(1, testProperties "t1" 1 false 10), (2, testProperties "t2" 1 false 5),
       (3, testProperties "t3" 1 false 20)] }

/-- A handler at `-j 4` knowing a serial test 1, a test 2 of weight 8 and a test 3 of
weight 2. -/
def weightHandler : cmCTestMultiProcessHandler :=
  { SetParallelLevel (construct false false none none) 4 with
    Properties := propertiesOfList
      [(1, testProperties "t1" 1 true 0), (2, testProperties "t2" 8 false 0),
       (3, testProperties "t3" 2 false 0)] }

/-- Scenario S4, `-j 4`: test 1 depends on test 2 and test 2 on test 1. -/
def cyclePair : Setup :=
  { level := 4, showOnly := false, failover := false, costData := none, checkpoint := none,
    tests := [(1, [2]), (2, [1])],
    properties := propertiesOfList
      [(1, testProperties "t1" 1 false 0), (2, testProperties "t2" 1 false 0)] }

/-- The handler `SetTests` leaves (the freshly constructed one should `SetTests` fault). -/
def Setup.handler (c : Setup) : cmCTestMultiProcessHandler :=
  match c.init with
  | .ok s => s
  | .error _ => construct c.showOnly c.failover c.costData c.checkpoint

/-- What `CheckCycles` leaves alone: every data member but `Tests`, and every entry of
the history but the cycle message. -/
def CycleFrame (a b : cmCTestMultiProcessHandler) : Prop :=
  b.RunningTests = a.RunningTests ∧ b.RunningCount = a.RunningCount ∧
  b.TestRunningMap = a.TestRunningMap ∧ b.TestFinishMap = a.TestFinishMap ∧
  b.Passed = a.Passed ∧ b.Failed = a.Failed ∧ b.Completed = a.Completed ∧
  b.TestCosts = a.TestCosts ∧ b.Properties = a.Properties ∧
  b.ParallelLevel = a.ParallelLevel ∧
  b.Trace.filterMap Event.started = a.Trace.filterMap Event.started

/-- The cost a line records: the `float` that its cost field reads as (none on a line
without a cost field). -/
def CostLine.cost : CostLine → ℚ
  | .short => 0
  | .full _ cost => atofFloat cost

/-- The value an operation returns (`d` should it fault). -/
def valueOr {α : Type} (x : Except Fault α) (d : α) : α :=
  match x with
  | .ok a => a
  | .error _ => d

/-- The value of `GetProcessorsUsed(test)` (0 should it fault). -/
def processorsOf (s : cmCTestMultiProcessHandler) (test : Int) : Nat :=
  valueOr (GetProcessorsUsed s test) 0

/-- The handles whose output check reports exit, in the order of the running set: the
vector `finished` of `CheckOutput`. -/
def exited (env : Env) (s : cmCTestMultiProcessHandler) : List cmCTestRunTest :=
  s.RunningTests.filter (fun p => !env.live p.Index)

/-- The effect of `RemoveTest(index)`. -/
structure RemovedStep (s s' : cmCTestMultiProcessHandler) (index : Int) : Prop where
  tests : s'.Tests = mapErase s.Tests index
  costs : s'.TestCosts = eraseFromFirstBucket s.TestCosts index
  running : ∀ i, s'.TestRunningMap i = if i = index then false else s.TestRunningMap i
  finish : ∀ i, s'.TestFinishMap i = if i = index then true else s.TestFinishMap i
  trace : s'.Trace = s.Trace ++ [Event.markFinished index]
  handles : s'.RunningTests = s.RunningTests
  properties : ∀ i, s'.Properties i = if i = index then none else s.Properties i
  showOnly : s'.ShowOnly = s.ShowOnly
  failover : s'.Failover = s.Failover
  level : s'.ParallelLevel = s.ParallelLevel
  count : s'.RunningCount = s.RunningCount
  completed : s'.Completed = sizeAdd s.Completed 1
  passed : s'.Passed = s.Passed
  failed : s'.Failed = s.Failed
  costData : s'.CostDataFile = s.CostDataFile
  checkpoint : s'.CheckpointFile = s.CheckpointFile

/-- One small step of the scheduler: `operator[]` or a change of `RunningCount`, a call
of `StartTestProcess` (always on a test that is neither running nor finished) with either
outcome, or the handling of one exited handle by `CheckOutput`. -/
inductive Micro : cmCTestMultiProcessHandler → cmCTestMultiProcessHandler → Prop where
  | touch (s s' : cmCTestMultiProcessHandler) : TouchStep s s' → Micro s s'
  | started (s s' : cmCTestMultiProcessHandler) (t : Int) : StartedStep s s' t →
      s.TestRunningMap t = false → s.TestFinishMap t = false → Micro s s'
  | failed (s s' : cmCTestMultiProcessHandler) (t : Int) : FailedStep s s' t →
      s.TestRunningMap t = false → s.TestFinishMap t = false → Micro s s'
  | finished (env : Env) (s s' : cmCTestMultiProcessHandler) (p : cmCTestRunTest) :
      FinishedStep env s s' p → Micro s s'

/-- The number of `RemoveTest` calls that `CheckResume` makes: one for each line of the
checkpoint file when failover is enabled and the file exists. -/
def removals (s : cmCTestMultiProcessHandler) : Nat :=
  if s.Failover = true then (s.CheckpointFile.getD []).length else 0

/-- The states of a run that may resume: the one `SetTests` leaves, and every state a
`CheckResume`, `StartNextTests` or `CheckOutput` step leads to from there; the number
counts the `RemoveTest` calls made on the way. -/
inductive Resumed (c : Setup) : Nat → cmCTestMultiProcessHandler → Prop where
  | setTests (s : cmCTestMultiProcessHandler) : c.init = .ok s → Resumed c 0 s
  | checkResume (n : Nat) (s : cmCTestMultiProcessHandler) :
      Resumed c n s → Resumed c (n + removals s) (CheckResume s)
  | startNextTests (env : Env) (fuel n : Nat) (s s' : cmCTestMultiProcessHandler) :
      Resumed c n s → StartNextTests env fuel s = .ok s' → Resumed c n s'
  | checkOutput (env : Env) (n : Nat) (s s' : cmCTestMultiProcessHandler) (b : Bool) :
      Resumed c n s → CheckOutput env s = .ok (b, s') → Resumed c n s'

/-- The completion count agrees with the pass and fail sequences and `n` removals. -/
def Accounted (n : Nat) (s : cmCTestMultiProcessHandler) : Prop :=
  s.Completed = (s.Passed.length + s.Failed.length + n) % sizeMod

/-- Scenario S5: tests 1 to 4 without dependencies, failover enabled, the checkpoint
file holding the lines `1` and `3`. -/
def resumeRun : Setup :=
  { level := 2, showOnly := false, failover := true, costData := none,
    checkpoint := some [1, 3],
    tests := [(1, []), (2, []), (3, []), (4, [])],
    properties := propertiesOfList
      [(1, testProperties "t1" 1 false 0), (2, testProperties "t2" 1 false 0),
       (3, testProperties "t3" 1 false 0), (4, testProperties "t4" 1 false 0)] }

/-- The test `d` is neither running nor finished. -/
def isOpen (s : cmCTestMultiProcessHandler) (d : Int) : Bool :=
  !s.TestRunningMap d && !s.TestFinishMap d

/-- The lowest-numbered remaining dependency of `t` that is neither running nor finished
(the words of the specification for the dependency `StartTest` follows). -/
def lowestOpen (s : cmCTestMultiProcessHandler) (t : Int) : Option Int :=
  ((mapAt s.Tests t).filter (isOpen s)).min?

/-- All remaining dependencies of `t` are finished. -/
def allFinished (s : cmCTestMultiProcessHandler) (t : Int) : Bool :=
  (mapAt s.Tests t).all (fun d => s.TestFinishMap d)

/-- The test reached from `t` by repeatedly following the lowest-numbered remaining
dependency that is neither running nor finished, until there is none; `fuel` bounds the
number of tests on the way. -/
def launchWalk (s : cmCTestMultiProcessHandler) : Nat → Int → Option Int
  | 0, _ => none
  | fuel + 1, t =>
    match lowestOpen s t with
    | none => some t
    | some d => launchWalk s fuel d

/-- The outcome of `StartTest` when its walk over the dependencies stops at the test `w`
of the handler `s1`: the call of `StartTestProcess(w)` and `true` when no dependency of
`w` is counted as outstanding, `false` otherwise. -/
def launchAt (env : Env) (s1 : cmCTestMultiProcessHandler) (w : Int) :
    Except Fault (Bool × cmCTestMultiProcessHandler) :=
  if ((mapAt s1.Tests w).filter s1.TestRunningMap).length = 0 then
    (StartTestProcess env s1 w).map (fun r => (true, r))
  else .ok (false, s1)

/-- A run resumed from a checkpoint in which a pending test depends on a checkpointed
one, `-j 2`: test 2 depends on test 1, failover is enabled and the checkpoint file holds
the line `1`. -/
def resumeDepend : Setup :=
  { level := 2, showOnly := false, failover := true, costData := none,
    checkpoint := some [1], tests := [(1, []), (2, [1])],
    properties := propertiesOfList
      [(1, testProperties "t1" 1 false 0), (2, testProperties "t2" 1 false 0)] }

/-- The handler after `CheckResume` and `CheckCycles` on the handler of a setup. -/
def Setup.afterCycles (c : Setup) (fuel : Nat) : cmCTestMultiProcessHandler :=
  (valueOr (CheckCycles fuel (CheckResume c.handler)) (false, c.handler)).2

/-- The members of all cost buckets. -/
def bucketMembers (s : cmCTestMultiProcessHandler) : List Int :=
  (s.TestCosts.map Prod.snd).flatten

/-- No test is a member of two buckets. -/
def BucketsDisjoint (m : TestCostMap) : Prop :=
  m.Pairwise (fun e e' => ∀ t, t ∈ e.2 → t ∉ e'.2)

/-- What `RemoveTest` calls never undo. -/
structure Gone (s : cmCTestMultiProcessHandler) (t : Int) : Prop where
  tests : t ∉ s.Tests.map Prod.fst
  costs : ∀ e ∈ s.TestCosts, t ∉ e.2
  properties : s.Properties t = none
  finish : s.TestFinishMap t = true
  running : s.TestRunningMap t = false

/-- The sum of `GetProcessorsUsed` over the tests in the running set. -/
def runningWeight (s : cmCTestMultiProcessHandler) : Nat :=
  (s.RunningTests.map (fun p => processorsOf s p.Index)).sum

/-- No test of the map has a dependency. -/
def NoDepends (tests : TestMap) : Prop := ∀ e ∈ tests, e.2 = []

/-- The budget of a run without dependencies is balanced: no pending test has a
dependency, every running test has properties, and `RunningCount` is the `size_t` value
of the sum of `GetProcessorsUsed` over the running set. -/
structure Balanced (s : cmCTestMultiProcessHandler) : Prop where
  depends : ∀ t, mapAt s.Tests t = []
  known : ∀ p ∈ s.RunningTests, ∃ q, s.Properties p.Index = some q
  count : s.RunningCount = runningWeight s % sizeMod

/-- Two tests of weight 1 without dependencies, `-j 2`. -/
def plainPair : Setup :=
  { level := 2, showOnly := false, failover := false, costData := none, checkpoint := none,
    tests := [(1, []), (2, [])],
    properties := propertiesOfList
      [(1, testProperties "t1" 1 false 0), (2, testProperties "t2" 1 false 0)] }

/-- The child of test 1 fails to start; every other child starts, exits at the first
poll and passes. -/
def failFirst : Env :=
  { start := fun t => if t = 1 then none else some 0, live := fun _ => false,
    pass := fun _ => true, time := fun _ => 1 }

/-- The state after `CheckResume` and one dispatch on the handler of a setup. -/
def Setup.resumedStart (c : Setup) (env : Env) (fuel : Nat) : cmCTestMultiProcessHandler :=
  valueOr (StartNextTests env fuel (CheckResume c.handler)) c.handler

/-- The state after `CheckResume`, one dispatch and one poll on the handler of a setup. -/
def Setup.resumedRound (c : Setup) (env : Env) (fuel : Nat) : cmCTestMultiProcessHandler :=
  (valueOr (CheckOutput env (c.resumedStart env fuel)) (false, c.handler)).2

/-! ## Runs reach reachable states -/

theorem ok_of_map_ok {α β : Type} {x : Except Fault α} {f : α → β} {b : β}
    (h : x.map f = .ok b) : ∃ a, x = .ok a ∧ f a = b := by
  cases x with
  | error e => simp [Except.map] at h
  | ok a => exact ⟨a, rfl, by simpa [Except.map] using h⟩

theorem reachable_of_runFrom {c : Setup} (steps : List Step) :
    ∀ {s s' : cmCTestMultiProcessHandler}, Reachable c s → runFrom steps s = .ok s' →
      Reachable c s' := by
  induction steps with
  | nil =>
    intro s s' hs h
    simp only [runFrom, Except.ok.injEq] at h
    exact h ▸ hs
  | cons st sts ih =>
    intro s s' hs h
    simp only [runFrom] at h
    cases hst : st.apply s with
    | error e => simp [hst] at h
    | ok s1 =>
      simp only [hst] at h
      refine ih ?_ h
      cases st with
      | startNextTests env fuel => exact Reachable.startNextTests env fuel s s1 hs hst
      | checkOutput env =>
        simp only [Step.apply] at hst
        cases hco : CheckOutput env s with
        | error e => simp [hco] at hst
        | ok r =>
          obtain ⟨b, s2⟩ := r
          simp only [hco, Except.ok.injEq] at hst
          exact Reachable.checkOutput env s s1 b hs (hst ▸ hco)

theorem reachable_of_run {c : Setup} {steps : List Step} {s : cmCTestMultiProcessHandler}
    (h : c.run steps = .ok s) : Reachable c s := by
  simp only [Setup.run] at h
  cases hi : c.init with
  | error e => simp [hi] at h
  | ok s0 =>
    simp only [hi] at h
    exact reachable_of_runFrom steps (Reachable.setTests s0 hi) h

/-- A map whose dependency edges all descend along some rank has no cycle. -/
theorem not_hasCycle_of_rank {tests : TestMap} (rank : Int → Nat)
    (h : ∀ a b, DependsOn tests a b → rank b < rank a) : ¬ HasCycle tests := by
  have key : ∀ a b, Relation.TransGen (DependsOn tests) a b → rank b < rank a := by
    intro a b hab
    induction hab with
    | single hab => exact h _ _ hab
    | tail _ hbc ih => exact lt_trans (h _ _ hbc) ih
  rintro ⟨t, ht⟩
  exact lt_irrefl _ (key t t ht)

theorem dependsOn_cons_iff (k : Int) (v : TestSet) (m : TestMap) (a b : Int) :
    DependsOn ((k, v) :: m) a b ↔ (a = k ∧ b ∈ v) ∨ (a ≠ k ∧ DependsOn m a b) := by
  unfold DependsOn mapAt
  by_cases h : a = k <;> simp [mapFind, h]

theorem dependsOn_nil (a b : Int) : DependsOn [] a b ↔ False := by
  simp [DependsOn, mapAt, mapFind]

/-! ## C1 -/

/-- C1 (code bug): the budget invariant `RunningCount <= ParallelLevel` fails.  With
`-j 4`, test 1 (weight 1) depending on test 2 (weight 4), both known, no cycle:
`StartNextTests` starts test 2 on behalf of candidate 1 and adds the candidate's weight 1
to `RunningCount`; when test 2 exits `CheckOutput` subtracts 4, and the `size_t` counter
wraps to `2^64 - 3`, above `ParallelLevel = 4`. -/
theorem C1_running_count_exceeds_level :
    ¬ HasCycle weightedPair.tests ∧ KnownDepends weightedPair.tests ∧
    ∃ s, Reachable weightedPair s ∧ s.ParallelLevel = 4 ∧
      s.RunningCount = 18446744073709551613 := by
  refine ⟨?_, ?_, ?_⟩
  · refine not_hasCycle_of_rank (fun i => if i = 1 then 1 else 0) ?_
    intro a b hab
    simp [weightedPair, dependsOn_cons_iff, dependsOn_nil] at hab
    obtain ⟨rfl, rfl⟩ := hab
    decide
  · intro t d hd
    simp [weightedPair, dependsOn_cons_iff, dependsOn_nil] at hd
    obtain ⟨-, rfl⟩ := hd
    decide
  · have h : (weightedPair.run [.startNextTests promptEnv 2, .checkOutput promptEnv]).map
        (fun s => (s.ParallelLevel, s.RunningCount)) = .ok (4, 18446744073709551613) := rfl
    obtain ⟨s, hs, hv⟩ := ok_of_map_ok h
    simp only [Prod.mk.injEq] at hv
    exact ⟨s, reachable_of_run hs, hv.1, hv.2⟩

/-! ## C3 -/

/-- C3 (code bug): serial exclusivity fails.  With `-j 2`, serial test 1, test 2 (cost 2)
depending on it and independent test 3 (cost 1): one `StartNextTests` pass starts the
serial test 1 on behalf of candidate 2, books only the candidate's weight 1, and then
starts test 3 in the remaining slot, so the serial test 1 and test 3 run together. -/
theorem C3_serial_test_overlaps :
    ¬ HasCycle serialDepend.tests ∧ KnownDepends serialDepend.tests ∧
    ∃ s p q, Reachable serialDepend s ∧ p ∈ s.RunningTests ∧ q ∈ s.RunningTests ∧
      p.Index = 1 ∧ q.Index = 3 ∧ p.TestProperties.RunSerial = true := by
  refine ⟨?_, ?_, ?_⟩
  · refine not_hasCycle_of_rank (fun i => if i = 2 then 1 else 0) ?_
    intro a b hab
    simp [serialDepend, dependsOn_cons_iff, dependsOn_nil] at hab
    obtain ⟨-, rfl, rfl⟩ := hab
    decide
  · intro t d hd
    simp [serialDepend, dependsOn_cons_iff, dependsOn_nil] at hd
    obtain ⟨-, -, rfl⟩ := hd
    decide
  · have h : (serialDepend.run [.startNextTests promptEnv 2]).map (fun s => s.RunningTests)
        = .ok [⟨3, testProperties "t3" 1 false 1⟩, ⟨1, testProperties "t1" 1 true 0⟩] := rfl
    obtain ⟨s, hs, hv⟩ := ok_of_map_ok h
    refine ⟨s, ⟨1, testProperties "t1" 1 true 0⟩, ⟨3, testProperties "t3" 1 false 1⟩,
      reachable_of_run hs, ?_, ?_, rfl, rfl, rfl⟩ <;> simp [hv]

/-! ## C5 -/

/-- C5 (code bug): `CheckCycles` raises a false alarm.  The map in which test 1 depends
on 2 and 3 and test 3 depends on 2 has no cycle, yet `CheckCycles` returns false on it
(whatever fuel it gets beyond the two iterations it needs): after the dependencies of
test 1 are pushed, test 2 is still in `visited` when test 3 is popped. -/
theorem C5_false_alarm_on_diamond :
    ¬ HasCycle (threeTests [2, 3] [] [2]).tests ∧
    ∀ k, (threeTests [2, 3] [] [2]).checkCycles (k + 2) = .ok false := by
  refine ⟨?_, fun k => rfl⟩
  refine not_hasCycle_of_rank (fun i => if i = 1 then 2 else if i = 3 then 1 else 0) ?_
  intro a b hab
  simp [threeTests, dependsOn_cons_iff, dependsOn_nil] at hab
  rcases hab with ⟨rfl, rfl | rfl⟩ | ⟨-, -, rfl, rfl⟩ <;> decide

/-! ## C6 -/

theorem cycleSearch_two_three_loop (fuel : Nat) :
    ∀ this : cmCTestMultiProcessHandler, this.Tests = [(1, [2]), (2, [3]), (3, [2])] →
      cycleSearch fuel this [2] [1] = .error .outOfFuel ∧
      cycleSearch fuel this [3] [1] = .error .outOfFuel := by
  induction fuel with
  | zero => intro this _; exact ⟨rfl, rfl⟩
  | succ n ih =>
    intro this ht
    have h2 := (ih { this with Tests := mapTouch this.Tests 2 } (by simp [ht, mapTouch, mapFind])).2
    have h3 := (ih { this with Tests := mapTouch this.Tests 3 } (by simp [ht, mapTouch, mapFind])).1
    constructor
    · simpa [cycleSearch, ht, mapAt, mapFind, pushDepends] using h2
    · simpa [cycleSearch, ht, mapAt, mapFind, pushDepends] using h3

/-- C6 (code bug): `CheckCycles` does not terminate on every finite map.  On the map
1 depends on 2, 2 depends on 3, 3 depends on 2, the traversal from root 1 alternates
for ever between the stacks `[2]` and `[3]` with `visited = [1]`: with any amount of fuel
the model runs out of it, so the C++ loop never returns a boolean. -/
theorem C6_check_cycles_diverges :
    ∀ fuel, (threeTests [2] [3] [2]).checkCycles fuel = .error .outOfFuel := by
  intro fuel
  have h : (threeTests [2] [3] [2]).init.map (fun s => s.Tests)
      = .ok [(1, [2]), (2, [3]), (3, [2])] := rfl
  obtain ⟨s, hs, ht⟩ := ok_of_map_ok h
  simp only [Setup.checkCycles, hs, CheckCycles, ht]
  cases fuel with
  | zero => rfl
  | succ n =>
    have h2 := (cycleSearch_two_three_loop n { s with Tests := mapTouch s.Tests 1 }
      (by simp [ht, mapTouch, mapFind])).1
    rw [ht] at h2
    simp [firstKey, cycleRoots, cycleSearch, ht, mapAt, mapFind, pushDepends, h2, Except.map]

/-! ## C8 -/

/-- C8: `GetProcessorsUsed(t)` is `ParallelLevel` when `t.RunSerial` is set or
`t.Processors > ParallelLevel`, and `t.Processors` otherwise, for a processor weight that
is a non-negative `int`; and it never exceeds `ParallelLevel`. -/
theorem C8_processors_used (this : cmCTestMultiProcessHandler) (test : Int)
    (p : cmCTestTestProperties) (hp : this.Properties test = some p)
    (h0 : 0 ≤ p.Processors) (hmax : p.Processors ≤ 2147483647) :
    ∃ n, GetProcessorsUsed this test = .ok n ∧ n ≤ this.ParallelLevel ∧
      (p.RunSerial = true ∨ p.Processors > this.ParallelLevel → n = this.ParallelLevel) ∧
      (¬ (p.RunSerial = true ∨ p.Processors > this.ParallelLevel) → (n : Int) = p.Processors) := by
  have hsz : sizeOfInt p.Processors = p.Processors.toNat := by
    unfold sizeOfInt sizeMod
    congr 1
    exact Int.emod_eq_of_lt h0 (by norm_num; omega)
  have hcast : ((p.Processors.toNat : Nat) : Int) = p.Processors := Int.toNat_of_nonneg h0
  unfold GetProcessorsUsed
  rw [hp]
  simp only [hsz]
  by_cases hc : p.RunSerial = true ∨ p.Processors.toNat > this.ParallelLevel
  · rw [if_pos hc]
    exact ⟨_, rfl, le_refl _, fun _ => rfl, fun hn => absurd (hc.imp id (by omega)) hn⟩
  · rw [if_neg hc]
    push_neg at hc
    refine ⟨_, rfl, hc.2, fun h => ?_, fun _ => hcast⟩
    rcases h with h | h
    · exact absurd h hc.1
    · omega

/-- C8 at test 3 (weight 2, not serial) of a handler at `-j 4`. -/
theorem C8_processors_used_witness :
    weightHandler.Properties 3 = some (testProperties "t3" 2 false 0) ∧
    ∃ n, GetProcessorsUsed weightHandler 3 = .ok n ∧ n ≤ weightHandler.ParallelLevel ∧
      ((testProperties "t3" 2 false 0).RunSerial = true ∨
        (testProperties "t3" 2 false 0).Processors > weightHandler.ParallelLevel →
          n = weightHandler.ParallelLevel) ∧
      (¬ ((testProperties "t3" 2 false 0).RunSerial = true ∨
        (testProperties "t3" 2 false 0).Processors > weightHandler.ParallelLevel) →
          (n : Int) = (testProperties "t3" 2 false 0).Processors) :=
  ⟨rfl, C8_processors_used weightHandler 3 (testProperties "t3" 2 false 0) rfl
    (by decide) (by decide)⟩

/-! ## The conversion of decimals to `float` -/

theorem CycleFrame.frame_refl (a : cmCTestMultiProcessHandler) : CycleFrame a a :=
  ⟨rfl, rfl, rfl, rfl, rfl, rfl, rfl, rfl, rfl, rfl, rfl⟩

theorem CycleFrame.frame_trans {a b c : cmCTestMultiProcessHandler} (h1 : CycleFrame a b)
    (h2 : CycleFrame b c) : CycleFrame a c := by
  obtain ⟨a1, a2, a3, a4, a5, a6, a7, a8, a9, a10, a11⟩ := h1
  obtain ⟨b1, b2, b3, b4, b5, b6, b7, b8, b9, b10, b11⟩ := h2
  exact ⟨b1.trans a1, b2.trans a2, b3.trans a3, b4.trans a4, b5.trans a5, b6.trans a6,
    b7.trans a7, b8.trans a8, b9.trans a9, b10.trans a10, b11.trans a11⟩

theorem cycleSearch_frame (fuel : Nat) :
    ∀ (this : cmCTestMultiProcessHandler) (s visited : List Int) (b : Bool)
      (r : cmCTestMultiProcessHandler),
      cycleSearch fuel this s visited = .ok (b, r) → CycleFrame this r := by
  induction fuel with
  | zero =>
    intro this s visited b r h
    cases s with
    | nil =>
      simp only [cycleSearch, Except.ok.injEq, Prod.mk.injEq] at h
      exact h.2 ▸ CycleFrame.frame_refl this
    | cons t s => simp [cycleSearch] at h
  | succ n ih =>
    intro this s visited b r h
    cases s with
    | nil =>
      simp only [cycleSearch, Except.ok.injEq, Prod.mk.injEq] at h
      exact h.2 ▸ CycleFrame.frame_refl this
    | cons t s =>
      simp only [cycleSearch] at h
      split at h
      · split at h
        · simp at h
        · simp only [Except.ok.injEq, Prod.mk.injEq] at h
          rw [← h.2]
          simp [CycleFrame, List.filterMap_append, Event.started]
      · exact (show CycleFrame this { this with Tests := mapTouch this.Tests t } from
          ⟨rfl, rfl, rfl, rfl, rfl, rfl, rfl, rfl, rfl, rfl, rfl⟩).frame_trans (ih _ _ _ _ _ h)

theorem cycleRoots_frame (fuel n : Nat) :
    ∀ (this : cmCTestMultiProcessHandler) (it : Option Int) (b : Bool)
      (r : cmCTestMultiProcessHandler),
      cycleRoots fuel n this it = .ok (b, r) → CycleFrame this r := by
  induction n with
  | zero =>
    intro this it b r h
    cases it with
    | none =>
      simp only [cycleRoots, Except.ok.injEq, Prod.mk.injEq] at h
      exact h.2 ▸ CycleFrame.frame_refl this
    | some k => simp [cycleRoots] at h
  | succ n ih =>
    intro this it b r h
    cases it with
    | none =>
      simp only [cycleRoots, Except.ok.injEq, Prod.mk.injEq] at h
      exact h.2 ▸ CycleFrame.frame_refl this
    | some k =>
      simp only [cycleRoots] at h
      split at h
      · simp at h
      · rename_i r1 hr1
        simp only [Except.ok.injEq, Prod.mk.injEq] at h
        exact h.2 ▸ cycleSearch_frame _ _ _ _ _ _ hr1
      · rename_i r1 hr1
        exact (cycleSearch_frame _ _ _ _ _ _ hr1).frame_trans (ih _ _ _ _ h)

theorem CheckCycles_frame {fuel : Nat} {this r : cmCTestMultiProcessHandler} {b : Bool}
    (h : CheckCycles fuel this = .ok (b, r)) : CycleFrame this r :=
  cycleRoots_frame fuel fuel this _ b r h

theorem RemoveTest_frame (this : cmCTestMultiProcessHandler) (index : Int) :
    (RemoveTest this index).RunningTests = this.RunningTests ∧
    (RemoveTest this index).RunningCount = this.RunningCount ∧
    (RemoveTest this index).Passed = this.Passed ∧
    (RemoveTest this index).Failed = this.Failed ∧
    (RemoveTest this index).Trace.filterMap Event.started
      = this.Trace.filterMap Event.started := by
  simp [RemoveTest, EraseTest, List.filterMap_append, Event.started]

theorem CheckResume_frame (this : cmCTestMultiProcessHandler) :
    (CheckResume this).RunningTests = this.RunningTests ∧
    (CheckResume this).RunningCount = this.RunningCount ∧
    (CheckResume this).Passed = this.Passed ∧
    (CheckResume this).Failed = this.Failed ∧
    (CheckResume this).Trace.filterMap Event.started
      = this.Trace.filterMap Event.started := by
  have hfold : ∀ (lines : List Int) (h : cmCTestMultiProcessHandler),
      (lines.foldl RemoveTest h).RunningTests = h.RunningTests ∧
      (lines.foldl RemoveTest h).RunningCount = h.RunningCount ∧
      (lines.foldl RemoveTest h).Passed = h.Passed ∧
      (lines.foldl RemoveTest h).Failed = h.Failed ∧
      (lines.foldl RemoveTest h).Trace.filterMap Event.started
        = h.Trace.filterMap Event.started := by
    intro lines
    induction lines with
    | nil => intro h; exact ⟨rfl, rfl, rfl, rfl, rfl⟩
    | cons l ls ih =>
      intro h
      obtain ⟨a1, a2, a3, a4, a5⟩ := ih (RemoveTest h l)
      obtain ⟨b1, b2, b3, b4, b5⟩ := RemoveTest_frame h l
      exact ⟨a1.trans b1, a2.trans b2, a3.trans b3, a4.trans b4, a5.trans b5⟩
  unfold CheckResume
  split
  · split
    · exact hfold _ _
    · exact ⟨rfl, rfl, rfl, rfl, rfl⟩
  · split <;> exact ⟨rfl, rfl, rfl, rfl, rfl⟩

/-- C7: if `CheckCycles` returns false, `RunTests` returns the handler `CheckCycles`
leaves, without any dispatch: the running set, `RunningCount` and the pass and fail
sequences are those `RunTests` was entered with, the running and finished flags are those
`CheckResume` left, and the history has no new `StartTestProcess` entry. -/
theorem C7_cycle_dispatches_nothing (start : Env) (env : Nat → Env) (fuel : Nat)
    (this : cmCTestMultiProcessHandler)
    (h : (CheckCycles fuel (CheckResume this)).map Prod.fst = .ok false) :
    ∃ r, CheckCycles fuel (CheckResume this) = .ok (false, r) ∧
      RunTests start env fuel this = .ok r ∧
      r.RunningTests = this.RunningTests ∧ r.RunningCount = this.RunningCount ∧
      r.TestRunningMap = (CheckResume this).TestRunningMap ∧
      r.TestFinishMap = (CheckResume this).TestFinishMap ∧
      r.Passed = this.Passed ∧ r.Failed = this.Failed ∧
      r.Passed = (CheckResume this).Passed ∧ r.Failed = (CheckResume this).Failed ∧
      r.Trace.filterMap Event.started = this.Trace.filterMap Event.started := by
  obtain ⟨⟨b, r⟩, hr, hb⟩ := ok_of_map_ok h
  simp only at hb
  subst hb
  obtain ⟨c1, c2, c3, c4, c5, c6, -, -, -, -, c11⟩ := CheckCycles_frame hr
  obtain ⟨d1, d2, d3, d4, d5⟩ := CheckResume_frame this
  refine ⟨r, hr, ?_, c1.trans d1, c2.trans d2, c3, c4, c5.trans d3, c6.trans d4, c5, c6,
    c11.trans d5⟩
  simp [RunTests, hr]

/-- C7 at scenario S4, where test 1 depends on test 2 and test 2 on test 1. -/
theorem C7_cycle_dispatches_nothing_witness :
    (CheckCycles 3 (CheckResume cyclePair.handler)).map Prod.fst = .ok false ∧
    ∃ r, CheckCycles 3 (CheckResume cyclePair.handler) = .ok (false, r) ∧
      RunTests promptEnv (fun _ => promptEnv) 3 cyclePair.handler = .ok r ∧
      r.RunningTests = cyclePair.handler.RunningTests ∧
      r.RunningCount = cyclePair.handler.RunningCount ∧
      r.TestRunningMap = (CheckResume cyclePair.handler).TestRunningMap ∧
      r.TestFinishMap = (CheckResume cyclePair.handler).TestFinishMap ∧
      r.Passed = cyclePair.handler.Passed ∧ r.Failed = cyclePair.handler.Failed ∧
      r.Passed = (CheckResume cyclePair.handler).Passed ∧
      r.Failed = (CheckResume cyclePair.handler).Failed ∧
      r.Trace.filterMap Event.started = cyclePair.handler.Trace.filterMap Event.started :=
  ⟨rfl, C7_cycle_dispatches_nothing promptEnv (fun _ => promptEnv) 3 cyclePair.handler rfl⟩

/-! ## `operator[]` on the pending map -/

theorem mapFind_mapInsertNew {κ : Type} [LinearOrder κ] (m : List (κ × TestSet)) (k x : κ)
    (hk : mapFind m k = none) :
    mapFind (mapInsertNew m k) x = if x = k then some [] else mapFind m x := by
  induction m with
  | nil => by_cases h : x = k <;> simp [mapInsertNew, mapFind, h]
  | cons e m ih =>
    obtain ⟨k', v⟩ := e
    have hkk : ¬ k = k' := by
      intro h; simp [mapFind, h] at hk
    have hk' : mapFind m k = none := by simpa [mapFind, hkk] using hk
    unfold mapInsertNew
    by_cases hlt : k < k'
    · by_cases hx : x = k
      · subst hx; simp [mapFind, hlt]
      · simp [mapFind, hlt, hx]
    · simp only [hlt, if_false]
      by_cases hx : x = k
      · subst hx
        simp only [mapFind, hkk, if_false, if_true]
        simpa using ih hk'
      · by_cases hx' : x = k'
        · subst hx'
          simp [mapFind, hx]
        · simp only [mapFind, hx', if_false, hx]
          simpa [hx] using ih hk'

theorem mapFind_mapTouch {κ : Type} [LinearOrder κ] (m : List (κ × TestSet)) (k x : κ) :
    mapFind (mapTouch m k) x = if x = k then some (mapAt m k) else mapFind m x := by
  unfold mapTouch
  cases hf : mapFind m k with
  | some v =>
    by_cases hx : x = k
    · subst hx; simp [mapAt, hf]
    · simp [hx]
  | none =>
    simp only
    rw [mapFind_mapInsertNew m k x hf]
    by_cases hx : x = k
    · simp [hx, hf, mapAt]
    · simp [hx]

theorem mapAt_mapTouch {κ : Type} [LinearOrder κ] (m : List (κ × TestSet)) (k x : κ) :
    mapAt (mapTouch m k) x = mapAt m x := by
  unfold mapAt
  rw [mapFind_mapTouch]
  by_cases h : x = k
  · subst h; simp [mapAt]
  · simp [h]

theorem mem_mapInsertNew {κ : Type} [LinearOrder κ] (m : List (κ × TestSet)) (k : κ)
    (e : κ × TestSet) : e ∈ mapInsertNew m k ↔ e = (k, []) ∨ e ∈ m := by
  induction m with
  | nil => simp [mapInsertNew]
  | cons e' m ih =>
    obtain ⟨k', v⟩ := e'
    unfold mapInsertNew
    by_cases hlt : k < k'
    · simp [hlt]
    · simp only [hlt, if_false, List.mem_cons, ih]
      tauto

theorem mem_keys_mapInsertNew {κ : Type} [LinearOrder κ] (m : List (κ × TestSet)) (k x : κ) :
    x ∈ (mapInsertNew m k).map Prod.fst ↔ x = k ∨ x ∈ m.map Prod.fst := by
  simp only [List.mem_map, mem_mapInsertNew]
  constructor
  · rintro ⟨e, he | he, rfl⟩
    · exact Or.inl (by rw [he])
    · exact Or.inr ⟨e, he, rfl⟩
  · rintro (rfl | ⟨e, he, rfl⟩)
    · exact ⟨(x, []), Or.inl rfl, rfl⟩
    · exact ⟨e, Or.inr he, rfl⟩

theorem mem_keys_of_mapFind {κ : Type} [DecidableEq κ] (m : List (κ × TestSet)) (k : κ)
    (v : TestSet) (h : mapFind m k = some v) : k ∈ m.map Prod.fst := by
  induction m with
  | nil => simp [mapFind] at h
  | cons e m ih =>
    obtain ⟨k', v'⟩ := e
    by_cases hk : k = k'
    · simp [hk]
    · simp only [mapFind, hk, if_false] at h
      simp only [List.map_cons, List.mem_cons]
      exact Or.inr (ih h)

theorem mem_of_mapFind {κ : Type} [DecidableEq κ] (m : List (κ × TestSet)) (k : κ)
    (v : TestSet) (h : mapFind m k = some v) : (k, v) ∈ m := by
  induction m with
  | nil => simp [mapFind] at h
  | cons e m ih =>
    obtain ⟨k', v'⟩ := e
    by_cases hk : k = k'
    · simp only [mapFind, hk, if_true, Option.some.injEq] at h
      simp [hk, h]
    · simp only [mapFind, hk, if_false] at h
      exact List.mem_cons_of_mem _ (ih h)

theorem mapFind_eq_none_iff {κ : Type} [DecidableEq κ] (m : List (κ × TestSet)) (k : κ) :
    mapFind m k = none ↔ k ∉ m.map Prod.fst := by
  induction m with
  | nil => simp [mapFind]
  | cons e m ih =>
    obtain ⟨k', v'⟩ := e
    by_cases hk : k = k'
    · simp [mapFind, hk]
    · simp [mapFind, hk, ih]

theorem mem_mapTouch {κ : Type} [LinearOrder κ] (m : List (κ × TestSet)) (k : κ)
    (e : κ × TestSet) : e ∈ mapTouch m k → e = (k, []) ∨ e ∈ m := by
  unfold mapTouch
  cases hf : mapFind m k with
  | some v => exact Or.inr
  | none => exact (mem_mapInsertNew m k e).1

theorem mem_keys_mapTouch {κ : Type} [LinearOrder κ] (m : List (κ × TestSet)) (k x : κ) :
    x ∈ (mapTouch m k).map Prod.fst ↔ x = k ∨ x ∈ m.map Prod.fst := by
  unfold mapTouch
  cases hf : mapFind m k with
  | some v =>
    simp only
    constructor
    · exact Or.inr
    · rintro (rfl | h)
      · exact mem_keys_of_mapFind m x v hf
      · exact h
  | none => exact mem_keys_mapInsertNew m k x

theorem pairwise_keys_mapInsertNew {κ : Type} [LinearOrder κ] (m : List (κ × TestSet)) (k : κ)
    (h : (m.map Prod.fst).Pairwise (fun a b => a < b)) (hk : k ∉ m.map Prod.fst) :
    ((mapInsertNew m k).map Prod.fst).Pairwise (fun a b => a < b) := by
  induction m with
  | nil => simp [mapInsertNew]
  | cons e m ih =>
    obtain ⟨k', v⟩ := e
    unfold mapInsertNew
    simp only [List.map_cons, List.mem_cons, not_or] at hk
    by_cases hlt : k < k'
    · simp only [hlt, if_true]
      simp only [List.map_cons, List.pairwise_cons] at h ⊢
      refine ⟨?_, h⟩
      intro a ha
      rcases List.mem_cons.1 ha with rfl | ha
      · exact hlt
      · exact lt_trans hlt (h.1 a ha)
    · simp only [hlt, if_false]
      simp only [List.map_cons, List.pairwise_cons] at h ⊢
      refine ⟨?_, ih h.2 hk.2⟩
      intro a ha
      rcases (mem_keys_mapInsertNew m k a).1 ha with rfl | ha
      · exact lt_of_le_of_ne (not_lt.1 hlt) (fun h => hk.1 h.symm)
      · exact h.1 a ha

theorem pairwise_keys_mapTouch {κ : Type} [LinearOrder κ] (m : List (κ × TestSet)) (k : κ)
    (h : (m.map Prod.fst).Pairwise (fun a b => a < b)) :
    ((mapTouch m k).map Prod.fst).Pairwise (fun a b => a < b) := by
  unfold mapTouch
  cases hf : mapFind m k with
  | some v => exact h
  | none => exact pairwise_keys_mapInsertNew m k h ((mapFind_eq_none_iff m k).1 hf)

theorem sortedKeys_mapTouch (m : TestMap) (k : Int) (h : SortedKeys m) :
    SortedKeys (mapTouch m k) :=
  pairwise_keys_mapTouch m k h

theorem mem_keys_of_mapAt_ne_nil (m : TestMap) (x : Int) (h : mapAt m x ≠ []) :
    x ∈ m.map Prod.fst := by
  induction m with
  | nil => simp [mapAt, mapFind] at h
  | cons e m ih =>
    obtain ⟨k', v⟩ := e
    by_cases hx : x = k'
    · simp [hx]
    · simp only [mapAt, mapFind, hx, if_false] at h
      simp only [List.map_cons, List.mem_cons]
      exact Or.inr (ih h)

/-! ## The iterator of `CheckCycles` -/

theorem firstKey_le (m : TestMap) (r : Int) (hs : SortedKeys m) (hr : r ∈ m.map Prod.fst) :
    ∃ k, firstKey m = some k ∧ k ≤ r := by
  cases m with
  | nil => simp at hr
  | cons e m =>
    refine ⟨e.1, rfl, ?_⟩
    unfold SortedKeys at hs
    simp only [List.map_cons, List.pairwise_cons, List.mem_cons] at hs hr
    rcases hr with rfl | hr
    · exact le_refl _
    · exact le_of_lt (hs.1 r hr)

theorem nextKey_le (m : TestMap) (k r : Int) (hs : SortedKeys m) (hr : r ∈ m.map Prod.fst)
    (hk : k < r) : ∃ k', nextKey m k = some k' ∧ k' ≤ r := by
  induction m with
  | nil => simp at hr
  | cons e m ih =>
    unfold SortedKeys at hs
    simp only [List.map_cons, List.pairwise_cons, List.mem_cons] at hs hr
    by_cases hlt : k < e.1
    · refine ⟨e.1, by simp [nextKey, List.find?, hlt], ?_⟩
      rcases hr with rfl | hr
      · exact le_refl _
      · exact le_of_lt (hs.1 r hr)
    · have hr' : r ∈ m.map Prod.fst := by
        rcases hr with rfl | hr
        · exact absurd hk hlt
        · exact hr
      obtain ⟨k', h1, h2⟩ := ih hs.2 hr'
      refine ⟨k', ?_, h2⟩
      simpa [nextKey, List.find?, hlt] using h1

/-! ## The traversal of `CheckCycles` -/

theorem pushDepends_pushed (ds : List Int) :
    ∀ (s v s' v' : List Int), pushDepends ds s v = .pushed s' v' →
      s' = ds.reverse ++ s ∧ v' = v ++ ds ∧ ∀ d ∈ ds, d ∉ v := by
  induction ds with
  | nil =>
    intro s v s' v' h
    simp only [pushDepends, PushResult.pushed.injEq] at h
    simp [h.1, h.2]
  | cons d ds ih =>
    intro s v s' v' h
    simp only [pushDepends] at h
    split at h
    · simp at h
    · rename_i hd
      obtain ⟨h1, h2, h3⟩ := ih _ _ _ _ h
      refine ⟨by simp [h1], by simp [h2], ?_⟩
      intro x hx
      rcases List.mem_cons.1 hx with rfl | hx
      · exact hd
      · exact fun hv => h3 x hx (List.mem_append_left _ hv)

/-- What the traversal does to `Tests`: `operator[]` may add keys, with empty sets. -/
theorem cycleSearch_tests (fuel : Nat) :
    ∀ (this : cmCTestMultiProcessHandler) (s v : List Int) (b : Bool)
      (r : cmCTestMultiProcessHandler), cycleSearch fuel this s v = .ok (b, r) →
      (∀ x, mapAt r.Tests x = mapAt this.Tests x) ∧
      (∀ x ∈ this.Tests.map Prod.fst, x ∈ r.Tests.map Prod.fst) ∧
      (SortedKeys this.Tests → SortedKeys r.Tests) := by
  induction fuel with
  | zero =>
    intro this s v b r h
    cases s with
    | nil =>
      simp only [cycleSearch, Except.ok.injEq, Prod.mk.injEq] at h
      rw [← h.2]
      exact ⟨fun _ => rfl, fun _ hx => hx, id⟩
    | cons t s => simp [cycleSearch] at h
  | succ n ih =>
    intro this s v b r h
    cases s with
    | nil =>
      simp only [cycleSearch, Except.ok.injEq, Prod.mk.injEq] at h
      rw [← h.2]
      exact ⟨fun _ => rfl, fun _ hx => hx, id⟩
    | cons t s =>
      simp only [cycleSearch] at h
      split at h
      · split at h
        · simp at h
        · simp only [Except.ok.injEq, Prod.mk.injEq] at h
          rw [← h.2]
          exact ⟨fun x => mapAt_mapTouch _ _ _,
            fun x hx => (mem_keys_mapTouch _ _ _).2 (Or.inr hx),
            fun hs => sortedKeys_mapTouch _ _ hs⟩
      · obtain ⟨h1, h2, h3⟩ := ih _ _ _ _ _ h
        exact ⟨fun x => (h1 x).trans (mapAt_mapTouch _ _ _),
          fun x hx => h2 x ((mem_keys_mapTouch _ _ _).2 (Or.inr hx)),
          fun hs => h3 (sortedKeys_mapTouch _ _ hs)⟩

/-- From a root on a cycle the traversal never runs its stack empty: the root stays at
the front of `visited`, and some test on the stack still reaches the root. -/
theorem cycleSearch_root_on_cycle (tests : TestMap) (root : Int)
    (fuel : Nat) :
    ∀ (this : cmCTestMultiProcessHandler) (s v : List Int),
      (∀ x, mapAt this.Tests x = mapAt tests x) → v.head? = some root →
      v.length = s.length → (∃ x ∈ s, Relation.TransGen (DependsOn tests) x root) →
      ∀ r, cycleSearch fuel this s v ≠ .ok (true, r) := by
  induction fuel with
  | zero =>
    intro this s v _ _ _ hx r
    cases s with
    | nil => simp at hx
    | cons t s => simp [cycleSearch]
  | succ n ih =>
    intro this s v hsame hhead hlen hx r
    cases s with
    | nil => simp at hx
    | cons t s =>
      simp only [cycleSearch]
      split
      · split <;> simp
      · rename_i s' v' hpush
        obtain ⟨hs', hv', hfresh⟩ := pushDepends_pushed _ _ _ _ _ hpush
        have hv_ne : v ≠ [] := by
          intro h; simp [h] at hhead
        have hroot_v : root ∈ v := by
          cases v with
          | nil => exact absurd rfl hv_ne
          | cons a v =>
            simp only [List.head?_cons, Option.some.injEq] at hhead
            simp [hhead]
        -- some test on the new stack reaches the root
        have hx' : ∃ x ∈ s', Relation.TransGen (DependsOn tests) x root := by
          obtain ⟨x, hxs, hxr⟩ := hx
          rcases List.mem_cons.1 hxs with rfl | hxs
          · obtain ⟨y, hxy, hyr⟩ := Relation.TransGen.head'_iff.1 hxr
            have hy : y ∈ mapAt this.Tests x := by rw [hsame]; exact hxy
            rcases Relation.reflTransGen_iff_eq_or_transGen.1 hyr with heq | hyr
            · subst heq
              exact absurd hroot_v (hfresh _ hy)
            · exact ⟨y, by simp [hs', hy], hyr⟩
          · exact ⟨x, by simp [hs', hxs], hxr⟩
        have hs'_pos : 0 < s'.length := by
          obtain ⟨x, hxs, _⟩ := hx'
          exact List.length_pos_of_mem hxs
        have hlen' : v'.length = s'.length + 1 := by
          simp [hs', hv', hlen]; omega
        refine ih _ _ _ (fun x => (mapAt_mapTouch _ _ _).trans (hsame x)) ?_ ?_ hx' r
        · rw [List.head?_dropLast, if_pos (by omega), hv']
          cases v with
          | nil => exact absurd rfl hv_ne
          | cons a v => simpa using hhead
        · simp [hlen']

/-- The loop over the roots never returns true while a root on a cycle lies ahead. -/
theorem cycleRoots_root_ahead (tests : TestMap) (root : Int)
    (hroot : Relation.TransGen (DependsOn tests) root root) (fuel n : Nat) :
    ∀ (this : cmCTestMultiProcessHandler) (k : Int),
      (∀ x, mapAt this.Tests x = mapAt tests x) → SortedKeys this.Tests →
      root ∈ this.Tests.map Prod.fst → k ≤ root →
      ∀ r, cycleRoots fuel n this (some k) ≠ .ok (true, r) := by
  induction n with
  | zero => intro this k _ _ _ _ r; simp [cycleRoots]
  | succ n ih =>
    intro this k hsame hsorted hmem hk r
    simp only [cycleRoots]
    split
    · simp
    · simp
    · rename_i this' hsearch
      obtain ⟨h1, h2, h3⟩ := cycleSearch_tests _ _ _ _ _ _ hsearch
      rcases eq_or_lt_of_le hk with rfl | hlt
      · exact absurd hsearch
          (cycleSearch_root_on_cycle tests k fuel this [k] [k] hsame rfl rfl
            ⟨k, by simp, hroot⟩ this')
      · obtain ⟨k', hk', hle⟩ := nextKey_le this'.Tests k root (h3 hsorted) (h2 _ hmem) hlt
        rw [hk']
        exact ih this' k' (fun x => (h1 x).trans (hsame x)) (h3 hsorted) (h2 _ hmem) hle r

/-- C4: on a pending map (keys in ascending order, as in a `std::map`) that has a
dependency cycle, `CheckCycles` never returns true, whatever fuel it is given: if it
returns, it returns false.  Equivalently, if `CheckCycles` returns true the map has no
cycle. -/
theorem C4_cycle_never_missed (fuel : Nat) (this : cmCTestMultiProcessHandler)
    (hsorted : SortedKeys this.Tests) (hcycle : HasCycle this.Tests) :
    ∀ r, CheckCycles fuel this ≠ .ok (true, r) := by
  obtain ⟨root, hroot⟩ := hcycle
  have hmem : root ∈ this.Tests.map Prod.fst := by
    obtain ⟨y, hy, _⟩ := Relation.TransGen.head'_iff.1 hroot
    exact mem_keys_of_mapAt_ne_nil _ _ (List.ne_nil_of_mem hy)
  obtain ⟨k, hk, hle⟩ := firstKey_le this.Tests root hsorted hmem
  intro r
  unfold CheckCycles
  rw [hk]
  exact cycleRoots_root_ahead this.Tests root hroot fuel fuel this k (fun _ => rfl) hsorted
    hmem hle r

/-- C4 at scenario S4: the map has a cycle, and `CheckCycles` returns false on it. -/
theorem C4_cycle_never_missed_witness :
    SortedKeys cyclePair.handler.Tests ∧ HasCycle cyclePair.handler.Tests ∧
    (∀ r, CheckCycles 3 cyclePair.handler ≠ .ok (true, r)) ∧
    cyclePair.checkCycles 3 = .ok false := by
  have hs : SortedKeys cyclePair.handler.Tests := by
    show SortedKeys [(1, [2]), (2, [1])]
    simp [SortedKeys]
  have hc : HasCycle cyclePair.handler.Tests := by
    show HasCycle [(1, [2]), (2, [1])]
    have h12 : DependsOn [(1, [2]), (2, [1])] 1 2 := by
      show (2 : Int) ∈ mapAt [(1, [2]), (2, [1])] 1
      decide
    have h21 : DependsOn [(1, [2]), (2, [1])] 2 1 := by
      show (1 : Int) ∈ mapAt [(1, [2]), (2, [1])] 2
      decide
    exact ⟨1, Relation.TransGen.tail (Relation.TransGen.single h12) h21⟩
  exact ⟨hs, hc, C4_cycle_never_missed 3 cyclePair.handler hs hc, rfl⟩

/-! ## Histories -/

theorem eachAfter_nil (e req : Event) : EachAfter [] e req := by
  intro pre post h
  simp at h

theorem eachAfter_concat (trace : List Event) (x e req : Event) :
    EachAfter (trace ++ [x]) e req ↔ EachAfter trace e req ∧ (x = e → req ∈ trace) := by
  constructor
  · intro h
    refine ⟨fun pre post hp => ?_, fun hx => ?_⟩
    · exact h pre (post ++ [x]) (by simp [hp])
    · exact h trace [] (by simp [hx])
  · rintro ⟨h1, h2⟩ pre post hp
    rcases List.eq_nil_or_concat post with rfl | ⟨post', y, rfl⟩
    · have := List.append_inj' hp (by simp)
      obtain ⟨ht, hx⟩ := this
      simp only [List.cons.injEq, and_true] at hx
      exact ht ▸ h2 hx
    · have hp' : trace ++ [x] = (pre ++ e :: post') ++ [y] := by simp [hp]
      have := List.append_inj' hp' rfl
      exact h1 pre post' this.1

theorem eachAfter_concat_of_ne (trace : List Event) (x e req : Event) (hx : x ≠ e)
    (h : EachAfter trace e req) : EachAfter (trace ++ [x]) e req :=
  (eachAfter_concat trace x e req).2 ⟨h, fun hxe => absurd hxe hx⟩

theorem EachAfter.mem_of_mem {trace : List Event} {e req : Event} (h : EachAfter trace e req)
    (he : e ∈ trace) : req ∈ trace := by
  obtain ⟨pre, post, hp⟩ := List.append_of_mem he
  rw [hp]
  exact List.mem_append_left _ (h pre post hp)

theorem EachAfter.after_trans {trace : List Event} {a b c : Event} (hab : EachAfter trace a b)
    (hbc : EachAfter trace b c) : EachAfter trace a c := by
  intro pre post hp
  have hb := hab pre post hp
  obtain ⟨pre', post', hp'⟩ := List.append_of_mem hb
  have := hbc pre' (post' ++ a :: post) (by rw [hp, hp']; simp)
  rw [hp']
  exact List.mem_append_left _ this

theorem mem_started_iff (trace : List Event) (t : Int) :
    t ∈ trace.filterMap Event.started ↔ Event.startProcess t ∈ trace := by
  simp only [List.mem_filterMap]
  constructor
  · rintro ⟨e, he, hs⟩
    cases e <;> simp [Event.started] at hs
    exact hs ▸ he
  · intro h
    exact ⟨_, h, rfl⟩

/-- A split of the sequence of started tests comes from a split of the history. -/
theorem split_of_started_split (trace : List Event) :
    ∀ (l1 l2 : List Int) (t : Int), trace.filterMap Event.started = l1 ++ t :: l2 →
      ∃ pre post, trace = pre ++ Event.startProcess t :: post ∧
        pre.filterMap Event.started = l1 := by
  induction trace with
  | nil => intro l1 l2 t h; simp at h
  | cons e trace ih =>
    intro l1 l2 t h
    cases e with
    | startProcess x =>
      simp only [List.filterMap_cons, Event.started] at h
      cases l1 with
      | nil =>
        simp only [List.nil_append, List.cons.injEq] at h
        exact ⟨[], trace, by simp [h.1], rfl⟩
      | cons y l1 =>
        simp only [List.cons_append, List.cons.injEq] at h
        obtain ⟨pre, post, hp, hl⟩ := ih l1 l2 t h.2
        exact ⟨Event.startProcess x :: pre, post, by simp [hp],
          by simp [List.filterMap_cons, Event.started, hl, h.1]⟩
    | markFinished x =>
      simp only [List.filterMap_cons, Event.started] at h
      obtain ⟨pre, post, hp, hl⟩ := ih l1 l2 t h
      exact ⟨Event.markFinished x :: pre, post, by simp [hp],
        by simp [List.filterMap_cons, Event.started, hl]⟩
    | cycleError x =>
      simp only [List.filterMap_cons, Event.started] at h
      obtain ⟨pre, post, hp, hl⟩ := ih l1 l2 t h
      exact ⟨Event.cycleError x :: pre, post, by simp [hp],
        by simp [List.filterMap_cons, Event.started, hl]⟩

/-! ## The running set -/

theorem insertAt_perm (k : Nat) (p : cmCTestRunTest) (l : List cmCTestRunTest) :
    List.Perm (insertAt k p l) (p :: l) := by
  unfold insertAt
  refine List.perm_middle.trans ?_
  rw [List.take_append_drop]

theorem mem_insertAt (k : Nat) (p q : cmCTestRunTest) (l : List cmCTestRunTest) :
    q ∈ insertAt k p l ↔ q = p ∨ q ∈ l := by
  rw [(insertAt_perm k p l).mem_iff, List.mem_cons]

theorem length_le_one_of_nodup_of_eq {l : List Int} (hn : l.Nodup)
    (h : ∀ x ∈ l, ∀ y ∈ l, x = y) : l.length ≤ 1 := by
  match l, hn, h with
  | [], _, _ => simp
  | [_], _, _ => simp
  | x :: y :: l, hn, h =>
    have hxy : x = y := h x (by simp) y (by simp)
    simp [hxy] at hn

/-! ## Sets and maps -/

theorem mem_setErase (s : TestSet) (t x : Int) : x ∈ setErase s t ↔ x ∈ s ∧ x ≠ t := by
  simp [setErase]

theorem mem_setInsertNew (s : TestSet) (t x : Int) : x ∈ setInsertNew s t ↔ x = t ∨ x ∈ s := by
  induction s with
  | nil => simp [setInsertNew]
  | cons y s ih =>
    unfold setInsertNew
    split
    · simp
    · simp only [List.mem_cons, ih]
      tauto

theorem mem_setInsert (s : TestSet) (t x : Int) : x ∈ setInsert s t ↔ x = t ∨ x ∈ s := by
  unfold setInsert
  split
  · rename_i h
    constructor
    · exact Or.inr
    · rintro (rfl | hx)
      · exact h
      · exact hx
  · exact mem_setInsertNew s t x

theorem mapAt_mapErase (m : TestMap) (t x : Int) :
    mapAt (mapErase m t) x = if x = t then [] else mapAt m x := by
  induction m with
  | nil => simp [mapErase, mapAt, mapFind]
  | cons e m ih =>
    obtain ⟨k, v⟩ := e
    unfold mapAt mapErase at ih ⊢
    by_cases hk : k = t
    · subst hk
      by_cases hx : x = k
      · simp only [List.filter_cons, hx, ne_eq, not_true_eq_false, decide_False, if_true] at ih ⊢
        simpa [hx] using ih
      · simp only [List.filter_cons, ne_eq, not_true_eq_false, decide_False, hx, if_false,
          mapFind] at ih ⊢
        simpa [hx] using ih
    · by_cases hx : x = k
      · have hxt : ¬ x = t := by rw [hx]; exact hk
        simp [List.filter_cons, hk, mapFind, hx]
      · simp only [List.filter_cons, ne_eq, hk, not_false_eq_true, decide_True, if_true,
          mapFind, hx, if_false]
        exact ih

theorem mapAt_map_setErase (m : TestMap) (t x : Int) :
    mapAt (m.map (fun (e : Int × TestSet) => (e.1, setErase e.2 t))) x
      = setErase (mapAt m x) t := by
  induction m with
  | nil => simp [mapAt, mapFind, setErase]
  | cons e m ih =>
    obtain ⟨k, v⟩ := e
    unfold mapAt at ih ⊢
    by_cases hx : x = k
    · simp [mapFind, hx]
    · simpa [mapFind, hx] using ih

/-! ## The cost buckets under `EraseTest` -/

theorem keys_eraseFromFirstBucket (m : TestCostMap) (t : Int) :
    (eraseFromFirstBucket m t).map Prod.fst = m.map Prod.fst := by
  induction m with
  | nil => rfl
  | cons e m ih =>
    obtain ⟨c, s⟩ := e
    unfold eraseFromFirstBucket
    split
    · rfl
    · simp [ih]

theorem mem_eraseFromFirstBucket (m : TestCostMap) (t : Int) (e' : ℚ × TestSet)
    (h : e' ∈ eraseFromFirstBucket m t) :
    ∃ e ∈ m, e'.1 = e.1 ∧ ∀ x ∈ e'.2, x ∈ e.2 := by
  induction m with
  | nil => simp [eraseFromFirstBucket] at h
  | cons e m ih =>
    obtain ⟨c, s⟩ := e
    unfold eraseFromFirstBucket at h
    split at h
    · rcases List.mem_cons.1 h with rfl | h
      · exact ⟨(c, s), by simp, rfl, fun x hx => ((mem_setErase s t x).1 hx).1⟩
      · exact ⟨e', List.mem_cons_of_mem _ h, rfl, fun x hx => hx⟩
    · rcases List.mem_cons.1 h with rfl | h
      · exact ⟨(c, s), by simp, rfl, fun x hx => hx⟩
      · obtain ⟨e, he, h1, h2⟩ := ih h
        exact ⟨e, List.mem_cons_of_mem _ he, h1, h2⟩

theorem mem_mapAt_eraseFromFirstBucket (m : TestCostMap) (t x : Int) (k : ℚ) (hx : x ≠ t)
    (h : x ∈ mapAt m k) : x ∈ mapAt (eraseFromFirstBucket m t) k := by
  induction m with
  | nil => simp [mapAt, mapFind] at h
  | cons e m ih =>
    obtain ⟨c, s⟩ := e
    unfold mapAt at h ih ⊢
    unfold eraseFromFirstBucket
    by_cases hk : k = c
    · simp only [mapFind, hk, if_true, Option.getD_some] at h
      split
      · simp only [mapFind, hk, if_true, Option.getD_some]
        exact (mem_setErase s t x).2 ⟨h, hx⟩
      · simpa [mapFind, hk] using h
    · simp only [mapFind, hk, if_false] at h
      split
      · simpa [mapFind, hk] using h
      · simpa [mapFind, hk] using ih h

theorem mem_of_mem_mapAt {κ : Type} [DecidableEq κ] (m : List (κ × TestSet)) (k : κ) (x : Int)
    (h : x ∈ mapAt m k) : ∃ e ∈ m, e.1 = k ∧ x ∈ e.2 := by
  unfold mapAt at h
  cases hf : mapFind m k with
  | none => simp [hf] at h
  | some v =>
    simp only [hf, Option.getD_some] at h
    exact ⟨(k, v), mem_of_mapFind m k v hf, rfl, h⟩

/-! ## What the primitive steps do to the handler -/

theorem GetProcessorsUsed_congr {s s' : cmCTestMultiProcessHandler}
    (hp : s'.Properties = s.Properties) (hl : s'.ParallelLevel = s.ParallelLevel) (t : Int) :
    GetProcessorsUsed s' t = GetProcessorsUsed s t := by
  simp [GetProcessorsUsed, hp, hl]

theorem StartTestProcess_step {env : Env} {s s' : cmCTestMultiProcessHandler} {t : Int}
    (h : StartTestProcess env s t = .ok s') : StartedStep s s' t ∨ FailedStep s s' t := by
  unfold StartTestProcess at h
  simp only [EraseTest] at h
  cases hp : s.Properties t with
  | none => simp [hp] at h
  | some p =>
    simp only [hp] at h
    cases hstart : env.start t with
    | some k =>
      simp only [hstart, Except.ok.injEq] at h
      subst h
      exact Or.inl
        { tests := rfl, costs := rfl, running := fun i => rfl, finish := rfl, trace := rfl,
          handles := ⟨k, p, hp, rfl⟩, properties := rfl, showOnly := rfl, level := rfl,
          count := rfl, completed := rfl, passed := rfl, failed := rfl, costData := rfl,
          checkpoint := rfl }
    | none =>
      simp only [hstart] at h
      split at h
      · simp at h
      · rename_i n hn
        simp only [Except.ok.injEq] at h
        subst h
        refine Or.inr
          { tests := rfl, costs := rfl, running := fun i => ?_, finish := fun i => rfl,
            trace := by simp, handles := rfl, properties := rfl, showOnly := rfl,
            level := rfl, count := ⟨n, ?_, rfl⟩, completed := rfl, passed := rfl,
            failed := ⟨p, hp, rfl⟩, costData := rfl, checkpoint := rfl }
        · simp only [flagSet]
          split <;> simp_all
        · rw [← hn]
          exact (GetProcessorsUsed_congr rfl rfl t).symm

theorem finishTest_step {env : Env} {s s' : cmCTestMultiProcessHandler} {p : cmCTestRunTest}
    (h : finishTest env s p = .ok s') : FinishedStep env s s' p := by
  unfold finishTest at h
  simp only [WriteCheckpoint, WriteCostData] at h
  split at h
  · simp at h
  · rename_i n hn
    simp only [Except.ok.injEq] at h
    subst h
    have hn' : GetProcessorsUsed s p.Index = .ok n := by
      rw [← hn]
      refine (GetProcessorsUsed_congr ?_ ?_ p.Index).symm
      · simp only; split <;> rfl
      · simp only; split <;> rfl
    by_cases hpass : env.pass p.Index = true
    · exact
        { tests := by simp [hpass], costs := by simp [hpass],
          running := fun i => by simp [hpass, flagSet],
          finish := fun i => by simp [hpass, flagSet], trace := by simp [hpass],
          handles := by simp [hpass], properties := by simp [hpass],
          showOnly := by simp [hpass], level := by simp [hpass],
          count := ⟨n, hn', by simp [hpass]⟩, completed := by simp [hpass],
          passed := by simp [hpass], failed := by simp [hpass],
          costData := by simp [hpass], checkpoint := by simp [hpass] }
    · exact
        { tests := by simp [hpass], costs := by simp [hpass],
          running := fun i => by simp [hpass, flagSet],
          finish := fun i => by simp [hpass, flagSet], trace := by simp [hpass],
          handles := by simp [hpass], properties := by simp [hpass],
          showOnly := by simp [hpass], level := by simp [hpass],
          count := ⟨n, hn', by simp [hpass]⟩, completed := by simp [hpass],
          passed := by simp [hpass], failed := by simp [hpass],
          costData := by simp [hpass], checkpoint := by simp [hpass] }

theorem TouchStep.touch_refl (s : cmCTestMultiProcessHandler) : TouchStep s s :=
  { tests := fun _ => rfl, keys := fun _ h => h, costs := rfl, running := rfl, finish := rfl,
    trace := rfl, handles := rfl, properties := rfl, showOnly := rfl, level := rfl,
    completed := rfl, passed := rfl, failed := rfl, costData := rfl, checkpoint := rfl }

theorem TouchStep.of_touch (s : cmCTestMultiProcessHandler) (t : Int) :
    TouchStep s { s with Tests := mapTouch s.Tests t } :=
  { tests := fun x => mapAt_mapTouch s.Tests t x,
    keys := fun x hx => (mem_keys_mapTouch s.Tests t x).2 (Or.inr hx),
    costs := rfl, running := rfl, finish := rfl,
    trace := rfl, handles := rfl, properties := rfl, showOnly := rfl, level := rfl,
    completed := rfl, passed := rfl, failed := rfl, costData := rfl, checkpoint := rfl }

theorem TouchStep.of_count (s : cmCTestMultiProcessHandler) (n : Nat) :
    TouchStep s { s with RunningCount := n } :=
  { tests := fun _ => rfl, keys := fun _ h => h, costs := rfl, running := rfl, finish := rfl,
    trace := rfl, handles := rfl, properties := rfl, showOnly := rfl, level := rfl,
    completed := rfl, passed := rfl, failed := rfl, costData := rfl, checkpoint := rfl }

/-! ## The invariant is kept by every primitive step -/

theorem Inv.inv_touch {tests : TestMap} {s s' : cmCTestMultiProcessHandler} (h : Inv tests s)
    (st : TouchStep s s') : Inv tests s' where
  depends_left := by
    intro t hr hf d hd
    rw [st.running] at hr
    rw [st.finish] at hf ⊢
    rw [st.tests]
    exact h.depends_left t hr hf d hd
  depends_sub := by
    intro t d hd
    rw [st.tests] at hd
    exact h.depends_sub t d hd
  finish_iff := by rw [st.finish, st.trace]; exact h.finish_iff
  started_iff := by rw [st.finish, st.trace, st.running]; exact h.started_iff
  not_both := by rw [st.finish, st.running]; exact h.not_both
  starts_after := by rw [st.trace]; exact h.starts_after
  finish_after := by rw [st.trace]; exact h.finish_after
  starts_nodup := by rw [st.trace]; exact h.starts_nodup
  running_iff := by rw [st.running, st.handles]; exact h.running_iff
  running_nodup := by rw [st.handles]; exact h.running_nodup
  started_known := by rw [st.trace]; exact h.started_known
  bucket_known := by rw [st.costs]; exact h.bucket_known
  bucket_cost := by rw [st.costs, st.properties]; exact h.bucket_cost
  bucket_mem := by
    rw [st.costs, st.properties, st.showOnly, st.running, st.finish]; exact h.bucket_mem
  bucket_sorted := by rw [st.costs]; exact h.bucket_sorted
  show_only := by rw [st.costs, st.showOnly]; exact h.show_only

theorem Inv.inv_started {tests : TestMap} {s s' : cmCTestMultiProcessHandler} {t : Int}
    (h : Inv tests s) (st : StartedStep s s' t) (hr : s.TestRunningMap t = false)
    (hf : s.TestFinishMap t = false) (hd : ∀ d ∈ mapAt tests t, s.TestFinishMap d = true)
    (hk : Known tests t) : Inv tests s' where
  depends_left := by
    intro t' hr' hf' d hd'
    rw [st.running] at hr'
    rw [st.finish] at hf' ⊢
    have hne : ¬ t' = t := by
      intro hh; simp [hh] at hr'
    simp only [hne, if_false] at hr'
    rw [st.tests, mapAt_mapErase, if_neg hne]
    exact h.depends_left t' hr' hf' d hd'
  depends_sub := by
    intro t' d hd'
    rw [st.tests, mapAt_mapErase] at hd'
    split at hd'
    · simp at hd'
    · exact h.depends_sub t' d hd'
  finish_iff := by
    intro d
    rw [st.finish, st.trace]
    simp [h.finish_iff d]
  started_iff := by
    intro x
    rw [st.finish, st.trace, st.running]
    by_cases hx : x = t
    · simp [hx]
    · simp [hx, h.started_iff x]
  not_both := by
    intro x hx
    rw [st.running] at hx
    rw [st.finish]
    by_cases hxt : x = t
    · rw [hxt]; exact hf
    · simp only [hxt, if_false] at hx
      exact h.not_both x hx
  starts_after := by
    intro x d hxd
    rw [st.trace, eachAfter_concat]
    refine ⟨h.starts_after x d hxd, fun he => ?_⟩
    simp only [Event.startProcess.injEq] at he
    subst he
    exact (h.finish_iff d).1 (hd d hxd)
  finish_after := by
    intro d
    rw [st.trace]
    exact eachAfter_concat_of_ne _ _ _ _ (by simp) (h.finish_after d)
  starts_nodup := by
    rw [st.trace, List.filterMap_append]
    simp only [List.filterMap_cons, Event.started, List.filterMap_nil]
    rw [List.nodup_append]
    refine ⟨h.starts_nodup, by simp, ?_⟩
    intro a ha hb
    simp only [List.mem_singleton] at hb
    subst hb
    have := (h.started_iff a).1 ((mem_started_iff _ _).1 ha)
    simp [hr, hf] at this
  running_iff := by
    intro x
    obtain ⟨k, p, -, hh⟩ := st.handles
    rw [st.running, hh]
    simp only [mem_insertAt]
    by_cases hx : x = t
    · subst hx
      simp only [if_true, true_iff]
      exact ⟨⟨x, p⟩, Or.inl rfl, rfl⟩
    · simp only [hx, if_false, h.running_iff x]
      constructor
      · rintro ⟨q, hq, rfl⟩
        exact ⟨q, Or.inr hq, rfl⟩
      · rintro ⟨q, hq | hq, rfl⟩
        · exact absurd (by rw [hq]) hx
        · exact ⟨q, hq, rfl⟩
  running_nodup := by
    obtain ⟨k, p, -, hh⟩ := st.handles
    rw [hh]
    refine (((insertAt_perm k ⟨t, p⟩ s.RunningTests).map _).nodup_iff).2 ?_
    simp only [List.map_cons, List.nodup_cons]
    refine ⟨?_, h.running_nodup⟩
    intro hmem
    obtain ⟨q, hq, hqi⟩ := List.mem_map.1 hmem
    have := (h.running_iff t).2 ⟨q, hq, hqi⟩
    simp [hr] at this
  started_known := by
    intro x hx
    rw [st.trace] at hx
    simp only [List.mem_append, List.mem_singleton, Event.startProcess.injEq] at hx
    rcases hx with hx | rfl
    · exact h.started_known x hx
    · exact hk
  bucket_known := by
    intro e he x hx
    rw [st.costs] at he
    obtain ⟨e0, he0, -, hsub⟩ := mem_eraseFromFirstBucket _ _ _ he
    exact h.bucket_known e0 he0 x (hsub x hx)
  bucket_cost := by
    intro e he x hx
    rw [st.costs] at he
    rw [st.properties]
    obtain ⟨e0, he0, hkey, hsub⟩ := mem_eraseFromFirstBucket _ _ _ he
    rw [hkey]
    exact h.bucket_cost e0 he0 x (hsub x hx)
  bucket_mem := by
    intro hso x hx hrx hfx p hp
    rw [st.showOnly] at hso
    rw [st.running] at hrx
    rw [st.finish] at hfx
    rw [st.properties] at hp
    have hne : ¬ x = t := by
      intro hh; simp [hh] at hrx
    simp only [hne, if_false] at hrx
    rw [st.costs]
    exact mem_mapAt_eraseFromFirstBucket _ _ _ _ hne (h.bucket_mem hso x hx hrx hfx p hp)
  bucket_sorted := by
    rw [st.costs, keys_eraseFromFirstBucket]
    exact h.bucket_sorted
  show_only := by
    intro hso
    rw [st.showOnly] at hso
    rw [st.costs, h.show_only hso]
    rfl

theorem Inv.inv_failed {tests : TestMap} {s s' : cmCTestMultiProcessHandler} {t : Int}
    (h : Inv tests s) (st : FailedStep s s' t) (hr : s.TestRunningMap t = false)
    (hf : s.TestFinishMap t = false) (hd : ∀ d ∈ mapAt tests t, s.TestFinishMap d = true)
    (hk : Known tests t) : Inv tests s' where
  depends_left := by
    intro t' hr' hf' d hd'
    rw [st.running] at hr'
    rw [st.finish] at hf'
    have hne : ¬ t' = t := by
      intro hh; simp [hh] at hf'
    simp only [hne, if_false] at hr' hf'
    rw [st.tests, mapAt_mapErase, if_neg hne, st.finish]
    rcases h.depends_left t' hr' hf' d hd' with h1 | h1
    · exact Or.inl h1
    · right; split <;> simp [h1]
  depends_sub := by
    intro t' d hd'
    rw [st.tests, mapAt_mapErase] at hd'
    split at hd'
    · simp at hd'
    · exact h.depends_sub t' d hd'
  finish_iff := by
    intro d
    rw [st.finish, st.trace]
    by_cases hx : d = t
    · simp [hx]
    · simp [hx, h.finish_iff d]
  started_iff := by
    intro x
    rw [st.finish, st.trace, st.running]
    by_cases hx : x = t
    · simp [hx]
    · simp [hx, h.started_iff x]
  not_both := by
    intro x hx
    rw [st.running] at hx
    rw [st.finish]
    by_cases hxt : x = t
    · simp [hxt] at hx
    · simp only [hxt, if_false] at hx ⊢
      exact h.not_both x hx
  starts_after := by
    intro x d hxd
    rw [st.trace]
    have : s.Trace ++ [Event.startProcess t, Event.markFinished t]
        = (s.Trace ++ [Event.startProcess t]) ++ [Event.markFinished t] := by simp
    rw [this]
    refine eachAfter_concat_of_ne _ _ _ _ (by simp) ?_
    rw [eachAfter_concat]
    refine ⟨h.starts_after x d hxd, fun he => ?_⟩
    simp only [Event.startProcess.injEq] at he
    subst he
    exact (h.finish_iff d).1 (hd d hxd)
  finish_after := by
    intro d
    rw [st.trace]
    have : s.Trace ++ [Event.startProcess t, Event.markFinished t]
        = (s.Trace ++ [Event.startProcess t]) ++ [Event.markFinished t] := by simp
    rw [this, eachAfter_concat]
    refine ⟨eachAfter_concat_of_ne _ _ _ _ (by simp) (h.finish_after d), fun he => ?_⟩
    simp only [Event.markFinished.injEq] at he
    subst he
    simp
  starts_nodup := by
    rw [st.trace, List.filterMap_append]
    simp only [List.filterMap_cons, Event.started, List.filterMap_nil]
    rw [List.nodup_append]
    refine ⟨h.starts_nodup, by simp, ?_⟩
    intro a ha hb
    simp only [List.mem_singleton] at hb
    subst hb
    have := (h.started_iff a).1 ((mem_started_iff _ _).1 ha)
    simp [hr, hf] at this
  running_iff := by
    intro x
    rw [st.running, st.handles, ← h.running_iff x]
    by_cases hx : x = t
    · simp [hx, hr]
    · simp [hx]
  running_nodup := by rw [st.handles]; exact h.running_nodup
  started_known := by
    intro x hx
    rw [st.trace] at hx
    simp only [List.mem_append, List.mem_cons, Event.startProcess.injEq, List.mem_singleton,
      List.not_mem_nil, or_false] at hx
    rcases hx with hx | rfl | hx
    · exact h.started_known x hx
    · exact hk
    · simp at hx
  bucket_known := by
    intro e he x hx
    rw [st.costs] at he
    obtain ⟨e0, he0, -, hsub⟩ := mem_eraseFromFirstBucket _ _ _ he
    exact h.bucket_known e0 he0 x (hsub x hx)
  bucket_cost := by
    intro e he x hx
    rw [st.costs] at he
    rw [st.properties]
    obtain ⟨e0, he0, hkey, hsub⟩ := mem_eraseFromFirstBucket _ _ _ he
    rw [hkey]
    exact h.bucket_cost e0 he0 x (hsub x hx)
  bucket_mem := by
    intro hso x hx hrx hfx p hp
    rw [st.showOnly] at hso
    rw [st.running] at hrx
    rw [st.finish] at hfx
    rw [st.properties] at hp
    have hne : ¬ x = t := by
      intro hh; simp [hh] at hfx
    simp only [hne, if_false] at hrx hfx
    rw [st.costs]
    exact mem_mapAt_eraseFromFirstBucket _ _ _ _ hne (h.bucket_mem hso x hx hrx hfx p hp)
  bucket_sorted := by
    rw [st.costs, keys_eraseFromFirstBucket]
    exact h.bucket_sorted
  show_only := by
    intro hso
    rw [st.showOnly] at hso
    rw [st.costs, h.show_only hso]
    rfl

theorem Inv.inv_finished {tests : TestMap} {env : Env} {s s' : cmCTestMultiProcessHandler}
    {p : cmCTestRunTest} (h : Inv tests s) (st : FinishedStep env s s' p)
    (hp : p ∈ s.RunningTests) : Inv tests s' := by
  have hrun : s.TestRunningMap p.Index = true := (h.running_iff p.Index).2 ⟨p, hp, rfl⟩
  have hstarted : Event.startProcess p.Index ∈ s.Trace :=
    (h.started_iff p.Index).2 (Or.inl hrun)
  exact
  { depends_left := by
      intro t' hr' hf' d hd'
      rw [st.running] at hr'
      rw [st.finish] at hf'
      have hne : ¬ t' = p.Index := by
        intro hh; simp [hh] at hf'
      simp only [hne, if_false] at hr' hf'
      rw [st.tests, mapAt_map_setErase, st.finish, mem_setErase]
      by_cases hdp : d = p.Index
      · right; simp [hdp]
      · rcases h.depends_left t' hr' hf' d hd' with h1 | h1
        · exact Or.inl ⟨h1, hdp⟩
        · right; simp [hdp, h1]
    depends_sub := by
      intro t' d hd'
      rw [st.tests, mapAt_map_setErase, mem_setErase] at hd'
      exact h.depends_sub t' d hd'.1
    finish_iff := by
      intro d
      rw [st.finish, st.trace]
      by_cases hx : d = p.Index
      · simp [hx]
      · simp [hx, h.finish_iff d]
    started_iff := by
      intro x
      rw [st.finish, st.trace, st.running]
      by_cases hx : x = p.Index
      · simp [hx, hstarted]
      · simp [hx, h.started_iff x]
    not_both := by
      intro x hx
      rw [st.running] at hx
      rw [st.finish]
      by_cases hxt : x = p.Index
      · simp [hxt] at hx
      · simp only [hxt, if_false] at hx ⊢
        exact h.not_both x hx
    starts_after := by
      intro x d hxd
      rw [st.trace]
      exact eachAfter_concat_of_ne _ _ _ _ (by simp) (h.starts_after x d hxd)
    finish_after := by
      intro d
      rw [st.trace, eachAfter_concat]
      refine ⟨h.finish_after d, fun he => ?_⟩
      simp only [Event.markFinished.injEq] at he
      subst he
      exact hstarted
    starts_nodup := by
      rw [st.trace, List.filterMap_append]
      simpa [Event.started] using h.starts_nodup
    running_iff := by
      intro x
      rw [st.running, st.handles]
      have hnd : s.RunningTests.Nodup := List.Nodup.of_map _ h.running_nodup
      by_cases hx : x = p.Index
      · simp only [hx, if_true]
        constructor
        · intro hh; simp at hh
        · rintro ⟨q, hq, hqi⟩
          exfalso
          have hq' := (hnd.mem_erase_iff).1 hq
          exact hq'.1 (List.inj_on_of_nodup_map h.running_nodup hq'.2 hp hqi)
      · simp only [hx, if_false, h.running_iff x]
        constructor
        · rintro ⟨q, hq, rfl⟩
          refine ⟨q, (hnd.mem_erase_iff).2 ⟨?_, hq⟩, rfl⟩
          intro hqp
          exact hx (by rw [hqp])
        · rintro ⟨q, hq, rfl⟩
          exact ⟨q, List.mem_of_mem_erase hq, rfl⟩
    running_nodup := by
      rw [st.handles]
      exact h.running_nodup.sublist ((List.erase_sublist p s.RunningTests).map _)
    started_known := by
      intro x hx
      rw [st.trace] at hx
      simp only [List.mem_append, List.mem_singleton] at hx
      rcases hx with hx | hx
      · exact h.started_known x hx
      · simp at hx
    bucket_known := by rw [st.costs]; exact h.bucket_known
    bucket_cost := by rw [st.costs, st.properties]; exact h.bucket_cost
    bucket_mem := by
      intro hso x hx hrx hfx q hq
      rw [st.showOnly] at hso
      rw [st.running] at hrx
      rw [st.finish] at hfx
      rw [st.properties] at hq
      have hne : ¬ x = p.Index := by
        intro hh; simp [hh] at hfx
      simp only [hne, if_false] at hrx hfx
      rw [st.costs]
      exact h.bucket_mem hso x hx hrx hfx q hq
    bucket_sorted := by rw [st.costs]; exact h.bucket_sorted
    show_only := by rw [st.costs, st.showOnly]; exact h.show_only }

/-! ## The invariant through `StartTest` and `StartNextTests` -/

theorem Kept.kept_refl (s : cmCTestMultiProcessHandler) : Kept s s := ⟨rfl, rfl, rfl, [], by simp⟩

theorem Kept.kept_trans {a b c : cmCTestMultiProcessHandler} (h1 : Kept a b) (h2 : Kept b c) :
    Kept a c := by
  obtain ⟨l1, hl1⟩ := h1.trace
  obtain ⟨l2, hl2⟩ := h2.trace
  exact ⟨h2.properties.trans h1.properties, h2.showOnly.trans h1.showOnly,
    h2.level.trans h1.level, l1 ++ l2, by rw [hl2, hl1, List.append_assoc]⟩

theorem Kept.mem_trace {s s' : cmCTestMultiProcessHandler} (h : Kept s s') {e : Event}
    (he : e ∈ s.Trace) : e ∈ s'.Trace := by
  obtain ⟨l, hl⟩ := h.trace
  rw [hl]
  exact List.mem_append_left _ he

theorem TouchStep.touch_kept {s s' : cmCTestMultiProcessHandler} (st : TouchStep s s') : Kept s s' :=
  ⟨st.properties, st.showOnly, st.level, [], by simp [st.trace]⟩

theorem StartedStep.started_kept {s s' : cmCTestMultiProcessHandler} {t : Int}
    (st : StartedStep s s' t) : Kept s s' :=
  ⟨st.properties, st.showOnly, st.level, _, st.trace⟩

theorem FailedStep.failed_kept {s s' : cmCTestMultiProcessHandler} {t : Int}
    (st : FailedStep s s' t) : Kept s s' :=
  ⟨st.properties, st.showOnly, st.level, _, st.trace⟩

theorem FinishedStep.finished_kept {env : Env} {s s' : cmCTestMultiProcessHandler} {p : cmCTestRunTest}
    (st : FinishedStep env s s' p) : Kept s s' :=
  ⟨st.properties, st.showOnly, st.level, _, st.trace⟩

theorem scanDepends_startDepend (s : cmCTestMultiProcessHandler) (ds : List Int) :
    ∀ (n : Nat) (d : Int), scanDepends s ds n = .startDepend d →
      d ∈ ds ∧ s.TestRunningMap d = false ∧ s.TestFinishMap d = false := by
  induction ds with
  | nil => intro n d h; simp [scanDepends] at h
  | cons x ds ih =>
    intro n d h
    simp only [scanDepends] at h
    split at h
    · rename_i hr
      split at h
      · rename_i hf
        simp only [DependScan.startDepend.injEq] at h
        subst h
        exact ⟨by simp, hr, hf⟩
      · obtain ⟨h1, h2⟩ := ih _ _ h
        exact ⟨List.mem_cons_of_mem _ h1, h2⟩
    · obtain ⟨h1, h2⟩ := ih _ _ h
      exact ⟨List.mem_cons_of_mem _ h1, h2⟩

theorem scanDepends_remaining (s : cmCTestMultiProcessHandler) (ds : List Int) :
    ∀ (m n' : Nat), scanDepends s ds (m + ds.length) = .remaining n' →
      m ≤ n' ∧ (n' = m → ∀ d ∈ ds, s.TestRunningMap d = false ∧ s.TestFinishMap d = true) := by
  induction ds with
  | nil =>
    intro m n' h
    simp only [scanDepends, List.length_nil, Nat.add_zero, DependScan.remaining.injEq] at h
    exact ⟨by omega, fun _ d hd => by simp at hd⟩
  | cons x ds ih =>
    intro m n' h
    simp only [scanDepends, List.length_cons] at h
    split at h
    · rename_i hr
      split at h
      · simp at h
      · rename_i hf
        have hsub : m + (ds.length + 1) - 1 = m + ds.length := by omega
        rw [hsub] at h
        obtain ⟨h1, h2⟩ := ih m n' h
        refine ⟨h1, fun hn d hd => ?_⟩
        rcases List.mem_cons.1 hd with rfl | hd
        · exact ⟨hr, by simpa using hf⟩
        · exact h2 hn d hd
    · have hsub : m + (ds.length + 1) = (m + 1) + ds.length := by omega
      rw [hsub] at h
      obtain ⟨h1, -⟩ := ih (m + 1) n' h
      exact ⟨by omega, fun hn => by omega⟩

theorem StartTestProcess_inv {tests : TestMap} {env : Env} {s s' : cmCTestMultiProcessHandler}
    {t : Int} (h : Inv tests s) (hr : s.TestRunningMap t = false)
    (hf : s.TestFinishMap t = false) (hd : ∀ d ∈ mapAt tests t, s.TestFinishMap d = true)
    (hk : Known tests t) (hs : StartTestProcess env s t = .ok s') :
    Inv tests s' ∧ Kept s s' ∧
      (s'.Trace = s.Trace ++ [Event.startProcess t] ∨
       s'.Trace = s.Trace ++ [Event.startProcess t, Event.markFinished t]) := by
  rcases StartTestProcess_step hs with st | st
  · exact ⟨h.inv_started st hr hf hd hk, st.started_kept, Or.inl st.trace⟩
  · exact ⟨h.inv_failed st hr hf hd hk, st.failed_kept, Or.inr st.trace⟩

theorem known_of_dependsOn {tests : TestMap} {t d : Int} (h : DependsOn tests t d) :
    Known tests d := Or.inr ⟨t, h⟩

theorem StartTest_inv (tests : TestMap) (env : Env) (fuel : Nat) :
    ∀ (s : cmCTestMultiProcessHandler) (t : Int) (b : Bool) (s' : cmCTestMultiProcessHandler),
      Inv tests s → s.TestRunningMap t = false → s.TestFinishMap t = false → Known tests t →
      StartTest env fuel s t = .ok (b, s') →
      Inv tests s' ∧ Kept s s' ∧ Launch tests s s' t := by
  induction fuel with
  | zero => intro s t b s' _ _ _ _ h; simp [StartTest] at h
  | succ n ih =>
    intro s t b s' hinv hr hf hk h
    simp only [StartTest] at h
    have htouch := TouchStep.of_touch s t
    have hinv1 := hinv.inv_touch htouch
    split at h
    · rename_i d hscan
      obtain ⟨hd, hdr, hdf⟩ := scanDepends_startDepend _ _ _ _ hscan
      have hdep : DependsOn tests t d := hinv.depends_sub t d hd
      obtain ⟨i1, i2, i3⟩ := ih _ d b s' hinv1 hdr hdf (known_of_dependsOn hdep) h
      refine ⟨i1, htouch.touch_kept.kept_trans i2, ?_⟩
      rcases i3 with i3 | ⟨x, hx, i3⟩
      · exact Or.inl i3
      · exact Or.inr ⟨x, Relation.ReflTransGen.head hdep hx, i3⟩
    · rename_i n' hscan
      split at h
      · rename_i hn
        have hall := (scanDepends_remaining _ (mapAt s.Tests t) 0 n'
          (by simpa using hscan)).2 hn
        have hdeps : ∀ d ∈ mapAt tests t, s.TestFinishMap d = true := by
          intro d hd
          rcases hinv.depends_left t hr hf d hd with h1 | h1
          · exact (hall d h1).2
          · exact h1
        split at h
        · simp at h
        · rename_i s1 hs1
          simp only [Except.ok.injEq, Prod.mk.injEq] at h
          obtain ⟨i1, i2, i3⟩ := StartTestProcess_inv hinv1 hr hf hdeps hk hs1
          rw [← h.2]
          exact ⟨i1, htouch.touch_kept.kept_trans i2, Or.inr ⟨t, Relation.ReflTransGen.refl, i3⟩⟩
      · simp only [Except.ok.injEq, Prod.mk.injEq] at h
        rw [← h.2]
        exact ⟨hinv1, htouch.touch_kept, Or.inl rfl⟩

theorem startBucket_inv (tests : TestMap) (env : Env) (fuel : Nat) (l : List Int) :
    ∀ (n : Nat) (s : cmCTestMultiProcessHandler) (r : Option Nat × cmCTestMultiProcessHandler),
      Inv tests s → (∀ t ∈ l, Known tests t) → startBucket env fuel l n s = .ok r →
      Inv tests r.2 ∧ Kept s r.2 := by
  induction l with
  | nil =>
    intro n s r hinv _ h
    simp only [startBucket, Except.ok.injEq] at h
    rw [← h]
    exact ⟨hinv, Kept.kept_refl s⟩
  | cons t l ih =>
    intro n s r hinv hk h
    have hkl : ∀ x ∈ l, Known tests x := fun x hx => hk x (List.mem_cons_of_mem _ hx)
    simp only [startBucket] at h
    split at h
    · exact ih _ _ _ hinv hkl h
    · rename_i hflags
      have hr : s.TestRunningMap t = false := by
        cases hh : s.TestRunningMap t <;> simp_all
      have hf : s.TestFinishMap t = false := by
        cases hh : s.TestFinishMap t <;> simp_all
      split at h
      · simp at h
      · rename_i processors _
        split at h
        · simp only [Except.ok.injEq] at h
          rw [← h]
          exact ⟨hinv, Kept.kept_refl s⟩
        · split at h
          · simp at h
          · rename_i s1 hs1
            obtain ⟨i1, i2, -⟩ := StartTest_inv tests env fuel s t true s1 hinv hr hf
              (hk t (by simp)) hs1
            have hc := TouchStep.of_count s1 (sizeAdd s1.RunningCount processors)
            split at h
            · simp only [Except.ok.injEq] at h
              rw [← h]
              exact ⟨i1.inv_touch hc, i2.kept_trans hc.touch_kept⟩
            · obtain ⟨j1, j2⟩ := ih _ _ _ (i1.inv_touch hc) hkl h
              exact ⟨j1, (i2.kept_trans hc.touch_kept).kept_trans j2⟩
          · rename_i s1 hs1
            obtain ⟨i1, i2, -⟩ := StartTest_inv tests env fuel s t false s1 hinv hr hf
              (hk t (by simp)) hs1
            split at h
            · simp only [Except.ok.injEq] at h
              rw [← h]
              exact ⟨i1, i2⟩
            · obtain ⟨j1, j2⟩ := ih _ _ _ i1 hkl h
              exact ⟨j1, i2.kept_trans j2⟩

theorem Inv.known_of_mem_bucket {tests : TestMap} {s : cmCTestMultiProcessHandler}
    (h : Inv tests s) (c : ℚ) : ∀ t ∈ mapAt s.TestCosts c, Known tests t := by
  intro t ht
  obtain ⟨e, he, -, hx⟩ := mem_of_mem_mapAt _ _ _ ht
  exact Or.inl (h.bucket_known e he t hx)

theorem startBuckets_inv (tests : TestMap) (env : Env) (fuel : Nat) (cs : List ℚ) :
    ∀ (n : Nat) (s s' : cmCTestMultiProcessHandler),
      Inv tests s → startBuckets env fuel cs n s = .ok s' → Inv tests s' ∧ Kept s s' := by
  induction cs with
  | nil =>
    intro n s s' hinv h
    simp only [startBuckets, Except.ok.injEq] at h
    rw [← h]
    exact ⟨hinv, Kept.kept_refl s⟩
  | cons c cs ih =>
    intro n s s' hinv h
    simp only [startBuckets] at h
    split at h
    · simp at h
    · rename_i s1 hs1
      simp only [Except.ok.injEq] at h
      rw [← h]
      exact startBucket_inv tests env fuel _ _ _ _ hinv (hinv.known_of_mem_bucket c) hs1
    · rename_i n1 s1 hs1
      obtain ⟨i1, i2⟩ := startBucket_inv tests env fuel _ _ _ _ hinv
        (hinv.known_of_mem_bucket c) hs1
      obtain ⟨j1, j2⟩ := ih _ _ _ i1 h
      exact ⟨j1, i2.kept_trans j2⟩

theorem StartNextTests_inv {tests : TestMap} {env : Env} {fuel : Nat}
    {s s' : cmCTestMultiProcessHandler} (hinv : Inv tests s)
    (h : StartNextTests env fuel s = .ok s') : Inv tests s' ∧ Kept s s' := by
  unfold StartNextTests at h
  simp only at h
  split at h
  · simp only [Except.ok.injEq] at h
    rw [← h]
    exact ⟨hinv, Kept.kept_refl s⟩
  · exact startBuckets_inv tests env fuel _ _ _ _ hinv h

/-! ## The invariant through `CheckOutput` -/

theorem finishAll_inv (tests : TestMap) (env : Env) (ps : List cmCTestRunTest) :
    ∀ (s s' : cmCTestMultiProcessHandler), Inv tests s → ps.Nodup →
      (∀ p ∈ ps, p ∈ s.RunningTests) → finishAll env ps s = .ok s' →
      Inv tests s' ∧ Kept s s' := by
  induction ps with
  | nil =>
    intro s s' hinv _ _ h
    simp only [finishAll, Except.ok.injEq] at h
    rw [← h]
    exact ⟨hinv, Kept.kept_refl s⟩
  | cons p ps ih =>
    intro s s' hinv hnd hmem h
    simp only [finishAll] at h
    split at h
    · simp at h
    · rename_i s1 hs1
      have st := finishTest_step hs1
      have hinv1 := hinv.inv_finished st (hmem p (by simp))
      rw [List.nodup_cons] at hnd
      have hmem1 : ∀ q ∈ ps, q ∈ s1.RunningTests := by
        intro q hq
        rw [st.handles]
        refine (List.mem_erase_of_ne ?_).2 (hmem q (List.mem_cons_of_mem _ hq))
        intro hqp
        exact hnd.1 (hqp ▸ hq)
      obtain ⟨j1, j2⟩ := ih _ _ hinv1 hnd.2 hmem1 h
      exact ⟨j1, st.finished_kept.kept_trans j2⟩

theorem CheckOutput_inv {tests : TestMap} {env : Env} {s s' : cmCTestMultiProcessHandler}
    {b : Bool} (hinv : Inv tests s) (h : CheckOutput env s = .ok (b, s')) :
    Inv tests s' ∧ Kept s s' := by
  unfold CheckOutput at h
  split at h
  · simp only [Except.ok.injEq, Prod.mk.injEq] at h
    rw [← h.2]
    exact ⟨hinv, Kept.kept_refl s⟩
  · simp only at h
    split at h
    · simp at h
    · rename_i s1 hs1
      simp only [Except.ok.injEq, Prod.mk.injEq] at h
      rw [← h.2]
      refine finishAll_inv tests env _ _ _ hinv ?_ ?_ hs1
      · exact (List.Nodup.of_map _ hinv.running_nodup).filter _
      · intro p hp
        exact (List.mem_filter.1 hp).1

/-! ## `SetTests` establishes the invariant -/

theorem mapFind_map_values {κ : Type} [DecidableEq κ] (m : List (κ × TestSet)) (k : κ)
    (g : κ → TestSet → TestSet) :
    mapFind (m.map (fun (e : κ × TestSet) => (e.1, g e.1 e.2))) k
      = (mapFind m k).map (g k) := by
  induction m with
  | nil => simp [mapFind]
  | cons e m ih =>
    obtain ⟨k', v⟩ := e
    by_cases hk : k = k'
    · subst hk
      simp [mapFind]
    · simp only [List.map_cons, mapFind, hk, if_false]
      exact ih

theorem mapAt_bucketInsert (m : TestCostMap) (c k : ℚ) (t : Int) :
    mapAt (bucketInsert m c t) k = if k = c then setInsert (mapAt m c) t else mapAt m k := by
  unfold bucketInsert mapAt
  rw [mapFind_map_values (mapTouch m c) k (fun a v => if a = c then setInsert v t else v),
    mapFind_mapTouch]
  by_cases hk : k = c
  · simp [hk, mapAt]
  · simp only [hk, if_false]
    cases mapFind m k <;> simp

theorem keys_bucketInsert (m : TestCostMap) (c : ℚ) (t : Int) :
    (bucketInsert m c t).map Prod.fst = (mapTouch m c).map Prod.fst := by
  unfold bucketInsert
  rw [List.map_map]
  rfl

theorem mem_bucketInsert (m : TestCostMap) (c : ℚ) (t : Int) (e' : ℚ × TestSet)
    (h : e' ∈ bucketInsert m c t) :
    ∀ x ∈ e'.2, (x = t ∧ e'.1 = c) ∨ ∃ e ∈ m, e.1 = e'.1 ∧ x ∈ e.2 := by
  unfold bucketInsert at h
  obtain ⟨e, he, hfe⟩ := List.mem_map.1 h
  intro x hx
  rw [← hfe] at hx ⊢
  simp only at hx ⊢
  by_cases hc : e.1 = c
  · simp only [hc, if_true] at hx
    rcases (mem_setInsert _ _ _).1 hx with rfl | hx
    · exact Or.inl ⟨rfl, hc⟩
    · rcases mem_mapTouch m c e he with rfl | he
      · simp at hx
      · exact Or.inr ⟨e, he, rfl, hx⟩
  · simp only [hc, if_false] at hx
    rcases mem_mapTouch m c e he with rfl | he
    · simp at hx
    · exact Or.inr ⟨e, he, rfl, hx⟩

theorem costListLoop_spec (props : PropertiesMap) (keys : List Int) :
    ∀ (costs costs' : TestCostMap), costListLoop props keys costs = .ok costs' →
      ((costs.map Prod.fst).Pairwise (fun a b => a < b) →
        (costs'.map Prod.fst).Pairwise (fun a b => a < b)) ∧
      (∀ e' ∈ costs', ∀ x ∈ e'.2,
        (x ∈ keys ∧ ∃ p, props x = some p ∧ p.Cost = e'.1) ∨
        ∃ e ∈ costs, e.1 = e'.1 ∧ x ∈ e.2) ∧
      (∀ x ∈ keys, ∀ p, props x = some p → x ∈ mapAt costs' p.Cost) ∧
      (∀ k x, x ∈ mapAt costs k → x ∈ mapAt costs' k) := by
  induction keys with
  | nil =>
    intro costs costs' h
    simp only [costListLoop, Except.ok.injEq] at h
    subst h
    exact ⟨id, fun e' he' x hx => Or.inr ⟨e', he', rfl, hx⟩, fun x hx => by simp at hx,
      fun _ _ hx => hx⟩
  | cons t keys ih =>
    intro costs costs' h
    simp only [costListLoop] at h
    split at h
    · simp at h
    · rename_i p hp
      obtain ⟨h1, h2, h3, h4⟩ := ih _ _ h
      refine ⟨fun hs => h1 ?_, ?_, ?_, ?_⟩
      · rw [keys_bucketInsert]
        exact pairwise_keys_mapTouch _ _ hs
      · intro e' he' x hx
        rcases h2 e' he' x hx with ⟨hxk, hq⟩ | ⟨e, he, hk, hxe⟩
        · exact Or.inl ⟨List.mem_cons_of_mem _ hxk, hq⟩
        · rcases mem_bucketInsert _ _ _ e he x hxe with ⟨rfl, hc⟩ | ⟨e0, he0, hk0, hx0⟩
          · exact Or.inl ⟨by simp, p, hp, by rw [← hk, hc]⟩
          · exact Or.inr ⟨e0, he0, hk0.trans hk, hx0⟩
      · intro x hx q hq
        rcases List.mem_cons.1 hx with rfl | hx
        · rw [hp] at hq
          simp only [Option.some.injEq] at hq
          subst hq
          refine h4 _ _ ?_
          rw [mapAt_bucketInsert, if_pos rfl]
          exact (mem_setInsert _ _ _).2 (Or.inl rfl)
        · exact h3 x hx q hq
      · intro k x hx
        refine h4 k x ?_
        rw [mapAt_bucketInsert]
        split
        · rename_i hk
          exact (mem_setInsert _ _ _).2 (Or.inr (hk ▸ hx))
        · exact hx

theorem setTests_flags (l : List Int) :
    ∀ h : cmCTestMultiProcessHandler,
      let r := l.foldl (fun (h : cmCTestMultiProcessHandler) i =>
        { h with TestRunningMap := flagSet h.TestRunningMap i false,
                 TestFinishMap := flagSet h.TestFinishMap i false }) h
      r = { h with TestRunningMap := r.TestRunningMap, TestFinishMap := r.TestFinishMap } ∧
      (∀ i, r.TestRunningMap i = if i ∈ l then false else h.TestRunningMap i) ∧
      (∀ i, r.TestFinishMap i = if i ∈ l then false else h.TestFinishMap i) := by
  induction l with
  | nil => intro h; exact ⟨rfl, fun i => by simp, fun i => by simp⟩
  | cons x l ih =>
    intro h
    simp only [List.foldl_cons]
    obtain ⟨h1, h2, h3⟩ := ih { h with TestRunningMap := flagSet h.TestRunningMap x false,
                                       TestFinishMap := flagSet h.TestFinishMap x false }
    refine ⟨?_, fun i => ?_, fun i => ?_⟩
    · rw [h1]
    · rw [h2 i]
      by_cases hi : i ∈ l
      · simp [hi]
      · by_cases hx : i = x <;> simp [hi, hx, flagSet]
    · rw [h3 i]
      by_cases hi : i ∈ l
      · simp [hi]
      · by_cases hx : i = x <;> simp [hi, hx, flagSet]

/-- What `ReadCostData` returns: the handler with new properties and no cost file. -/
theorem ReadCostData_ok {x y : cmCTestMultiProcessHandler} (h : ReadCostData x = .ok y) :
    ∃ props, y = { x with Properties := props, CostDataFile := none } ∧
      ∀ x' : cmCTestMultiProcessHandler, x'.CostDataFile = x.CostDataFile →
        x'.ParallelLevel = x.ParallelLevel → x'.Properties = x.Properties →
        ReadCostData x' = .ok { x' with Properties := props, CostDataFile := none } := by
  unfold ReadCostData at h
  cases hf : x.CostDataFile with
  | none =>
    rw [hf] at h
    simp only [Except.ok.injEq] at h
    refine ⟨x.Properties, h.symm, fun x' h1 _ h3 => ?_⟩
    unfold ReadCostData
    rw [h1]
    simp only [h3]
  | some lines =>
    rw [hf] at h
    simp only at h
    by_cases hpl : x.ParallelLevel > 1
    · rw [if_pos hpl] at h
      cases hl : readCostLines lines x.Properties with
      | error e => simp [hl] at h
      | ok props =>
        simp only [hl, Except.ok.injEq] at h
        refine ⟨props, h.symm, fun x' h1 h2 h3 => ?_⟩
        unfold ReadCostData
        rw [h1]
        simp only [h2, hpl, if_true, h3, hl]
    · rw [if_neg hpl] at h
      simp only [Except.ok.injEq] at h
      refine ⟨x.Properties, h.symm, fun x' h1 h2 h3 => ?_⟩
      unfold ReadCostData
      rw [h1]
      simp only [h2, hpl, if_false, h3]

theorem init_state {c : Setup} {s : cmCTestMultiProcessHandler} (h : c.init = .ok s) :
    InitState c s := by
  unfold Setup.init SetTests at h
  simp only at h
  obtain ⟨h1, h2, h3⟩ := setTests_flags (c.tests.map Prod.fst)
    { SetParallelLevel (construct c.showOnly c.failover c.costData c.checkpoint) c.level with
      Tests := c.tests, Properties := c.properties, Total := c.tests.length }
  simp only at h1 h2 h3
  generalize hr : List.foldl _ _ (c.tests.map Prod.fst) = r at h h1 h2 h3
  have hrun : ∀ i, r.TestRunningMap i = false := by
    intro i; rw [h2 i]; simp [SetParallelLevel, construct]
  have hfin : ∀ i, r.TestFinishMap i = false := by
    intro i; rw [h3 i]; simp [SetParallelLevel, construct]
  have hshow : r.ShowOnly = c.showOnly := by rw [h1]; rfl
  by_cases hso : c.showOnly = true
  · rw [hshow, if_pos hso] at h
    simp only [Except.ok.injEq] at h
    subst h
    exact
      { tests := by rw [h1], running := hrun, finish := hfin, trace := by rw [h1]; rfl,
        handles := by rw [h1]; rfl, showOnly := hshow, failover := by rw [h1]; rfl,
        level := by rw [h1]; rfl, count := by rw [h1]; rfl, completed := by rw [h1]; rfl,
        total := by rw [h1], passed := by rw [h1]; rfl, failed := by rw [h1]; rfl,
        checkpoint := by rw [h1]; rfl,
        costs := by rw [if_pos hso, h1]; rfl,
        properties := by rw [if_pos hso, h1],
        costFile := by rw [if_pos hso, h1]; rfl }
  · rw [hshow, if_neg hso] at h
    cases hrd : ReadCostData r with
    | error e => simp [hrd] at h
    | ok r1 =>
      simp only [hrd] at h
      obtain ⟨props, hr1, hcongr⟩ := ReadCostData_ok hrd
      unfold CreateTestCostList at h
      split at h
      · simp at h
      · rename_i costs hcosts
        simp only [Except.ok.injEq] at h
        subst h
        have hprops : ∃ r0, ReadCostData { SetParallelLevel
            (construct c.showOnly c.failover c.costData c.checkpoint) c.level with
              Properties := c.properties } = .ok r0 ∧ r1.Properties = r0.Properties := by
          refine ⟨_, hcongr _ (by rw [h1]) (by rw [h1]) (by rw [h1]), ?_⟩
          rw [hr1]
        have htests : r.Tests = c.tests := by rw [h1]
        have hcosts0 : r.TestCosts = [] := by rw [h1]; rfl
        have e1 : r1.Tests = r.Tests := by rw [hr1]
        have e2 : r1.TestCosts = r.TestCosts := by rw [hr1]
        rw [e1, htests, e2, hcosts0] at hcosts
        exact
          { tests := e1.trans htests,
            running := fun i => by rw [hr1]; exact hrun i,
            finish := fun i => by rw [hr1]; exact hfin i,
            trace := by rw [hr1, h1]; rfl,
            handles := by rw [hr1, h1]; rfl,
            showOnly := by rw [hr1]; exact hshow,
            failover := by rw [hr1, h1]; rfl,
            level := by rw [hr1, h1]; rfl,
            count := by rw [hr1, h1]; rfl,
            completed := by rw [hr1, h1]; rfl,
            total := by rw [hr1, h1],
            passed := by rw [hr1, h1]; rfl,
            failed := by rw [hr1, h1]; rfl,
            checkpoint := by rw [hr1, h1]; rfl,
            costs := by rw [if_neg hso]; exact hcosts,
            properties := by rw [if_neg hso]; exact hprops,
            costFile := by rw [if_neg hso, hr1] }

theorem init_inv {c : Setup} {s : cmCTestMultiProcessHandler} (h : c.init = .ok s) :
    Inv c.tests s := by
  have hi := init_state h
  have hcosts : (s.TestCosts.map Prod.fst).Pairwise (fun a b => a < b) ∧
      (∀ e ∈ s.TestCosts, ∀ x ∈ e.2,
        x ∈ c.tests.map Prod.fst ∧ ∃ p, s.Properties x = some p ∧ p.Cost = e.1) ∧
      (s.ShowOnly = false → ∀ x ∈ c.tests.map Prod.fst, ∀ p, s.Properties x = some p →
        x ∈ mapAt s.TestCosts p.Cost) := by
    have hc := hi.costs
    by_cases hso : c.showOnly = true
    · rw [if_pos hso] at hc
      rw [hc, hi.showOnly, hso]
      simp
    · rw [if_neg hso] at hc
      obtain ⟨h1, h2, h3, -⟩ := costListLoop_spec _ _ _ _ hc
      refine ⟨h1 (by simp), ?_, fun _ => h3⟩
      intro e he x hx
      rcases h2 e he x hx with hh | ⟨e0, he0, -⟩
      · exact hh
      · simp at he0
  exact
  { depends_left := by
      intro t _ _ d hd
      rw [hi.tests]
      exact Or.inl hd
    depends_sub := by
      intro t d hd
      rw [hi.tests] at hd
      exact hd
    finish_iff := by
      intro d
      rw [hi.finish, hi.trace]
      simp
    started_iff := by
      intro t
      rw [hi.finish, hi.running, hi.trace]
      simp
    not_both := fun t _ => hi.finish t
    starts_after := by
      intro t d _
      rw [hi.trace]
      exact eachAfter_nil _ _
    finish_after := by
      intro d
      rw [hi.trace]
      exact eachAfter_nil _ _
    starts_nodup := by rw [hi.trace]; simp
    running_iff := by
      intro t
      rw [hi.running, hi.handles]
      simp
    running_nodup := by rw [hi.handles]; simp
    started_known := by
      intro t ht
      rw [hi.trace] at ht
      simp at ht
    bucket_known := fun e he x hx => (hcosts.2.1 e he x hx).1
    bucket_cost := fun e he x hx => (hcosts.2.1 e he x hx).2
    bucket_mem := fun hso x hx _ _ p hp => hcosts.2.2 hso x hx p hp
    bucket_sorted := hcosts.1
    show_only := by
      intro hso
      rw [hi.showOnly] at hso
      have hc := hi.costs
      rw [if_pos hso] at hc
      exact hc }

/-- Every state of a run satisfies the invariant, and has the properties, options and
level that `SetTests` left. -/
theorem reachable_inv {c : Setup} {s : cmCTestMultiProcessHandler} (h : Reachable c s) :
    Inv c.tests s ∧ ∃ s0, c.init = .ok s0 ∧ Kept s0 s := by
  induction h with
  | setTests s hs => exact ⟨init_inv hs, s, hs, Kept.kept_refl s⟩
  | startNextTests env fuel s s' _ hstep ih =>
    obtain ⟨i1, s0, i2, i3⟩ := ih
    obtain ⟨j1, j2⟩ := StartNextTests_inv i1 hstep
    exact ⟨j1, s0, i2, i3.kept_trans j2⟩
  | checkOutput env s s' b _ hstep ih =>
    obtain ⟨i1, s0, i2, i3⟩ := ih
    obtain ⟨j1, j2⟩ := CheckOutput_inv i1 hstep
    exact ⟨j1, s0, i2, i3.kept_trans j2⟩

/-! ## C2 -/

theorem chain_started_order (l : List Int) (hn : l.Nodup)
    (hmem : ∀ x ∈ l, x = 1 ∨ x = 2 ∨ x = 3)
    (h2 : ∀ l1 l2, l = l1 ++ 2 :: l2 → (1 : Int) ∈ l1)
    (h3 : ∀ l1 l2, l = l1 ++ 3 :: l2 → (2 : Int) ∈ l1) : l <+: [1, 2, 3] := by
  match l, hn, hmem, h2, h3 with
  | [], _, _, _, _ => exact List.nil_prefix
  | x :: l, hn, hmem, h2, h3 =>
    have hx : x = 1 := by
      rcases hmem x (by simp) with h | h | h
      · exact h
      · exact absurd (h2 [] l (by simp [h])) (by simp)
      · exact absurd (h3 [] l (by simp [h])) (by simp)
    subst hx
    match l, hn, hmem, h2, h3 with
    | [], _, _, _, _ => exact ⟨[2, 3], rfl⟩
    | y :: l, hn, hmem, h2, h3 =>
      have hy : y = 2 := by
        rcases hmem y (by simp) with h | h | h
        · simp [h] at hn
        · exact h
        · have := h3 [1] l (by simp [h])
          simp at this
      subst hy
      match l, hn, hmem, h2, h3 with
      | [], _, _, _, _ => exact ⟨[3], rfl⟩
      | z :: l, hn, hmem, h2, h3 =>
        have hz : z = 3 := by
          rcases hmem z (by simp) with h | h | h
          · simp [h] at hn
          · simp [h] at hn
          · exact h
        subst hz
        match l, hn, hmem with
        | [], _, _ => exact List.prefix_refl _
        | w :: l, hn, hmem =>
          rcases hmem w (by simp) with h | h | h <;> simp [h] at hn

/-- C2: in every state of a run (`SetTests`, then any `StartNextTests` and `CheckOutput`
steps, whatever the collaborators answer), every entry into `StartTestProcess(t)` in the
history comes after the assignment `TestFinishMap[d] = true` of every test `d` of the
original dependency set of `t`, and `TestFinishMap[d]` is still true: no test with an
unfinished dependency is dispatched.  For the chain 2 depends on 1, 3 depends on 2, the
tests started so far are a beginning of 1, 2, 3 and at most one test is running. -/
theorem C2_dependency_safety (c : Setup) (s : cmCTestMultiProcessHandler)
    (hs : Reachable c s) :
    (∀ pre t post, s.Trace = pre ++ Event.startProcess t :: post →
      ∀ d ∈ mapAt c.tests t, Event.markFinished d ∈ pre ∧ s.TestFinishMap d = true) ∧
    (c.tests = [(1, []), (2, [1]), (3, [2])] →
      s.Trace.filterMap Event.started <+: [1, 2, 3] ∧ s.RunningTests.length ≤ 1) := by
  obtain ⟨hinv, -⟩ := reachable_inv hs
  refine ⟨?_, fun hc => ?_⟩
  · intro pre t post hp d hd
    have h1 := hinv.starts_after t d hd pre post hp
    refine ⟨h1, (hinv.finish_iff d).2 ?_⟩
    rw [hp]
    exact List.mem_append_left _ h1
  · have hd21 : (1 : Int) ∈ mapAt c.tests 2 := by rw [hc]; decide
    have hd32 : (2 : Int) ∈ mapAt c.tests 3 := by rw [hc]; decide
    have hstart21 : EachAfter s.Trace (Event.startProcess 2) (Event.startProcess 1) :=
      (hinv.starts_after 2 1 hd21).after_trans (hinv.finish_after 1)
    have hstart32 : EachAfter s.Trace (Event.startProcess 3) (Event.startProcess 2) :=
      (hinv.starts_after 3 2 hd32).after_trans (hinv.finish_after 2)
    have hknown : ∀ x, Event.startProcess x ∈ s.Trace → x = 1 ∨ x = 2 ∨ x = 3 := by
      intro x hx
      rcases hinv.started_known x hx with hk | ⟨t', hk⟩
      · rw [hc] at hk
        simpa using hk
      · rw [hc] at hk
        simp [dependsOn_cons_iff, dependsOn_nil] at hk
        rcases hk with ⟨-, ⟨-, rfl⟩ | ⟨-, -, rfl⟩⟩
        · exact Or.inl rfl
        · exact Or.inr (Or.inl rfl)
    constructor
    · refine chain_started_order _ hinv.starts_nodup ?_ ?_ ?_
      · intro x hx
        exact hknown x ((mem_started_iff _ _).1 hx)
      · intro l1 l2 hl
        obtain ⟨pre, post, hp, hl1⟩ := split_of_started_split _ _ _ _ hl
        rw [← hl1]
        exact (mem_started_iff _ _).2 (hstart21 pre post hp)
      · intro l1 l2 hl
        obtain ⟨pre, post, hp, hl1⟩ := split_of_started_split _ _ _ _ hl
        rw [← hl1]
        exact (mem_started_iff _ _).2 (hstart32 pre post hp)
    · have hfin1 : Event.startProcess 2 ∈ s.Trace → s.TestFinishMap 1 = true := fun h =>
        (hinv.finish_iff 1).2 ((hinv.starts_after 2 1 hd21).mem_of_mem h)
      have hfin2 : Event.startProcess 3 ∈ s.Trace → s.TestFinishMap 2 = true := fun h =>
        (hinv.finish_iff 2).2 ((hinv.starts_after 3 2 hd32).mem_of_mem h)
      have hfin12 : Event.startProcess 3 ∈ s.Trace → s.TestFinishMap 1 = true := fun h =>
        hfin1 (hstart32.mem_of_mem h)
      have hlive : ∀ i ∈ s.RunningTests.map (fun p => p.Index),
          Event.startProcess i ∈ s.Trace ∧ s.TestFinishMap i = false := by
        intro i hi
        obtain ⟨p, hp, rfl⟩ := List.mem_map.1 hi
        have hr := (hinv.running_iff p.Index).2 ⟨p, hp, rfl⟩
        exact ⟨(hinv.started_iff _).2 (Or.inl hr), hinv.not_both _ hr⟩
      have := length_le_one_of_nodup_of_eq hinv.running_nodup (by
        intro i hi j hj
        obtain ⟨si, fi⟩ := hlive i hi
        obtain ⟨sj, fj⟩ := hlive j hj
        rcases hknown i si with rfl | rfl | rfl <;> rcases hknown j sj with rfl | rfl | rfl
        · rfl
        · rw [hfin1 sj] at fi; simp at fi
        · rw [hfin12 sj] at fi; simp at fi
        · rw [hfin1 si] at fj; simp at fj
        · rfl
        · rw [hfin2 sj] at fi; simp at fi
        · rw [hfin12 si] at fj; simp at fj
        · rw [hfin2 si] at fj; simp at fj
        · rfl)
      simpa using this

/-- C2 at scenario S1 after two rounds of dispatch and poll and a third dispatch: tests
1, 2, 3 have been started in this order. -/
theorem C2_dependency_safety_witness :
    Reachable linearChain (linearChain.stateAfter promptRounds) ∧
    (linearChain.stateAfter promptRounds).Trace.filterMap Event.started = [1, 2, 3] ∧
    ((∀ pre t post, (linearChain.stateAfter promptRounds).Trace
        = pre ++ Event.startProcess t :: post →
      ∀ d ∈ mapAt linearChain.tests t, Event.markFinished d ∈ pre ∧
        (linearChain.stateAfter promptRounds).TestFinishMap d = true) ∧
    (linearChain.tests = [(1, []), (2, [1]), (3, [2])] →
      (linearChain.stateAfter promptRounds).Trace.filterMap Event.started <+: [1, 2, 3] ∧
      (linearChain.stateAfter promptRounds).RunningTests.length ≤ 1)) :=
  ⟨@reachable_of_run linearChain promptRounds _ rfl, rfl,
    C2_dependency_safety linearChain (linearChain.stateAfter promptRounds)
      (@reachable_of_run linearChain promptRounds _ rfl)⟩

/-! ## C9 -/

theorem eachAfter_append_of_ne (l : List Event) (e req : Event) (h : ∀ x ∈ l, x ≠ e) :
    ∀ trace, EachAfter trace e req → EachAfter (trace ++ l) e req := by
  induction l with
  | nil => intro trace ht; simpa using ht
  | cons x l ih =>
    intro trace ht
    have : trace ++ x :: l = (trace ++ [x]) ++ l := by simp
    rw [this]
    exact ih (fun y hy => h y (List.mem_cons_of_mem _ hy)) _
      (eachAfter_concat_of_ne _ _ _ _ (h x (by simp)) ht)

theorem eachAfter_of_launch {tests : TestMap} {s s' : cmCTestMultiProcessHandler}
    {C A B : Int}
    (hT : EachAfter s.Trace (Event.startProcess B) (Event.startProcess A))
    (hl : Launch tests s s' C)
    (h : Event.startProcess A ∈ s.Trace ∨ ¬ Relation.ReflTransGen (DependsOn tests) C B) :
    EachAfter s'.Trace (Event.startProcess B) (Event.startProcess A) := by
  have hkey : ∀ t, Relation.ReflTransGen (DependsOn tests) C t →
      EachAfter (s.Trace ++ [Event.startProcess t]) (Event.startProcess B)
        (Event.startProcess A) := by
    intro t ht
    rw [eachAfter_concat]
    refine ⟨hT, fun he => ?_⟩
    simp only [Event.startProcess.injEq] at he
    subst he
    rcases h with h | h
    · exact h
    · exact absurd ht h
  rcases hl with hl | ⟨t, ht, hl | hl⟩
  · rw [hl]; exact hT
  · rw [hl]; exact hkey t ht
  · have : s.Trace ++ [Event.startProcess t, Event.markFinished t]
        = (s.Trace ++ [Event.startProcess t]) ++ [Event.markFinished t] := by simp
    rw [hl, this]
    exact eachAfter_concat_of_ne _ _ _ _ (by simp) (hkey t ht)

theorem StartTest_no_depends {env : Env} {fuel : Nat} {s s' : cmCTestMultiProcessHandler}
    {t : Int} {b : Bool} (hd : mapAt s.Tests t = [])
    (h : StartTest env fuel s t = .ok (b, s')) : Event.startProcess t ∈ s'.Trace := by
  cases fuel with
  | zero => simp [StartTest] at h
  | succ n =>
    simp only [StartTest, hd, scanDepends, List.length_nil, if_true] at h
    split at h
    · simp at h
    · rename_i s1 hs1
      simp only [Except.ok.injEq, Prod.mk.injEq] at h
      rw [← h.2]
      rcases StartTestProcess_step hs1 with st | st
      · rw [st.trace]; simp
      · rw [st.trace]; simp

/-- One bucket of a dispatch pass: while test `A` (no dependencies, cost `costA`) is not
started, no test that reaches `B` is launched from a bucket of cost at least `costA`. -/
theorem startBucket_order (tests : TestMap) (env : Env) (fuel : Nat) (A B : Int) (costA : ℚ)
    (P0 : PropertiesMap) (hAdeps : mapAt tests A = [])
    (hlow : ∀ C p, P0 C = some p → Relation.ReflTransGen (DependsOn tests) C B →
      p.Cost < costA)
    (k : ℚ) (l : List Int) :
    ∀ (n : Nat) (s : cmCTestMultiProcessHandler) (r : Option Nat × cmCTestMultiProcessHandler),
      Inv tests s → s.Properties = P0 →
      EachAfter s.Trace (Event.startProcess B) (Event.startProcess A) →
      (∀ t ∈ l, Known tests t ∧ ∃ p, P0 t = some p ∧ p.Cost = k) →
      (Event.startProcess A ∈ s.Trace ∨ costA < k ∨ (k = costA ∧ A ∈ l)) →
      startBucket env fuel l n s = .ok r →
      EachAfter r.2.Trace (Event.startProcess B) (Event.startProcess A) ∧
      (∀ m, r.1 = some m → (Event.startProcess A ∈ r.2.Trace ∨ costA < k)) := by
  induction l with
  | nil =>
    intro n s r _ _ hT _ hQ h
    simp only [startBucket, Except.ok.injEq] at h
    rw [← h]
    refine ⟨hT, fun m _ => ?_⟩
    rcases hQ with hQ | hQ | ⟨-, hQ⟩
    · exact Or.inl hQ
    · exact Or.inr hQ
    · simp at hQ
  | cons t l ih =>
    intro n s r hinv hprops hT hl hQ h
    have hll : ∀ x ∈ l, Known tests x ∧ ∃ p, P0 x = some p ∧ p.Cost = k :=
      fun x hx => hl x (List.mem_cons_of_mem _ hx)
    simp only [startBucket] at h
    split at h
    · rename_i hflags
      refine ih _ _ _ hinv hprops hT hll ?_ h
      rcases hQ with hQ | hQ | ⟨hk, hQ⟩
      · exact Or.inl hQ
      · exact Or.inr (Or.inl hQ)
      · rcases List.mem_cons.1 hQ with rfl | hQ
        · exact Or.inl ((hinv.started_iff A).2 hflags)
        · exact Or.inr (Or.inr ⟨hk, hQ⟩)
    · rename_i hflags
      have hr : s.TestRunningMap t = false := by
        cases hh : s.TestRunningMap t <;> simp_all
      have hf : s.TestFinishMap t = false := by
        cases hh : s.TestFinishMap t <;> simp_all
      split at h
      · simp at h
      · rename_i processors _
        split at h
        · simp only [Except.ok.injEq] at h
          rw [← h]
          exact ⟨hT, fun m hm => by simp at hm⟩
        · -- the facts common to both outcomes of `StartTest`
          have hstep : ∀ (b : Bool) (s1 : cmCTestMultiProcessHandler),
              StartTest env fuel s t = .ok (b, s1) →
              Inv tests s1 ∧ s1.Properties = P0 ∧
              EachAfter s1.Trace (Event.startProcess B) (Event.startProcess A) ∧
              (Event.startProcess A ∈ s1.Trace ∨ costA < k ∨ (k = costA ∧ A ∈ l)) := by
            intro b s1 hs1
            obtain ⟨i1, i2, i3⟩ := StartTest_inv tests env fuel s t b s1 hinv hr hf
              (hl t (by simp)).1 hs1
            refine ⟨i1, i2.properties.trans hprops, eachAfter_of_launch hT i3 ?_, ?_⟩
            · by_cases hA : Event.startProcess A ∈ s.Trace
              · exact Or.inl hA
              · right
                intro hreach
                obtain ⟨p, hp, hpk⟩ := (hl t (by simp)).2
                have hlt := hlow t p hp hreach
                rw [hpk] at hlt
                rcases hQ with hQ | hQ | ⟨hk, -⟩
                · exact hA hQ
                · exact absurd hlt (not_lt.2 (le_of_lt hQ))
                · rw [hk] at hlt
                  exact lt_irrefl _ hlt
            · rcases hQ with hQ | hQ | ⟨hk, hQ⟩
              · exact Or.inl (i2.mem_trace hQ)
              · exact Or.inr (Or.inl hQ)
              · rcases List.mem_cons.1 hQ with rfl | hQ
                · left
                  refine StartTest_no_depends ?_ hs1
                  refine List.eq_nil_iff_forall_not_mem.2 ?_
                  intro d hd
                  have := hinv.depends_sub A d hd
                  rw [hAdeps] at this
                  simp at this
                · exact Or.inr (Or.inr ⟨hk, hQ⟩)
          split at h
          · simp at h
          · rename_i s1 hs1
            obtain ⟨j1, j2, j3, j4⟩ := hstep true s1 hs1
            have hc := TouchStep.of_count s1 (sizeAdd s1.RunningCount processors)
            split at h
            · simp only [Except.ok.injEq] at h
              rw [← h]
              exact ⟨j3, fun m hm => by simp at hm⟩
            · exact ih _ _ _ (j1.inv_touch hc) j2 j3 hll j4 h
          · rename_i s1 hs1
            obtain ⟨j1, j2, j3, j4⟩ := hstep false s1 hs1
            split at h
            · simp only [Except.ok.injEq] at h
              rw [← h]
              exact ⟨j3, fun m hm => by simp at hm⟩
            · exact ih _ _ _ j1 j2 j3 hll j4 h

/-- A dispatch pass, from the buckets `cs` (descending) on. -/
theorem startBuckets_order (tests : TestMap) (env : Env) (fuel : Nat) (A B : Int)
    (pA : cmCTestTestProperties) (P0 : PropertiesMap) (hA : P0 A = some pA)
    (hAkey : A ∈ tests.map Prod.fst) (hAdeps : mapAt tests A = [])
    (hlow : ∀ C p, P0 C = some p → Relation.ReflTransGen (DependsOn tests) C B →
      p.Cost < pA.Cost)
    (cs : List ℚ) :
    ∀ (n : Nat) (s s' : cmCTestMultiProcessHandler),
      Inv tests s → s.Properties = P0 → s.ShowOnly = false →
      EachAfter s.Trace (Event.startProcess B) (Event.startProcess A) →
      cs.Pairwise (fun a b => a > b) →
      (Event.startProcess A ∈ s.Trace ∨ pA.Cost ∈ cs) →
      startBuckets env fuel cs n s = .ok s' →
      EachAfter s'.Trace (Event.startProcess B) (Event.startProcess A) := by
  induction cs with
  | nil =>
    intro n s s' _ _ _ hT _ _ h
    simp only [startBuckets, Except.ok.injEq] at h
    rw [← h]
    exact hT
  | cons c cs ih =>
    intro n s s' hinv hprops hshow hT hsorted hQ h
    rw [List.pairwise_cons] at hsorted
    have hl : ∀ t ∈ mapAt s.TestCosts c, Known tests t ∧ ∃ p, P0 t = some p ∧ p.Cost = c := by
      intro t ht
      refine ⟨hinv.known_of_mem_bucket c t ht, ?_⟩
      obtain ⟨e, he, hk, hx⟩ := mem_of_mem_mapAt _ _ _ ht
      obtain ⟨p, hp, hpc⟩ := hinv.bucket_cost e he t hx
      exact ⟨p, by rw [← hprops]; exact hp, hpc.trans hk⟩
    have hQ' : Event.startProcess A ∈ s.Trace ∨ pA.Cost < c ∨
        (c = pA.Cost ∧ A ∈ mapAt s.TestCosts c) := by
      by_cases hst : Event.startProcess A ∈ s.Trace
      · exact Or.inl hst
      · rcases hQ with hQ | hQ
        · exact absurd hQ hst
        · rcases List.mem_cons.1 hQ with hQ | hQ
          · right; right
            refine ⟨hQ.symm, ?_⟩
            have hflags := mt (hinv.started_iff A).2 hst
            have hr : s.TestRunningMap A = false := by
              cases hh : s.TestRunningMap A <;> simp_all
            have hf : s.TestFinishMap A = false := by
              cases hh : s.TestFinishMap A <;> simp_all
            rw [← hQ]
            exact hinv.bucket_mem hshow A hAkey hr hf pA (by rw [hprops]; exact hA)
          · exact Or.inr (Or.inl (hsorted.1 _ hQ))
    simp only [startBuckets] at h
    split at h
    · simp at h
    · rename_i s1 hs1
      simp only [Except.ok.injEq] at h
      rw [← h]
      exact (startBucket_order tests env fuel A B pA.Cost P0 hAdeps hlow c _ _ _ _ hinv hprops
        hT hl hQ' hs1).1
    · rename_i n1 s1 hs1
      obtain ⟨i1, i2⟩ := startBucket_inv tests env fuel _ _ _ _ hinv
        (fun t ht => (hl t ht).1) hs1
      obtain ⟨j1, j2⟩ := startBucket_order tests env fuel A B pA.Cost P0 hAdeps hlow c _ _ _ _
        hinv hprops hT hl hQ' hs1
      refine ih _ _ _ i1 (i2.properties.trans hprops) (i2.showOnly.trans hshow) j1 hsorted.2
        ?_ h
      rcases j2 n1 rfl with j2 | j2
      · exact Or.inl j2
      · rcases hQ with hQ | hQ
        · exact Or.inl (i2.mem_trace hQ)
        · rcases List.mem_cons.1 hQ with hQ | hQ
          · rw [hQ] at j2
            exact absurd j2 (lt_irrefl _)
          · exact Or.inr hQ

theorem StartNextTests_order {tests : TestMap} {env : Env} {fuel : Nat} {A B : Int}
    {pA : cmCTestTestProperties} {s s' : cmCTestMultiProcessHandler}
    (hinv : Inv tests s) (hA : s.Properties A = some pA)
    (hAkey : A ∈ tests.map Prod.fst) (hAdeps : mapAt tests A = [])
    (hlow : ∀ C p, s.Properties C = some p → Relation.ReflTransGen (DependsOn tests) C B →
      p.Cost < pA.Cost)
    (hT : EachAfter s.Trace (Event.startProcess B) (Event.startProcess A))
    (h : StartNextTests env fuel s = .ok s') :
    EachAfter s'.Trace (Event.startProcess B) (Event.startProcess A) := by
  unfold StartNextTests at h
  simp only at h
  split at h
  · simp only [Except.ok.injEq] at h
    rw [← h]
    exact hT
  · cases hshow : s.ShowOnly with
    | true =>
      rw [hinv.show_only hshow] at h
      simp only [List.map_nil, List.reverse_nil, startBuckets, Except.ok.injEq] at h
      rw [← h]
      exact hT
    | false =>
      refine startBuckets_order tests env fuel A B pA s.Properties hA hAkey hAdeps hlow _ _ _ _
        hinv rfl hshow hT ?_ ?_ h
      · rw [List.pairwise_reverse]
        exact hinv.bucket_sorted
      · by_cases hst : Event.startProcess A ∈ s.Trace
        · exact Or.inl hst
        · right
          have hflags := mt (hinv.started_iff A).2 hst
          have hr : s.TestRunningMap A = false := by
            cases hh : s.TestRunningMap A <;> simp_all
          have hf : s.TestFinishMap A = false := by
            cases hh : s.TestFinishMap A <;> simp_all
          obtain ⟨e, he, hk, -⟩ := mem_of_mem_mapAt _ _ _
            (hinv.bucket_mem hshow A hAkey hr hf pA hA)
          rw [List.mem_reverse, ← hk]
          exact List.mem_map_of_mem _ he

theorem finishAll_trace (env : Env) (ps : List cmCTestRunTest) :
    ∀ (s s' : cmCTestMultiProcessHandler), finishAll env ps s = .ok s' →
      ∃ l, s'.Trace = s.Trace ++ l ∧ ∀ e ∈ l, ∃ t, e = Event.markFinished t := by
  induction ps with
  | nil =>
    intro s s' h
    simp only [finishAll, Except.ok.injEq] at h
    rw [← h]
    exact ⟨[], by simp, by simp⟩
  | cons p ps ih =>
    intro s s' h
    simp only [finishAll] at h
    split at h
    · simp at h
    · rename_i s1 hs1
      obtain ⟨l, hl, hall⟩ := ih _ _ h
      refine ⟨Event.markFinished p.Index :: l, ?_, ?_⟩
      · rw [hl, (finishTest_step hs1).trace]; simp
      · intro e he
        rcases List.mem_cons.1 he with rfl | he
        · exact ⟨_, rfl⟩
        · exact hall e he

theorem CheckOutput_trace {env : Env} {s s' : cmCTestMultiProcessHandler} {b : Bool}
    (h : CheckOutput env s = .ok (b, s')) :
    ∃ l, s'.Trace = s.Trace ++ l ∧ ∀ e ∈ l, ∃ t, e = Event.markFinished t := by
  unfold CheckOutput at h
  split at h
  · simp only [Except.ok.injEq, Prod.mk.injEq] at h
    rw [← h.2]
    exact ⟨[], by simp, by simp⟩
  · simp only at h
    split at h
    · simp at h
    · rename_i s1 hs1
      simp only [Except.ok.injEq, Prod.mk.injEq] at h
      rw [← h.2]
      exact finishAll_trace env _ _ _ hs1

/-- C9 (as stated, refuted): tests 1 (cost 10) and 2 (cost 5) have no dependencies, test 3
(cost 20) depends on 2, `-j 4`, weight 1 each, so the budget blocks nothing: the first
`StartNextTests` pass starts test 2 (on behalf of candidate 3) before test 1, although
neither of 1 and 2 depends on the other and `cost(1) > cost(2)`. -/
theorem C9_dependency_launch_overtakes :
    ¬ HasCycle costTriple.tests ∧
    ¬ Relation.TransGen (DependsOn costTriple.tests) 1 2 ∧
    ¬ Relation.TransGen (DependsOn costTriple.tests) 2 1 ∧
    (costTriple.run [.startNextTests promptEnv 3]).map
      (fun s => (s.Trace.filterMap Event.started, s.RunningCount, s.ParallelLevel,
        (s.Properties 1).map (fun p => p.Cost), (s.Properties 2).map (fun p => p.Cost)))
      = .ok ([2, 1], 2, 4, some 10, some 5) := by
  refine ⟨?_, ?_, ?_, rfl⟩
  · refine not_hasCycle_of_rank (fun i => if i = 3 then 1 else 0) ?_
    intro a b hab
    simp [costTriple, dependsOn_cons_iff, dependsOn_nil] at hab
    obtain ⟨-, -, rfl, rfl⟩ := hab
    decide
  · intro h
    obtain ⟨b, hb, -⟩ := Relation.TransGen.head'_iff.1 h
    simp [costTriple, dependsOn_cons_iff, dependsOn_nil] at hb
  · intro h
    obtain ⟨b, hb, -⟩ := Relation.TransGen.head'_iff.1 h
    simp [costTriple, dependsOn_cons_iff, dependsOn_nil] at hb

/-- C9 (amended): let `A` be a test of the set without dependencies, and let every test that
reaches `B` through zero or more dependency edges (`B` itself included) have a cost below
`cost(A)`.  Then in every state of a run, whatever the budget, every entry into
`StartTestProcess(B)` in the history comes after the entry into `StartTestProcess(A)`:
`A` is dispatched no later than `B`. -/
theorem C9_cost_priority (c : Setup) (s : cmCTestMultiProcessHandler) (hs : Reachable c s)
    (A B : Int) (pA : cmCTestTestProperties) (hA : s.Properties A = some pA)
    (hAkey : A ∈ c.tests.map Prod.fst) (hAdeps : mapAt c.tests A = [])
    (hlow : ∀ C p, s.Properties C = some p →
      Relation.ReflTransGen (DependsOn c.tests) C B → p.Cost < pA.Cost) :
    EachAfter s.Trace (Event.startProcess B) (Event.startProcess A) := by
  obtain ⟨-, s0, hinit, hk0⟩ := reachable_inv hs
  have hP : s.Properties = s0.Properties := hk0.properties
  rw [hP] at hA hlow
  clear hP hk0
  induction hs with
  | setTests s1 h1 =>
    rw [(init_state h1).trace]
    exact eachAfter_nil _ _
  | startNextTests env fuel s1 s2 hr hstep ih =>
    obtain ⟨i1, s0', i2, i3⟩ := reachable_inv hr
    have hs0 : s0' = s0 := by
      rw [hinit] at i2
      exact (Except.ok.inj i2).symm
    subst hs0
    have hP1 : s1.Properties = s0'.Properties := i3.properties
    exact StartNextTests_order i1 (by rw [hP1]; exact hA) hAkey hAdeps
      (by rw [hP1]; exact hlow) ih hstep
  | checkOutput env s1 s2 b hr hstep ih =>
    obtain ⟨l, hl, hall⟩ := CheckOutput_trace hstep
    rw [hl]
    refine eachAfter_append_of_ne l _ _ ?_ _ ih
    intro x hx
    obtain ⟨t, rfl⟩ := hall x hx
    simp

/-- C9 (amended) at scenario S2: tests 1 (cost 10) and 2 (cost 5) are started 1 then 2. -/
theorem C9_cost_priority_witness :
    Reachable costPair (costPair.stateAfter promptRounds) ∧
    (costPair.stateAfter promptRounds).Properties 1 = some (testProperties "t1" 1 false 10) ∧
    (1 : Int) ∈ costPair.tests.map Prod.fst ∧ mapAt costPair.tests 1 = [] ∧
    (∀ C p, (costPair.stateAfter promptRounds).Properties C = some p →
      Relation.ReflTransGen (DependsOn costPair.tests) C 2 →
      p.Cost < (testProperties "t1" 1 false 10).Cost) ∧
    (costPair.stateAfter promptRounds).Trace.filterMap Event.started = [1, 2] ∧
    EachAfter (costPair.stateAfter promptRounds).Trace (Event.startProcess 2)
      (Event.startProcess 1) := by
  have hlow : ∀ C p, (costPair.stateAfter promptRounds).Properties C = some p →
      Relation.ReflTransGen (DependsOn costPair.tests) C 2 →
      p.Cost < (testProperties "t1" 1 false 10).Cost := by
    intro C p hp hreach
    have hC : C = 2 := by
      rcases Relation.ReflTransGen.cases_tail hreach with h | ⟨b, -, hb⟩
      · exact h.symm
      · simp [costPair, dependsOn_cons_iff, dependsOn_nil] at hb
    subst hC
    have h2 : (costPair.stateAfter promptRounds).Properties 2
        = some (testProperties "t2" 1 false 5) := rfl
    rw [h2] at hp
    simp only [Option.some.injEq] at hp
    rw [← hp]
    simp only [testProperties]
    norm_num
  exact ⟨@reachable_of_run costPair promptRounds _ rfl, rfl, by decide, rfl, hlow, rfl,
    C9_cost_priority costPair (costPair.stateAfter promptRounds)
      (@reachable_of_run costPair promptRounds _ rfl) 1 2 (testProperties "t1" 1 false 10)
      rfl (by decide) rfl hlow⟩

/-! ## Every operation of the scheduler is a sequence of small steps -/

theorem StartTestProcess_micro {env : Env} {s s' : cmCTestMultiProcessHandler} {t : Int}
    (hr : s.TestRunningMap t = false) (hf : s.TestFinishMap t = false)
    (h : StartTestProcess env s t = .ok s') : Micro s s' := by
  rcases StartTestProcess_step h with st | st
  · exact Micro.started s s' t st hr hf
  · exact Micro.failed s s' t st hr hf

theorem StartTest_micro (env : Env) (fuel : Nat) :
    ∀ (s : cmCTestMultiProcessHandler) (t : Int) (b : Bool) (s' : cmCTestMultiProcessHandler),
      s.TestRunningMap t = false → s.TestFinishMap t = false →
      StartTest env fuel s t = .ok (b, s') → Relation.ReflTransGen Micro s s' := by
  induction fuel with
  | zero => intro s t b s' _ _ h; simp [StartTest] at h
  | succ n ih =>
    intro s t b s' hr hf h
    simp only [StartTest] at h
    have htouch : Micro s { s with Tests := mapTouch s.Tests t } :=
      Micro.touch _ _ (TouchStep.of_touch s t)
    split at h
    · rename_i d hscan
      obtain ⟨-, hdr, hdf⟩ := scanDepends_startDepend _ _ _ _ hscan
      exact Relation.ReflTransGen.head htouch (ih _ d b s' hdr hdf h)
    · split at h
      · split at h
        · simp at h
        · rename_i s1 hs1
          simp only [Except.ok.injEq, Prod.mk.injEq] at h
          rw [← h.2]
          exact Relation.ReflTransGen.head htouch
            (Relation.ReflTransGen.single (StartTestProcess_micro hr hf hs1))
      · simp only [Except.ok.injEq, Prod.mk.injEq] at h
        rw [← h.2]
        exact Relation.ReflTransGen.single htouch

theorem startBucket_micro (env : Env) (fuel : Nat) (l : List Int) :
    ∀ (n : Nat) (s : cmCTestMultiProcessHandler) (r : Option Nat × cmCTestMultiProcessHandler),
      startBucket env fuel l n s = .ok r → Relation.ReflTransGen Micro s r.2 := by
  induction l with
  | nil =>
    intro n s r h
    simp only [startBucket, Except.ok.injEq] at h
    rw [← h]
  | cons t l ih =>
    intro n s r h
    simp only [startBucket] at h
    split at h
    · exact ih _ _ _ h
    · rename_i hflags
      have hr : s.TestRunningMap t = false := by
        cases hh : s.TestRunningMap t <;> simp_all
      have hf : s.TestFinishMap t = false := by
        cases hh : s.TestFinishMap t <;> simp_all
      split at h
      · simp at h
      · rename_i processors _
        split at h
        · simp only [Except.ok.injEq] at h
          rw [← h]
        · split at h
          · simp at h
          · rename_i s1 hs1
            have h1 := StartTest_micro env fuel s t true s1 hr hf hs1
            have h2 : Micro s1 { s1 with RunningCount := sizeAdd s1.RunningCount processors } :=
              Micro.touch _ _ (TouchStep.of_count s1 _)
            split at h
            · simp only [Except.ok.injEq] at h
              rw [← h]
              exact h1.tail h2
            · exact (h1.tail h2).trans (ih _ _ _ h)
          · rename_i s1 hs1
            have h1 := StartTest_micro env fuel s t false s1 hr hf hs1
            split at h
            · simp only [Except.ok.injEq] at h
              rw [← h]
              exact h1
            · exact h1.trans (ih _ _ _ h)

theorem startBuckets_micro (env : Env) (fuel : Nat) (cs : List ℚ) :
    ∀ (n : Nat) (s s' : cmCTestMultiProcessHandler),
      startBuckets env fuel cs n s = .ok s' → Relation.ReflTransGen Micro s s' := by
  induction cs with
  | nil =>
    intro n s s' h
    simp only [startBuckets, Except.ok.injEq] at h
    rw [← h]
  | cons c cs ih =>
    intro n s s' h
    simp only [startBuckets] at h
    split at h
    · simp at h
    · rename_i s1 hs1
      simp only [Except.ok.injEq] at h
      rw [← h]
      exact startBucket_micro env fuel _ _ _ _ hs1
    · rename_i n1 s1 hs1
      exact (startBucket_micro env fuel _ _ _ _ hs1).trans (ih _ _ _ h)

theorem StartNextTests_micro {env : Env} {fuel : Nat} {s s' : cmCTestMultiProcessHandler}
    (h : StartNextTests env fuel s = .ok s') : Relation.ReflTransGen Micro s s' := by
  unfold StartNextTests at h
  simp only at h
  split at h
  · simp only [Except.ok.injEq] at h
    rw [← h]
  · exact startBuckets_micro env fuel _ _ _ _ h

theorem finishAll_micro (env : Env) (ps : List cmCTestRunTest) :
    ∀ (s s' : cmCTestMultiProcessHandler), finishAll env ps s = .ok s' →
      Relation.ReflTransGen Micro s s' := by
  induction ps with
  | nil =>
    intro s s' h
    simp only [finishAll, Except.ok.injEq] at h
    rw [← h]
  | cons p ps ih =>
    intro s s' h
    simp only [finishAll] at h
    split at h
    · simp at h
    · rename_i s1 hs1
      exact Relation.ReflTransGen.head (Micro.finished env s s1 p (finishTest_step hs1))
        (ih _ _ h)

theorem CheckOutput_micro {env : Env} {s s' : cmCTestMultiProcessHandler} {b : Bool}
    (h : CheckOutput env s = .ok (b, s')) : Relation.ReflTransGen Micro s s' := by
  unfold CheckOutput at h
  split at h
  · simp only [Except.ok.injEq, Prod.mk.injEq] at h
    rw [← h.2]
  · simp only at h
    split at h
    · simp at h
    · rename_i s1 hs1
      simp only [Except.ok.injEq, Prod.mk.injEq] at h
      rw [← h.2]
      exact finishAll_micro env _ _ _ hs1

/-- A property that every small step keeps is kept by every sequence of small steps. -/
theorem micro_keeps {P : cmCTestMultiProcessHandler → Prop}
    (hstep : ∀ s s', Micro s s' → P s → P s') {s s' : cmCTestMultiProcessHandler}
    (h : Relation.ReflTransGen Micro s s') (hs : P s) : P s' := by
  induction h with
  | refl => exact hs
  | tail _ hlast ih => exact hstep _ _ hlast ih

/-! ## C16 -/

theorem foldl_erase_cons_of_ne {α : Type} [DecidableEq α] (x : α) (ys : List α) :
    ∀ l : List α, (∀ y ∈ ys, y ≠ x) →
      ys.foldl List.erase (x :: l) = x :: ys.foldl List.erase l := by
  induction ys with
  | nil => intro l _; rfl
  | cons y ys ih =>
    intro l h
    have hy : y ≠ x := h y (by simp)
    simp only [List.foldl_cons]
    rw [List.erase_cons_tail (by simpa using hy.symm)]
    exact ih _ (fun z hz => h z (List.mem_cons_of_mem _ hz))

theorem foldl_erase_filter {α : Type} [DecidableEq α] (q : α → Bool) (l : List α) :
    (l.filter q).foldl List.erase l = l.filter (fun a => !q a) := by
  induction l with
  | nil => rfl
  | cons x l ih =>
    by_cases hq : q x = true
    · simp only [List.filter_cons, hq, if_true, List.foldl_cons, List.erase_cons_head]
      simpa [hq] using ih
    · simp only [List.filter_cons, hq, if_false]
      rw [foldl_erase_cons_of_ne x _ l]
      · simp [hq, ih]
      · intro y hy hyx
        rw [hyx] at hy
        exact hq (List.mem_filter.1 hy).2

theorem processorsOf_congr {s s' : cmCTestMultiProcessHandler}
    (hp : s'.Properties = s.Properties) (hl : s'.ParallelLevel = s.ParallelLevel) :
    processorsOf s' = processorsOf s := by
  funext t
  simp [processorsOf, GetProcessorsUsed_congr hp hl t]

theorem processorsOf_eq {s : cmCTestMultiProcessHandler} {t : Int} {n : Nat}
    (h : GetProcessorsUsed s t = .ok n) : processorsOf s t = n := by
  simp [processorsOf, h, valueOr]

theorem GetProcessorsUsed_ok {s : cmCTestMultiProcessHandler} {t : Int}
    {q : cmCTestTestProperties} (h : s.Properties t = some q) :
    ∃ n, GetProcessorsUsed s t = .ok n := by
  unfold GetProcessorsUsed
  rw [h]
  simp only
  split <;> exact ⟨_, rfl⟩

theorem finishTest_ok {env : Env} {s : cmCTestMultiProcessHandler} {p : cmCTestRunTest}
    {q : cmCTestTestProperties} (h : s.Properties p.Index = some q) :
    ∃ s', finishTest env s p = .ok s' := by
  obtain ⟨n, hn⟩ := GetProcessorsUsed_ok h
  unfold finishTest
  simp only [WriteCheckpoint, WriteCostData]
  have : ∀ s1 : cmCTestMultiProcessHandler, s1.Properties = s.Properties →
      s1.ParallelLevel = s.ParallelLevel → GetProcessorsUsed s1 p.Index = .ok n :=
    fun s1 h1 h2 => (GetProcessorsUsed_congr h1 h2 p.Index).trans hn
  rw [this _ (by simp only; split <;> rfl) (by simp only; split <;> rfl)]
  exact ⟨_, rfl⟩

/-- What the second loop of `CheckOutput` does with the vector `ps`. -/
theorem finishAll_spec (env : Env) (ps : List cmCTestRunTest) :
    ∀ (s s' : cmCTestMultiProcessHandler), finishAll env ps s = .ok s' →
      s'.Completed = ps.foldl (fun c _ => sizeAdd c 1) s.Completed ∧
      s'.Passed = s.Passed ++
        (ps.filter (fun p => env.pass p.Index)).map (fun p => p.TestProperties.Name) ∧
      s'.Failed = s.Failed ++
        (ps.filter (fun p => !env.pass p.Index)).map (fun p => p.TestProperties.Name) ∧
      s'.Tests.map Prod.fst = s.Tests.map Prod.fst ∧
      (∀ x d, d ∈ mapAt s'.Tests x ↔
        d ∈ mapAt s.Tests x ∧ d ∉ ps.map (fun p => p.Index)) ∧
      (∀ i, s'.TestFinishMap i =
        if i ∈ ps.map (fun p => p.Index) then true else s.TestFinishMap i) ∧
      (∀ i, s'.TestRunningMap i =
        if i ∈ ps.map (fun p => p.Index) then false else s.TestRunningMap i) ∧
      s'.RunningTests = ps.foldl List.erase s.RunningTests ∧
      s'.RunningCount =
        ps.foldl (fun rc p => sizeSub rc (processorsOf s p.Index)) s.RunningCount ∧
      s'.TestCosts = s.TestCosts ∧ s'.Properties = s.Properties ∧
      s'.ParallelLevel = s.ParallelLevel := by
  induction ps with
  | nil =>
    intro s s' h
    simp only [finishAll, Except.ok.injEq] at h
    subst h
    simp
  | cons p ps ih =>
    intro s s' h
    simp only [finishAll] at h
    split at h
    · simp at h
    · rename_i s1 hs1
      have st := finishTest_step hs1
      obtain ⟨a1, a2, a3, a4, a5, a6, a7, a8, a9, a10, a11, a12⟩ := ih _ _ h
      obtain ⟨n, hn, hrc⟩ := st.count
      refine ⟨?_, ?_, ?_, ?_, ?_, ?_, ?_, ?_, ?_, ?_, ?_, ?_⟩
      · rw [a1, st.completed]; rfl
      · rw [a2, st.passed]
        by_cases hp : env.pass p.Index = true <;> simp [List.filter_cons, hp]
      · rw [a3, st.failed]
        by_cases hp : env.pass p.Index = true <;> simp [List.filter_cons, hp]
      · rw [a4, st.tests, List.map_map]
        rfl
      · intro x d
        rw [a5, st.tests, mapAt_map_setErase, mem_setErase]
        simp only [List.map_cons, List.mem_cons, not_or]
        tauto
      · intro i
        rw [a6, st.finish]
        by_cases h1 : i = p.Index
        · simp [h1]
        · simp only [List.map_cons, List.mem_cons, h1, false_or, if_false]
      · intro i
        rw [a7, st.running]
        by_cases h1 : i = p.Index
        · simp [h1]
        · simp only [List.map_cons, List.mem_cons, h1, false_or, if_false]
      · rw [a8, st.handles]; rfl
      · rw [a9, hrc, processorsOf_congr st.properties st.level, List.foldl_cons,
          processorsOf_eq hn]
      · rw [a10, st.costs]
      · rw [a11, st.properties]
      · rw [a12, st.level]

theorem finishAll_ok (env : Env) (ps : List cmCTestRunTest) :
    ∀ (s : cmCTestMultiProcessHandler),
      (∀ p ∈ ps, ∃ q, s.Properties p.Index = some q) → ∃ s', finishAll env ps s = .ok s' := by
  induction ps with
  | nil => intro s _; exact ⟨s, rfl⟩
  | cons p ps ih =>
    intro s hprops
    obtain ⟨q, hq⟩ := hprops p (by simp)
    obtain ⟨s1, hs1⟩ := @finishTest_ok env s p q hq
    have hp1 : s1.Properties = s.Properties := (finishTest_step hs1).properties
    obtain ⟨s', hs'⟩ := ih s1 (fun p' hp' => by
      rw [hp1]; exact hprops p' (List.mem_cons_of_mem _ hp'))
    exact ⟨s', by simp only [finishAll, hs1, hs']⟩

/-- C16: `CheckOutput` returns false and changes nothing when the running set is empty.
Otherwise, the tests of the exited handles having properties, it returns true, and with
`exited` the handles whose output check reports exit: `Completed` has grown by one for
each; the name of each is appended to `Passed` if `EndTest` reports pass and to `Failed`
otherwise, in the order of the running set; their ids are gone from every remaining
dependency set, the keys of `Tests` being the same; their `TestFinishMap` is true and
their `TestRunningMap` false, the other flags being unchanged; the running set is left
with the live handles; `RunningCount` has been decreased by `GetProcessorsUsed` of each;
every live handle is still in the running set, its flags unchanged. -/
theorem C16_check_output (env : Env) (s : cmCTestMultiProcessHandler) :
    (s.RunningTests = [] → CheckOutput env s = .ok (false, s)) ∧
    (s.RunningTests ≠ [] → (∀ p ∈ exited env s, ∃ q, s.Properties p.Index = some q) →
      ∃ s', CheckOutput env s = .ok (true, s') ∧
        s'.Completed = (exited env s).foldl (fun c _ => sizeAdd c 1) s.Completed ∧
        s'.Passed = s.Passed ++ ((exited env s).filter (fun p => env.pass p.Index)).map
          (fun p => p.TestProperties.Name) ∧
        s'.Failed = s.Failed ++ ((exited env s).filter (fun p => !env.pass p.Index)).map
          (fun p => p.TestProperties.Name) ∧
        s'.Tests.map Prod.fst = s.Tests.map Prod.fst ∧
        (∀ x d, d ∈ mapAt s'.Tests x ↔
          d ∈ mapAt s.Tests x ∧ d ∉ (exited env s).map (fun p => p.Index)) ∧
        (∀ i, s'.TestFinishMap i =
          if i ∈ (exited env s).map (fun p => p.Index) then true else s.TestFinishMap i) ∧
        (∀ i, s'.TestRunningMap i =
          if i ∈ (exited env s).map (fun p => p.Index) then false else s.TestRunningMap i) ∧
        s'.RunningTests = s.RunningTests.filter (fun p => env.live p.Index) ∧
        s'.RunningCount = (exited env s).foldl
          (fun rc p => sizeSub rc (processorsOf s p.Index)) s.RunningCount ∧
        (∀ p ∈ s.RunningTests, env.live p.Index = true →
          p ∈ s'.RunningTests ∧ s'.TestRunningMap p.Index = s.TestRunningMap p.Index ∧
          s'.TestFinishMap p.Index = s.TestFinishMap p.Index)) := by
  constructor
  · intro h
    simp [CheckOutput, h]
  · intro hne hprops
    obtain ⟨s', hs'⟩ := finishAll_ok env (exited env s) s hprops
    obtain ⟨a1, a2, a3, a4, a5, a6, a7, a8, a9, -, -, -⟩ := finishAll_spec env _ _ _ hs'
    have hlen : ¬ s.RunningTests.length = 0 := by
      intro h0
      exact hne (List.length_eq_zero.1 h0)
    have hrt : s'.RunningTests = s.RunningTests.filter (fun p => env.live p.Index) := by
      rw [a8]
      unfold exited
      rw [foldl_erase_filter]
      simp
    refine ⟨s', ?_, a1, a2, a3, a4, a5, a6, a7, hrt, a9, ?_⟩
    · unfold CheckOutput
      rw [if_neg hlen]
      simp only
      unfold exited at hs'
      rw [hs']
    · intro p hp hlive
      have hnot : p.Index ∉ (exited env s).map (fun p => p.Index) := by
        intro hmem
        obtain ⟨q, hq, hqi⟩ := List.mem_map.1 hmem
        have hq2 := (List.mem_filter.1 hq).2
        have hqi' : q.Index = p.Index := hqi
        rw [hqi', hlive] at hq2
        simp at hq2
      refine ⟨?_, ?_, ?_⟩
      · rw [hrt]
        exact List.mem_filter.2 ⟨hp, hlive⟩
      · rw [a7, if_neg hnot]
      · rw [a6, if_neg hnot]

/-- C16 at scenario S1 after the first dispatch, test 1 running and exiting at the poll. -/
theorem C16_check_output_witness :
    (linearChain.stateAfter [.startNextTests promptEnv 3]).RunningTests ≠ [] ∧
    (∀ p ∈ exited promptEnv (linearChain.stateAfter [.startNextTests promptEnv 3]),
      ∃ q, (linearChain.stateAfter [.startNextTests promptEnv 3]).Properties p.Index
        = some q) ∧
    ∃ s', CheckOutput promptEnv (linearChain.stateAfter [.startNextTests promptEnv 3])
        = .ok (true, s') ∧
      s'.Completed = 1 ∧ s'.Passed = ["t1"] ∧ s'.Failed = [] ∧ s'.RunningTests = [] ∧
      s'.RunningCount = 0 ∧ s'.TestFinishMap 1 = true ∧ s'.TestRunningMap 1 = false ∧
      mapAt s'.Tests 2 = [] := by
  have hex : exited promptEnv (linearChain.stateAfter [.startNextTests promptEnv 3])
      = [⟨1, testProperties "t1" 1 false 1⟩] := rfl
  have hne : (linearChain.stateAfter [.startNextTests promptEnv 3]).RunningTests ≠ [] := by
    intro h
    have : ([⟨1, testProperties "t1" 1 false 1⟩] : List cmCTestRunTest) = [] := h
    simp at this
  have hprops : ∀ p ∈ exited promptEnv (linearChain.stateAfter [.startNextTests promptEnv 3]),
      ∃ q, (linearChain.stateAfter [.startNextTests promptEnv 3]).Properties p.Index
        = some q := by
    intro p hp
    rw [hex] at hp
    simp only [List.mem_singleton] at hp
    subst hp
    exact ⟨_, rfl⟩
  obtain ⟨s', h, a1, a2, a3, -, a5, a6, a7, a8, a9, -⟩ :=
    (C16_check_output promptEnv (linearChain.stateAfter [.startNextTests promptEnv 3])).2
      hne hprops
  rw [hex] at a1 a2 a3 a5 a6 a7 a9
  refine ⟨hne, hprops, s', h, a1, a2, a3, a8, a9, ?_, ?_, ?_⟩
  · rw [a6]; rfl
  · rw [a7]; rfl
  · apply List.eq_nil_iff_forall_not_mem.2
    intro d hd
    have := (a5 2 d).1 hd
    have h2 : mapAt (linearChain.stateAfter [.startNextTests promptEnv 3]).Tests 2 = [1] := rfl
    rw [h2] at this
    simp at this

/-! ## C17 -/

theorem CheckOutput_keys {env : Env} {s s' : cmCTestMultiProcessHandler} {b : Bool}
    (h : CheckOutput env s = .ok (b, s')) :
    s'.Tests.map Prod.fst = s.Tests.map Prod.fst ∧ (b = false → s'.RunningTests = []) := by
  unfold CheckOutput at h
  split at h
  · rename_i h0
    simp only [Except.ok.injEq, Prod.mk.injEq] at h
    rw [← h.2]
    exact ⟨rfl, fun _ => List.length_eq_zero.1 h0⟩
  · simp only at h
    split at h
    · simp at h
    · rename_i s1 hs1
      simp only [Except.ok.injEq, Prod.mk.injEq] at h
      rw [← h.2]
      refine ⟨(finishAll_spec env _ _ _ hs1).2.2.2.1, fun hb => ?_⟩
      rw [← h.1] at hb
      simp at hb

theorem pendingLoop_tests (env : Nat → Env) (fuel : Nat) (n : Nat) :
    ∀ (i : Nat) (s : cmCTestMultiProcessHandler) (r : Nat × cmCTestMultiProcessHandler),
      pendingLoop env fuel n i s = .ok r → r.2.Tests.length = 0 := by
  induction n with
  | zero =>
    intro i s r h
    simp only [pendingLoop] at h
    split at h
    · rename_i h0
      simp only [Except.ok.injEq] at h
      rw [← h]
      exact h0
    · simp at h
  | succ n ih =>
    intro i s r h
    simp only [pendingLoop] at h
    split at h
    · rename_i h0
      simp only [Except.ok.injEq] at h
      rw [← h]
      exact h0
    · split at h
      · simp at h
      · split at h
        · simp at h
        · exact ih _ _ _ h

theorem drainLoop_empty (env : Nat → Env) (n : Nat) :
    ∀ (i : Nat) (s s' : cmCTestMultiProcessHandler), drainLoop env n i s = .ok s' →
      s.Tests.length = 0 → s'.Tests.length = 0 ∧ s'.RunningTests = [] := by
  induction n with
  | zero => intro i s s' h; simp [drainLoop] at h
  | succ n ih =>
    intro i s s' h h0
    simp only [drainLoop] at h
    split at h
    · simp at h
    · rename_i s1 hs1
      simp only [Except.ok.injEq] at h
      obtain ⟨hk, hr⟩ := CheckOutput_keys hs1
      rw [← h]
      refine ⟨?_, hr rfl⟩
      have := congrArg List.length hk
      simp only [List.length_map] at this
      omega
    · rename_i s1 hs1
      obtain ⟨hk, -⟩ := CheckOutput_keys hs1
      refine ih _ _ _ h ?_
      have := congrArg List.length hk
      simp only [List.length_map] at this
      omega

/-- C17: whenever `RunTests` returns after `CheckCycles` returned true, the pending map
`Tests` is empty, the running set is empty and the checkpoint file does not exist. -/
theorem C17_clean_run (start : Env) (env : Nat → Env) (fuel : Nat)
    (this r : cmCTestMultiProcessHandler)
    (hrun : RunTests start env fuel this = .ok r)
    (hcycles : (CheckCycles fuel (CheckResume this)).map Prod.fst = .ok true) :
    r.Tests = [] ∧ r.RunningTests = [] ∧ r.CheckpointFile = none := by
  obtain ⟨⟨b, s1⟩, hs1, hb⟩ := ok_of_map_ok hcycles
  simp only at hb
  subst hb
  simp only [RunTests, hs1] at hrun
  split at hrun
  · simp at hrun
  · rename_i s2 hs2
    split at hrun
    · simp at hrun
    · rename_i i s3 hs3
      split at hrun
      · simp at hrun
      · rename_i s4 hs4
        simp only [Except.ok.injEq] at hrun
        have h3 := pendingLoop_tests env fuel fuel 0 _ _ hs3
        obtain ⟨h4, h5⟩ := drainLoop_empty env fuel _ _ _ hs4 h3
        rw [← hrun]
        exact ⟨List.length_eq_zero.1 h4, h5, rfl⟩

/-- C17 at scenario S1, every child starting, exiting at the first poll and passing. -/
theorem C17_clean_run_witness :
    RunTests promptEnv (fun _ => promptEnv) 10 linearChain.handler
      = .ok (valueOr (RunTests promptEnv (fun _ => promptEnv) 10 linearChain.handler)
          linearChain.handler) ∧
    (CheckCycles 10 (CheckResume linearChain.handler)).map Prod.fst = .ok true ∧
    (valueOr (RunTests promptEnv (fun _ => promptEnv) 10 linearChain.handler)
      linearChain.handler).Passed = ["t1", "t2", "t3"] ∧
    ((valueOr (RunTests promptEnv (fun _ => promptEnv) 10 linearChain.handler)
        linearChain.handler).Tests = [] ∧
     (valueOr (RunTests promptEnv (fun _ => promptEnv) 10 linearChain.handler)
        linearChain.handler).RunningTests = [] ∧
     (valueOr (RunTests promptEnv (fun _ => promptEnv) 10 linearChain.handler)
        linearChain.handler).CheckpointFile = none) :=
  ⟨rfl, rfl, rfl,
    C17_clean_run promptEnv (fun _ => promptEnv) 10 linearChain.handler _ rfl rfl⟩

/-! ## C13 -/

theorem RemoveTest_step (s : cmCTestMultiProcessHandler) (index : Int) :
    RemovedStep s (RemoveTest s index) index :=
  { tests := rfl, costs := rfl, running := fun _ => rfl, finish := fun _ => rfl,
    trace := rfl, handles := rfl, properties := fun _ => rfl, showOnly := rfl,
    failover := rfl, level := rfl, count := rfl, completed := rfl, passed := rfl,
    failed := rfl, costData := rfl, checkpoint := rfl }

theorem accounted_succ_left {n a b c : Nat} (h : c = (a + b + n) % sizeMod) :
    sizeAdd c 1 = (a + 1 + b + n) % sizeMod := by
  unfold sizeAdd
  rw [h, Nat.mod_add_mod]
  congr 1
  omega

theorem accounted_succ_right {n a b c : Nat} (h : c = (a + b + n) % sizeMod) :
    sizeAdd c 1 = (a + (b + 1) + n) % sizeMod := by
  unfold sizeAdd
  rw [h, Nat.mod_add_mod]
  congr 1
  omega

theorem accounted_succ_removed {n a b c : Nat} (h : c = (a + b + n) % sizeMod) :
    sizeAdd c 1 = (a + b + (n + 1)) % sizeMod := by
  unfold sizeAdd
  rw [h, Nat.mod_add_mod]
  congr 1

theorem Accounted.micro {n : Nat} {s s' : cmCTestMultiProcessHandler} (h : Micro s s')
    (ha : Accounted n s) : Accounted n s' := by
  unfold Accounted at ha ⊢
  cases h with
  | touch _ _ st => rw [st.completed, st.passed, st.failed]; exact ha
  | started _ _ t st _ _ => rw [st.completed, st.passed, st.failed]; exact ha
  | failed _ _ t st _ _ =>
    obtain ⟨p, -, hf⟩ := st.failed
    rw [st.completed, st.passed, hf, List.length_append, List.length_singleton]
    exact accounted_succ_right ha
  | finished env _ _ p st =>
    rw [st.completed, st.passed, st.failed]
    cases hp : env.pass p.Index with
    | true =>
      have e1 : (if true = true then s.Passed ++ [p.TestProperties.Name] else s.Passed)
          = s.Passed ++ [p.TestProperties.Name] := rfl
      have e2 : (if true = true then s.Failed else s.Failed ++ [p.TestProperties.Name])
          = s.Failed := rfl
      rw [e1, e2, List.length_append, List.length_singleton]
      exact accounted_succ_left ha
    | false =>
      have e1 : (if false = true then s.Passed ++ [p.TestProperties.Name] else s.Passed)
          = s.Passed := rfl
      have e2 : (if false = true then s.Failed else s.Failed ++ [p.TestProperties.Name])
          = s.Failed ++ [p.TestProperties.Name] := rfl
      rw [e1, e2, List.length_append, List.length_singleton]
      exact accounted_succ_right ha

theorem Accounted.removed {n : Nat} {s : cmCTestMultiProcessHandler} (index : Int)
    (ha : Accounted n s) : Accounted (n + 1) (RemoveTest s index) := by
  unfold Accounted at ha ⊢
  have st := RemoveTest_step s index
  rw [st.completed, st.passed, st.failed]
  exact accounted_succ_removed ha

theorem Accounted.removedAll (lines : List Int) :
    ∀ {n : Nat} {s : cmCTestMultiProcessHandler}, Accounted n s →
      Accounted (n + lines.length) (lines.foldl RemoveTest s) := by
  induction lines with
  | nil => intro n s ha; exact ha
  | cons l ls ih =>
    intro n s ha
    have := ih (ha.removed l)
    simp only [List.foldl_cons, List.length_cons]
    have he : n + (ls.length + 1) = n + 1 + ls.length := by omega
    rw [he]
    exact this

theorem Accounted.resumed {n : Nat} {s : cmCTestMultiProcessHandler} (ha : Accounted n s) :
    Accounted (n + removals s) (CheckResume s) := by
  unfold CheckResume removals
  by_cases hf : s.Failover = true
  · simp only [hf, if_true]
    cases hc : s.CheckpointFile with
    | none => simpa using ha
    | some lines =>
      simp only [Option.getD_some]
      exact Accounted.removedAll lines ha
  · simp only [hf, if_false, Nat.add_zero]
    cases hc : s.CheckpointFile with
    | none => exact ha
    | some lines => exact ha

theorem resumed_accounted (c : Setup) (n : Nat) (s : cmCTestMultiProcessHandler)
    (h : Resumed c n s) : Accounted n s := by
  induction h with
  | setTests s hs =>
    have hi := init_state hs
    unfold Accounted
    rw [hi.completed, hi.passed, hi.failed]
    rfl
  | checkResume n s _ ih => exact Accounted.resumed ih
  | startNextTests env fuel n s s' _ hstep ih =>
    exact micro_keeps (P := Accounted n) (fun _ _ hm ha => ha.micro hm)
      (StartNextTests_micro hstep) ih
  | checkOutput env n s s' b _ hstep ih =>
    exact micro_keeps (P := Accounted n) (fun _ _ hm ha => ha.micro hm)
      (CheckOutput_micro hstep) ih

/-- C13: in every state of a run that starts from `SetTests` on a fresh handler
(`Completed = 0`, `Passed` and `Failed` empty) and goes on by `CheckResume`,
`StartNextTests` and `CheckOutput` steps, `Completed` is the `size_t` value of
`|Passed| + |Failed| +` the number of `RemoveTest` calls made by resume, whether the tests
exited or failed to start; it is that sum itself as long as the sum fits a `size_t`. -/
theorem C13_completion_accounting (c : Setup) (n : Nat) (s : cmCTestMultiProcessHandler)
    (h : Resumed c n s) :
    s.Completed = (s.Passed.length + s.Failed.length + n) % sizeMod ∧
    (s.Passed.length + s.Failed.length + n < sizeMod →
      s.Completed = s.Passed.length + s.Failed.length + n) := by
  have ha : s.Completed = (s.Passed.length + s.Failed.length + n) % sizeMod :=
    resumed_accounted c n s h
  exact ⟨ha, fun hlt => by rw [ha, Nat.mod_eq_of_lt hlt]⟩

/-- C13 at scenario S5 after resume, one dispatch and one poll: two tests removed by
resume, two passed. -/
theorem C13_completion_accounting_witness :
    Resumed resumeRun 2 (resumeRun.resumedRound promptEnv 3) ∧
    (resumeRun.resumedRound promptEnv 3).Passed.length = 2 ∧
    (resumeRun.resumedRound promptEnv 3).Failed = [] ∧
    (resumeRun.resumedRound promptEnv 3).Completed = 4 ∧
    (resumeRun.resumedRound promptEnv 3).Completed
      = ((resumeRun.resumedRound promptEnv 3).Passed.length
          + (resumeRun.resumedRound promptEnv 3).Failed.length + 2) % sizeMod :=
  have h : Resumed resumeRun 2 (resumeRun.resumedRound promptEnv 3) :=
    Resumed.checkOutput promptEnv 2 (resumeRun.resumedStart promptEnv 3) _ true
      (Resumed.startNextTests promptEnv 3 2 (CheckResume resumeRun.handler) _
        (Resumed.checkResume 0 resumeRun.handler (Resumed.setTests _ rfl)) rfl) rfl
  ⟨h, rfl, rfl, rfl, (C13_completion_accounting resumeRun 2 _ h).1⟩

/-! ## C20 -/

theorem not_started_before {trace pre post : List Event} {t : Int}
    (hn : (trace.filterMap Event.started).Nodup)
    (h : trace = pre ++ Event.startProcess t :: post) : Event.startProcess t ∉ pre := by
  intro hmem
  rw [h, List.filterMap_append, List.filterMap_cons] at hn
  simp only [Event.started] at hn
  have hd := (List.nodup_append.1 hn).2.2
  exact hd ((mem_started_iff pre t).2 hmem) (List.mem_cons_self _ _)

theorem not_finished_before {trace pre post : List Event} {t : Int}
    (hn : (trace.filterMap Event.started).Nodup)
    (ha : EachAfter trace (Event.markFinished t) (Event.startProcess t))
    (h : trace = pre ++ Event.startProcess t :: post) : Event.markFinished t ∉ pre := by
  intro hmem
  obtain ⟨p1, p2, hp⟩ := List.append_of_mem hmem
  have hs : Event.startProcess t ∈ p1 :=
    ha p1 (p2 ++ Event.startProcess t :: post) (by rw [h, hp]; simp)
  exact not_started_before hn h (by rw [hp]; exact List.mem_append_left _ hs)

theorem finish_stays {tests : TestMap} {s s' : cmCTestMultiProcessHandler}
    (h : Inv tests s) (h' : Inv tests s') (hk : Kept s s') (t : Int)
    (ht : s.TestFinishMap t = true) : s'.TestFinishMap t = true :=
  (h'.finish_iff t).2 (hk.mem_trace ((h.finish_iff t).1 ht))

/-- C20: in every state of a run from `SetTests`, whatever the collaborators answer:
each `StartTestProcess(t)` in the history was made when `t` had neither been started
nor marked finished before (so `t` was neither running nor finished); no test is both
running and finished; a `StartNextTests` pass or a `CheckOutput` poll from the state is a
sequence of steps in which `StartTestProcess(t)` is only called with both flags of `t`
false, and leaves `TestFinishMap[t]` true where it was true; and the sequence of tests
given to `StartTestProcess` over the run has no test twice. -/
theorem C20_dispatched_at_most_once (c : Setup) (s : cmCTestMultiProcessHandler)
    (h : Reachable c s) :
    (∀ t pre post, s.Trace = pre ++ Event.startProcess t :: post →
      Event.startProcess t ∉ pre ∧ Event.markFinished t ∉ pre) ∧
    (∀ t, ¬ (s.TestRunningMap t = true ∧ s.TestFinishMap t = true)) ∧
    (∀ env fuel s', StartNextTests env fuel s = .ok s' →
      Relation.ReflTransGen Micro s s' ∧
      ∀ t, s.TestFinishMap t = true → s'.TestFinishMap t = true) ∧
    (∀ env b s', CheckOutput env s = .ok (b, s') →
      Relation.ReflTransGen Micro s s' ∧
      ∀ t, s.TestFinishMap t = true → s'.TestFinishMap t = true) ∧
    (s.Trace.filterMap Event.started).Nodup := by
  obtain ⟨hinv, -⟩ := reachable_inv h
  refine ⟨?_, ?_, ?_, ?_, hinv.starts_nodup⟩
  · intro t pre post hsplit
    exact ⟨not_started_before hinv.starts_nodup hsplit,
      not_finished_before hinv.starts_nodup (hinv.finish_after t) hsplit⟩
  · rintro t ⟨hr, hf⟩
    rw [hinv.not_both t hr] at hf
    exact Bool.false_ne_true hf
  · intro env fuel s' hstep
    obtain ⟨hinv', hk⟩ := StartNextTests_inv hinv hstep
    exact ⟨StartNextTests_micro hstep, finish_stays hinv hinv' hk⟩
  · intro env b s' hstep
    obtain ⟨hinv', hk⟩ := CheckOutput_inv hinv hstep
    exact ⟨CheckOutput_micro hstep, finish_stays hinv hinv' hk⟩

/-- C20 at scenario S1 after two rounds of dispatch and poll and a third dispatch: the
tests were given to `StartTestProcess` in the order 1, 2, 3, each once. -/
theorem C20_dispatched_at_most_once_witness :
    Reachable linearChain (linearChain.stateAfter promptRounds) ∧
    (linearChain.stateAfter promptRounds).Trace.filterMap Event.started = [1, 2, 3] ∧
    ((linearChain.stateAfter promptRounds).Trace.filterMap Event.started).Nodup :=
  ⟨@reachable_of_run linearChain promptRounds _ rfl, rfl,
    (C20_dispatched_at_most_once linearChain (linearChain.stateAfter promptRounds)
      (@reachable_of_run linearChain promptRounds _ rfl)).2.2.2.2⟩

/-! ## C19 -/

theorem mapFind_mapErase (m : TestMap) (k t : Int) :
    mapFind (mapErase m k) t = if t = k then none else mapFind m t := by
  induction m with
  | nil => simp [mapErase, mapFind]
  | cons e m ih =>
    obtain ⟨k', v⟩ := e
    unfold mapErase at ih ⊢
    by_cases hk : k' = k
    · subst hk
      have : List.filter (fun (e : Int × TestSet) => decide (e.1 ≠ k')) ((k', v) :: m)
          = List.filter (fun (e : Int × TestSet) => decide (e.1 ≠ k')) m := by
        simp [List.filter_cons]
      rw [this, ih]
      by_cases ht : t = k'
      · simp [ht]
      · simp [ht, mapFind]
    · have : List.filter (fun (e : Int × TestSet) => decide (e.1 ≠ k)) ((k', v) :: m)
          = (k', v) :: List.filter (fun (e : Int × TestSet) => decide (e.1 ≠ k)) m := by
        simp [List.filter_cons, hk]
      rw [this]
      simp only [mapFind]
      rw [ih]
      by_cases ht : t = k'
      · have htk : ¬ t = k := fun h => hk (ht ▸ h)
        simp [ht, hk]
      · simp [ht]

theorem not_mem_keys_mapErase (m : TestMap) (k : Int) : k ∉ (mapErase m k).map Prod.fst := by
  unfold mapErase
  simp [List.mem_map, List.mem_filter]

theorem mem_keys_mapErase (m : TestMap) (k t : Int) (h : t ∈ (mapErase m k).map Prod.fst) :
    t ∈ m.map Prod.fst := by
  unfold mapErase at h
  simp only [List.mem_map, List.mem_filter] at h ⊢
  obtain ⟨e, ⟨he, -⟩, h2⟩ := h
  exact ⟨e, he, h2⟩

theorem not_mem_eraseFromFirstBucket (m : TestCostMap) (t : Int) (h : BucketsDisjoint m) :
    ∀ e ∈ eraseFromFirstBucket m t, t ∉ e.2 := by
  induction m with
  | nil => intro e he; simp [eraseFromFirstBucket] at he
  | cons e0 m ih =>
    obtain ⟨c, s⟩ := e0
    unfold BucketsDisjoint at h ih
    rw [List.pairwise_cons] at h
    intro e he
    unfold eraseFromFirstBucket at he
    split at he
    · rename_i hts
      rcases List.mem_cons.1 he with rfl | he
      · intro hx
        exact ((mem_setErase s t t).1 hx).2 rfl
      · exact h.1 e he t hts
    · rename_i hts
      rcases List.mem_cons.1 he with rfl | he
      · exact hts
      · exact ih h.2 e he

theorem bucketsDisjoint_erase (m : TestCostMap) (t : Int) (h : BucketsDisjoint m) :
    BucketsDisjoint (eraseFromFirstBucket m t) := by
  induction m with
  | nil => simpa [eraseFromFirstBucket] using h
  | cons e0 m ih =>
    obtain ⟨c, s⟩ := e0
    unfold BucketsDisjoint at h ih ⊢
    rw [List.pairwise_cons] at h
    unfold eraseFromFirstBucket
    split
    · rw [List.pairwise_cons]
      refine ⟨fun e he x hx => h.1 e he x ((mem_setErase s t x).1 hx).1, h.2⟩
    · rw [List.pairwise_cons]
      refine ⟨fun e he x hx hx' => ?_, ih h.2⟩
      obtain ⟨e1, he1, -, hsub⟩ := mem_eraseFromFirstBucket m t e he
      exact h.1 e1 he1 x hx (hsub x hx')

theorem not_mem_bucket_erase (m : TestCostMap) (t x : Int) (h : ∀ e ∈ m, x ∉ e.2) :
    ∀ e ∈ eraseFromFirstBucket m t, x ∉ e.2 := by
  intro e he hx
  obtain ⟨e1, he1, -, hsub⟩ := mem_eraseFromFirstBucket m t e he
  exact h e1 he1 (hsub x hx)

theorem mem_mapAt_of_erase (m : TestCostMap) (t x : Int) (k : ℚ)
    (h : x ∈ mapAt (eraseFromFirstBucket m t) k) : x ∈ mapAt m k := by
  induction m with
  | nil => simpa [eraseFromFirstBucket] using h
  | cons e m ih =>
    obtain ⟨c, s⟩ := e
    unfold mapAt at h ih ⊢
    unfold eraseFromFirstBucket at h
    by_cases hk : k = c
    · split at h
      · simp only [mapFind, hk, if_true, Option.getD_some] at h ⊢
        exact ((mem_setErase s t x).1 h).1
      · simpa [mapFind, hk] using h
    · split at h
      · simpa [mapFind, hk] using h
      · simp only [mapFind, hk, if_false] at h ⊢
        exact ih h

theorem bucketsDisjoint_of_inv {tests : TestMap} {s : cmCTestMultiProcessHandler}
    (h : Inv tests s) : BucketsDisjoint s.TestCosts := by
  unfold BucketsDisjoint
  have hs := h.bucket_sorted
  rw [List.pairwise_map] at hs
  refine List.Pairwise.imp_of_mem ?_ hs
  intro e e' he he' hlt t ht ht'
  obtain ⟨p, hp, hc⟩ := h.bucket_cost e he t ht
  obtain ⟨p', hp', hc'⟩ := h.bucket_cost e' he' t ht'
  rw [hp] at hp'
  cases hp'
  rw [hc] at hc'
  rw [hc'] at hlt
  exact lt_irrefl _ hlt

theorem Gone.gone_removed {s : cmCTestMultiProcessHandler} {t : Int} (h : Gone s t) (index : Int) :
    Gone (RemoveTest s index) t := by
  have st := RemoveTest_step s index
  refine ⟨?_, ?_, ?_, ?_, ?_⟩
  · rw [st.tests]
    exact fun hm => h.tests (mem_keys_mapErase _ _ _ hm)
  · rw [st.costs]
    exact not_mem_bucket_erase _ _ _ h.costs
  · rw [st.properties]
    split
    · rfl
    · exact h.properties
  · rw [st.finish]
    split
    · rfl
    · exact h.finish
  · rw [st.running]
    split
    · rfl
    · exact h.running

theorem gone_removeTest (s : cmCTestMultiProcessHandler) (index : Int)
    (hd : BucketsDisjoint s.TestCosts) : Gone (RemoveTest s index) index := by
  have st := RemoveTest_step s index
  refine ⟨?_, ?_, ?_, ?_, ?_⟩
  · rw [st.tests]
    exact not_mem_keys_mapErase _ _
  · rw [st.costs]
    exact not_mem_eraseFromFirstBucket _ _ hd
  · rw [st.properties, if_pos rfl]
  · rw [st.finish, if_pos rfl]
  · rw [st.running, if_pos rfl]

theorem Gone.gone_removedAll (lines : List Int) :
    ∀ {s : cmCTestMultiProcessHandler} {t : Int}, Gone s t → Gone (lines.foldl RemoveTest s) t := by
  induction lines with
  | nil => intro s t h; exact h
  | cons l ls ih => intro s t h; exact ih (h.gone_removed l)

theorem bucketsDisjoint_removedAll (lines : List Int) :
    ∀ {s : cmCTestMultiProcessHandler}, BucketsDisjoint s.TestCosts →
      BucketsDisjoint (lines.foldl RemoveTest s).TestCosts := by
  induction lines with
  | nil => intro s h; exact h
  | cons l ls ih =>
    intro s h
    refine ih ?_
    rw [(RemoveTest_step s l).costs]
    exact bucketsDisjoint_erase _ _ h

theorem gone_of_mem (lines : List Int) :
    ∀ {s : cmCTestMultiProcessHandler}, BucketsDisjoint s.TestCosts →
      ∀ t ∈ lines, Gone (lines.foldl RemoveTest s) t := by
  induction lines with
  | nil => intro s _ t ht; exact absurd ht (List.not_mem_nil _)
  | cons l ls ih =>
    intro s hd t ht
    have hd' : BucketsDisjoint (RemoveTest s l).TestCosts := by
      rw [(RemoveTest_step s l).costs]
      exact bucketsDisjoint_erase _ _ hd
    by_cases hls : t ∈ ls
    · exact ih hd' t hls
    · rcases List.mem_cons.1 ht with rfl | h
      · exact (gone_removeTest s t hd).gone_removedAll ls
      · exact absurd h hls

/-- What the `RemoveTest` calls for `lines` leave alone of a test that is not among them. -/
theorem untouched_of_not_mem (lines : List Int) :
    ∀ (s : cmCTestMultiProcessHandler) (t : Int), t ∉ lines →
      mapFind (lines.foldl RemoveTest s).Tests t = mapFind s.Tests t ∧
      (∀ k, t ∈ mapAt (lines.foldl RemoveTest s).TestCosts k ↔ t ∈ mapAt s.TestCosts k) ∧
      (lines.foldl RemoveTest s).Properties t = s.Properties t ∧
      (lines.foldl RemoveTest s).TestFinishMap t = s.TestFinishMap t ∧
      (lines.foldl RemoveTest s).TestRunningMap t = s.TestRunningMap t := by
  induction lines with
  | nil => intro s t _; exact ⟨rfl, fun _ => Iff.rfl, rfl, rfl, rfl⟩
  | cons l ls ih =>
    intro s t ht
    have hne : t ≠ l := fun h => ht (h ▸ List.mem_cons_self _ _)
    have hls : t ∉ ls := fun h => ht (List.mem_cons_of_mem _ h)
    obtain ⟨a1, a2, a3, a4, a5⟩ := ih (RemoveTest s l) t hls
    have st := RemoveTest_step s l
    simp only [List.foldl_cons]
    refine ⟨?_, ?_, ?_, ?_, ?_⟩
    · rw [a1, st.tests, mapFind_mapErase, if_neg hne]
    · intro k
      rw [a2 k, st.costs]
      exact ⟨mem_mapAt_of_erase _ _ _ _, mem_mapAt_eraseFromFirstBucket _ _ _ _ hne⟩
    · rw [a3, st.properties, if_neg hne]
    · rw [a4, st.finish, if_neg hne]
    · rw [a5, st.running, if_neg hne]

theorem keys_costs_removedAll (lines : List Int) :
    ∀ (s : cmCTestMultiProcessHandler),
      (lines.foldl RemoveTest s).TestCosts.map Prod.fst = s.TestCosts.map Prod.fst ∧
      (lines.foldl RemoveTest s).CheckpointFile = s.CheckpointFile := by
  induction lines with
  | nil => intro s; exact ⟨rfl, rfl⟩
  | cons l ls ih =>
    intro s
    obtain ⟨a1, a2⟩ := ih (RemoveTest s l)
    have st := RemoveTest_step s l
    simp only [List.foldl_cons]
    rw [a1, a2, st.costs, keys_eraseFromFirstBucket, st.checkpoint]
    exact ⟨rfl, rfl⟩

theorem runFrom_micro (steps : List Step) :
    ∀ {s s' : cmCTestMultiProcessHandler}, runFrom steps s = .ok s' →
      Relation.ReflTransGen Micro s s' := by
  induction steps with
  | nil =>
    intro s s' h
    simp only [runFrom, Except.ok.injEq] at h
    rw [h]
  | cons st sts ih =>
    intro s s' h
    simp only [runFrom] at h
    cases hst : st.apply s with
    | error e => simp [hst] at h
    | ok s1 =>
      simp only [hst] at h
      refine Relation.ReflTransGen.trans ?_ (ih h)
      cases st with
      | startNextTests env fuel => exact StartNextTests_micro hst
      | checkOutput env =>
        simp only [Step.apply] at hst
        cases hc : CheckOutput env s with
        | error e => simp [hc] at hst
        | ok r =>
          obtain ⟨b, s2⟩ := r
          simp only [hc, Except.ok.injEq] at hst
          subst hst
          exact CheckOutput_micro hc

/-- A finished test that was never started stays so through every small step. -/
theorem micro_never_started {t : Int} {s s' : cmCTestMultiProcessHandler} (h : Micro s s')
    (hs : s.TestFinishMap t = true ∧ Event.startProcess t ∉ s.Trace) :
    s'.TestFinishMap t = true ∧ Event.startProcess t ∉ s'.Trace := by
  obtain ⟨hf, hn⟩ := hs
  cases h with
  | touch _ _ st => rw [st.finish, st.trace]; exact ⟨hf, hn⟩
  | started _ _ x st _ hx =>
    have hne : x ≠ t := fun h => by rw [h, hf] at hx; exact Bool.noConfusion hx
    rw [st.finish, st.trace]
    refine ⟨hf, ?_⟩
    simp only [List.mem_append, List.mem_singleton, Event.startProcess.injEq, not_or]
    exact ⟨hn, fun h => hne h.symm⟩
  | failed _ _ x st _ hx =>
    have hne : x ≠ t := fun h => by rw [h, hf] at hx; exact Bool.noConfusion hx
    rw [st.finish, st.trace]
    refine ⟨?_, ?_⟩
    · split
      · rfl
      · exact hf
    · simp only [List.mem_append, List.mem_cons, Event.startProcess.injEq, not_or]
      exact ⟨hn, fun h => hne h.symm, by simp⟩
  | finished env _ _ p st =>
    rw [st.finish, st.trace]
    refine ⟨?_, ?_⟩
    · split
      · rfl
      · exact hf
    · simp only [List.mem_append, List.mem_singleton, not_or]
      exact ⟨hn, by simp⟩

/-- C12: on the handler `SetTests` leaves.  With failover enabled and a checkpoint file
of lines `L`: after `CheckResume` every id of `L` is no key of `Tests`, a member of no
bucket, without properties, finished and not running; `Completed` has grown by the
number of lines (in `size_t`); the pending entry, bucket membership, properties and flags
of every test not in `L` are as before, so are the bucket keys and the file; and in no
state that `StartNextTests` and `CheckOutput` steps lead to afterwards has
`StartTestProcess` been called on a test of `L`.  With failover disabled `CheckResume`
changes nothing but the checkpoint file, which is gone. -/
theorem C12_failover_resume (c : Setup) (s : cmCTestMultiProcessHandler)
    (hinit : c.init = .ok s) :
    (c.failover = true → ∀ L, c.checkpoint = some L →
      (∀ t ∈ L, t ∉ (CheckResume s).Tests.map Prod.fst ∧
        (∀ e ∈ (CheckResume s).TestCosts, t ∉ e.2) ∧
        (CheckResume s).Properties t = none ∧
        (CheckResume s).TestFinishMap t = true ∧
        (CheckResume s).TestRunningMap t = false) ∧
      (CheckResume s).Completed = (s.Completed + L.length) % sizeMod ∧
      (∀ t, t ∉ L →
        mapFind (CheckResume s).Tests t = mapFind s.Tests t ∧
        (∀ k, t ∈ mapAt (CheckResume s).TestCosts k ↔ t ∈ mapAt s.TestCosts k) ∧
        (CheckResume s).Properties t = s.Properties t ∧
        (CheckResume s).TestFinishMap t = s.TestFinishMap t ∧
        (CheckResume s).TestRunningMap t = s.TestRunningMap t) ∧
      (CheckResume s).TestCosts.map Prod.fst = s.TestCosts.map Prod.fst ∧
      (CheckResume s).CheckpointFile = some L ∧
      (∀ steps s', runFrom steps (CheckResume s) = .ok s' →
        ∀ t ∈ L, Event.startProcess t ∉ s'.Trace)) ∧
    (c.failover = false → CheckResume s = { s with CheckpointFile := none }) := by
  have hi := init_state hinit
  have hinv := init_inv hinit
  constructor
  · intro hf L hL
    have hcr : CheckResume s = L.foldl RemoveTest s := by
      unfold CheckResume
      rw [hi.failover, hf, if_pos rfl, hi.checkpoint, hL]
    rw [hcr]
    have hgone := gone_of_mem L (bucketsDisjoint_of_inv hinv)
    refine ⟨fun t ht => ?_, ?_, untouched_of_not_mem L s, (keys_costs_removedAll L s).1, ?_, ?_⟩
    · have g := hgone t ht
      exact ⟨g.tests, g.costs, g.properties, g.finish, g.running⟩
    · have ha : Accounted 0 s := by
        unfold Accounted
        rw [hi.completed, hi.passed, hi.failed]
        rfl
      have hb := Accounted.removedAll L ha
      unfold Accounted at hb
      have hp := (CheckResume_frame s).2.2
      rw [hcr] at hp
      rw [hb, hp.1, hp.2.1, hi.passed, hi.failed, hi.completed]
      simp
    · rw [(keys_costs_removedAll L s).2, hi.checkpoint, hL]
    · intro steps s' hrun t ht
      have h0 : Event.startProcess t ∉ (L.foldl RemoveTest s).Trace := by
        have hp := (CheckResume_frame s).2.2.2.2
        rw [hcr, hi.trace] at hp
        intro hm
        have := (mem_started_iff _ t).2 hm
        rw [hp] at this
        simp at this
      exact (micro_keeps
        (P := fun x => x.TestFinishMap t = true ∧ Event.startProcess t ∉ x.Trace)
        (fun _ _ hm hx => micro_never_started hm hx) (runFrom_micro steps hrun)
        ⟨(hgone t ht).finish, h0⟩).2
  · intro hf
    have hfo : ¬ s.Failover = true := by
      rw [hi.failover, hf]
      decide
    unfold CheckResume
    rw [if_neg hfo]
    cases hc : s.CheckpointFile with
    | none =>
      simp only
      cases s
      simp only at hc
      subst hc
      exact rfl
    | some lines => rfl

/-- C12 at scenario S5: checkpoint lines 1 and 3 over the tests 1 to 4 leave the pending
keys 2 and 4 and `Completed = 2`, and the next pass starts tests 2 and 4. -/
theorem C12_failover_resume_witness :
    resumeRun.init = .ok resumeRun.handler ∧
    (CheckResume resumeRun.handler).Tests.map Prod.fst = [2, 4] ∧
    (CheckResume resumeRun.handler).Completed = 2 ∧
    (resumeRun.resumedStart promptEnv 3).Trace.filterMap Event.started = [2, 4] ∧
    (∀ t ∈ [1, 3], t ∉ (CheckResume resumeRun.handler).Tests.map Prod.fst ∧
      (∀ e ∈ (CheckResume resumeRun.handler).TestCosts, t ∉ e.2) ∧
      (CheckResume resumeRun.handler).Properties t = none ∧
      (CheckResume resumeRun.handler).TestFinishMap t = true ∧
      (CheckResume resumeRun.handler).TestRunningMap t = false) :=
  ⟨rfl, rfl, rfl, rfl,
    ((C12_failover_resume resumeRun resumeRun.handler rfl).1 rfl [1, 3] rfl).1⟩

/-! ## C11 -/

theorem foldl_min_of_lt (bs : List Int) : ∀ a : Int, (∀ b ∈ bs, a < b) → bs.foldl min a = a := by
  induction bs with
  | nil => intro a _; rfl
  | cons b bs ih =>
    intro a h
    have hab : min a b = a := min_eq_left (le_of_lt (h b (List.mem_cons_self _ _)))
    rw [List.foldl_cons, hab]
    exact ih a (fun x hx => h x (List.mem_cons_of_mem _ hx))

/-- In an ascending list the least member with a property is the first one. -/
theorem min_filter_eq_find (p : Int → Bool) (l : List Int) (h : l.Pairwise (fun a b => a < b)) :
    (l.filter p).min? = l.find? p := by
  induction l with
  | nil => rfl
  | cons a as ih =>
    rw [List.pairwise_cons] at h
    by_cases hp : p a = true
    · rw [List.filter_cons_of_pos hp, List.find?_cons_of_pos _ hp]
      show some ((as.filter p).foldl min a) = some a
      rw [foldl_min_of_lt]
      intro b hb
      exact h.1 b (List.mem_filter.1 hb).1
    · rw [List.filter_cons_of_neg hp, List.find?_cons_of_neg _ hp]
      exact ih h.2

theorem lowestOpen_eq_find (s : cmCTestMultiProcessHandler) (t : Int)
    (h : (mapAt s.Tests t).Pairwise (fun a b => a < b)) :
    lowestOpen s t = (mapAt s.Tests t).find? (isOpen s) :=
  min_filter_eq_find _ _ h

/-- The loop of `StartTest` over the dependencies: it returns at the first dependency that
is neither running nor finished, and otherwise counts the running ones. -/
theorem scanDepends_eq (s : cmCTestMultiProcessHandler) (ds : List Int) :
    ∀ m : Nat, scanDepends s ds (m + ds.length) =
      match ds.find? (isOpen s) with
      | some d => .startDepend d
      | none => .remaining (m + (ds.filter s.TestRunningMap).length) := by
  induction ds with
  | nil => intro m; rfl
  | cons x ds ih =>
    intro m
    simp only [scanDepends, List.length_cons]
    cases hr : s.TestRunningMap x with
    | true =>
      have ho : isOpen s x = false := by simp [isOpen, hr]
      have hsub : m + (ds.length + 1) = (m + 1) + ds.length := by omega
      rw [List.find?_cons_of_neg _ (by rw [ho]; decide), List.filter_cons_of_pos hr, hsub, ih]
      simp only [Bool.true_eq_false, if_false, List.length_cons]
      cases ds.find? (isOpen s) with
      | none =>
        simp only
        congr 1
        omega
      | some d => rfl
    | false =>
      cases hf : s.TestFinishMap x with
      | true =>
        have ho : isOpen s x = false := by simp [isOpen, hr, hf]
        have hsub : m + (ds.length + 1) - 1 = m + ds.length := by omega
        rw [List.find?_cons_of_neg _ (by rw [ho]; decide),
          List.filter_cons_of_neg (by rw [hr]; decide)]
        simp only [if_true, Bool.true_eq_false, if_false, hsub]
        exact ih m
      | false =>
        have ho : isOpen s x = true := by simp [isOpen, hr, hf]
        rw [List.find?_cons_of_pos _ ho]
        simp only [if_true]

theorem TouchStep.touch_trans {a b c : cmCTestMultiProcessHandler} (h1 : TouchStep a b)
    (h2 : TouchStep b c) : TouchStep a c :=
  { tests := fun x => (h2.tests x).trans (h1.tests x),
    keys := fun x hx => h2.keys x (h1.keys x hx),
    costs := h2.costs.trans h1.costs, running := h2.running.trans h1.running,
    finish := h2.finish.trans h1.finish, trace := h2.trace.trans h1.trace,
    handles := h2.handles.trans h1.handles, properties := h2.properties.trans h1.properties,
    showOnly := h2.showOnly.trans h1.showOnly, level := h2.level.trans h1.level,
    completed := h2.completed.trans h1.completed, passed := h2.passed.trans h1.passed,
    failed := h2.failed.trans h1.failed, costData := h2.costData.trans h1.costData,
    checkpoint := h2.checkpoint.trans h1.checkpoint }

theorem TouchStep.isOpen_eq {s s' : cmCTestMultiProcessHandler} (st : TouchStep s s') :
    isOpen s' = isOpen s := by
  funext d
  simp only [isOpen, st.running, st.finish]

theorem TouchStep.lowestOpen_eq {s s' : cmCTestMultiProcessHandler} (st : TouchStep s s')
    (t : Int) : lowestOpen s' t = lowestOpen s t := by
  simp only [lowestOpen, st.tests, st.isOpen_eq]

theorem TouchStep.launchWalk_eq {s s' : cmCTestMultiProcessHandler} (st : TouchStep s s')
    (fuel : Nat) : ∀ t, launchWalk s' fuel t = launchWalk s fuel t := by
  induction fuel with
  | zero => intro t; rfl
  | succ n ih =>
    intro t
    simp only [launchWalk, st.lowestOpen_eq]
    cases lowestOpen s t with
    | none => rfl
    | some d => exact ih d

/-- `StartTest(t)` behaves as the walk says: it touches keys on its way to the test `w`
the walk stops at, and ends there. -/
theorem StartTest_walk (env : Env) (fuel : Nat) :
    ∀ (s : cmCTestMultiProcessHandler) (t w : Int),
      (∀ x, (mapAt s.Tests x).Pairwise (fun a b => a < b)) →
      launchWalk s fuel t = some w →
      ∃ s1, TouchStep s s1 ∧ StartTest env fuel s t = launchAt env s1 w := by
  induction fuel with
  | zero => intro s t w _ h; simp [launchWalk] at h
  | succ n ih =>
    intro s t w hsorted h
    have st := TouchStep.of_touch s t
    have hscan := scanDepends_eq { s with Tests := mapTouch s.Tests t } (mapAt s.Tests t) 0
    rw [Nat.zero_add, st.isOpen_eq, ← lowestOpen_eq_find s t (hsorted t)] at hscan
    simp only [launchWalk] at h
    simp only [StartTest]
    rw [hscan]
    cases hl : lowestOpen s t with
    | none =>
      rw [hl] at h
      simp only [Option.some.injEq] at h
      subst h
      refine ⟨_, st, ?_⟩
      simp only [Nat.zero_add, launchAt]
      rw [st.tests]
      split
      · cases StartTestProcess env { s with Tests := mapTouch s.Tests t } t <;> rfl
      · rfl
    | some d =>
      rw [hl] at h
      simp only
      have hsorted' : ∀ x, (mapAt ({ s with Tests := mapTouch s.Tests t } :
          cmCTestMultiProcessHandler).Tests x).Pairwise (fun a b => a < b) := by
        intro x
        rw [st.tests]
        exact hsorted x
      obtain ⟨s2, st2, h2⟩ := ih _ d w hsorted' (by rw [st.launchWalk_eq]; exact h)
      exact ⟨s2, st.touch_trans st2, h2⟩

theorem launchWalk_stops (s : cmCTestMultiProcessHandler) (fuel : Nat) :
    ∀ t w, launchWalk s fuel t = some w →
      lowestOpen s w = none ∧ Relation.ReflTransGen (DependsOn s.Tests) t w := by
  induction fuel with
  | zero => intro t w h; simp [launchWalk] at h
  | succ n ih =>
    intro t w h
    simp only [launchWalk] at h
    cases hl : lowestOpen s t with
    | none =>
      rw [hl] at h
      simp only [Option.some.injEq] at h
      subst h
      exact ⟨hl, Relation.ReflTransGen.refl⟩
    | some d =>
      rw [hl] at h
      obtain ⟨h1, h2⟩ := ih d w h
      have hd : d ∈ (mapAt s.Tests t).filter (isOpen s) := by
        unfold lowestOpen at hl
        exact List.min?_mem (fun a b => by rcases le_total a b with h | h <;> simp [h]) hl
      exact ⟨h1, Relation.ReflTransGen.head (List.mem_filter.1 hd).1 h2⟩

/-- On an acyclic map the walk ends: the tests it passes are distinct keys. -/
theorem launchWalk_ends (s : cmCTestMultiProcessHandler) (hacyclic : ¬ HasCycle s.Tests)
    (fuel : Nat) :
    ∀ (t : Int) (path : List Int), path.Nodup →
      (∀ x ∈ path, x ∈ s.Tests.map Prod.fst ∧ Relation.TransGen (DependsOn s.Tests) x t) →
      s.Tests.length < path.length + fuel → ∃ w, launchWalk s fuel t = some w := by
  induction fuel with
  | zero =>
    intro t path hn hp hlen
    have hsub : path ⊆ s.Tests.map Prod.fst := fun x hx => (hp x hx).1
    have := (List.subperm_of_subset hn hsub).length_le
    rw [List.length_map] at this
    omega
  | succ n ih =>
    intro t path hn hp hlen
    simp only [launchWalk]
    cases hl : lowestOpen s t with
    | none => exact ⟨t, rfl⟩
    | some d =>
      simp only
      have hd : d ∈ (mapAt s.Tests t).filter (isOpen s) := by
        unfold lowestOpen at hl
        exact List.min?_mem (fun a b => by rcases le_total a b with h | h <;> simp [h]) hl
      have hdep : DependsOn s.Tests t d := (List.mem_filter.1 hd).1
      have hkey : t ∈ s.Tests.map Prod.fst :=
        mem_keys_of_mapAt_ne_nil s.Tests t (List.ne_nil_of_mem hdep)
      have hnot : t ∉ path := fun hm => hacyclic ⟨t, (hp t hm).2⟩
      refine ih d (t :: path) (List.nodup_cons.2 ⟨hnot, hn⟩) ?_ ?_
      · intro x hx
        rcases List.mem_cons.1 hx with rfl | hx
        · exact ⟨hkey, Relation.TransGen.single hdep⟩
        · exact ⟨(hp x hx).1, Relation.TransGen.tail (hp x hx).2 hdep⟩
      · simp only [List.length_cons]
        omega

theorem StartTestProcess_ok (env : Env) (s : cmCTestMultiProcessHandler) (t : Int)
    (p : cmCTestTestProperties) (h : s.Properties t = some p) :
    ∃ s', StartTestProcess env s t = .ok s' := by
  unfold StartTestProcess
  simp only [EraseTest, h]
  cases env.start t with
  | some rank => exact ⟨_, rfl⟩
  | none =>
    simp only [GetProcessorsUsed, h]
    by_cases hc : p.RunSerial = true ∨ sizeOfInt p.Processors > s.ParallelLevel
    · rw [if_pos hc]
      exact ⟨_, rfl⟩
    · rw [if_neg hc]
      exact ⟨_, rfl⟩

theorem not_open_of_lowestOpen (s : cmCTestMultiProcessHandler) (w : Int)
    (h : lowestOpen s w = none) : ∀ d ∈ mapAt s.Tests w, isOpen s d = false := by
  intro d hd
  unfold lowestOpen at h
  have hnil : (mapAt s.Tests w).filter (isOpen s) = [] := by
    cases hf : (mapAt s.Tests w).filter (isOpen s) with
    | nil => rfl
    | cons a as =>
      rw [hf] at h
      simp [List.min?] at h
  have := (List.filter_eq_nil_iff.1 hnil) d hd
  simpa using this

theorem lowestOpen_of_allFinished (s : cmCTestMultiProcessHandler) (t : Int)
    (h : allFinished s t = true) : lowestOpen s t = none := by
  unfold allFinished at h
  rw [List.all_eq_true] at h
  have hnil : (mapAt s.Tests t).filter (isOpen s) = [] := by
    rw [List.filter_eq_nil_iff]
    intro d hd
    simp [isOpen, h d hd]
  unfold lowestOpen
  rw [hnil]
  rfl

/-- C18: on an acyclic pending map (dependency sets ascending, no test both running and
finished, the test the walk stops at having properties) `StartTest(t)` returns with
enough fuel for the keys of the map.  The walk from `t` along the lowest-numbered
remaining dependency that is neither running nor finished stops at a test `w`, which is
`t` itself when all of `t`'s remaining dependencies are finished.  If all remaining
dependencies of `w` are finished, `StartTest(t)` calls `StartTestProcess(w)` once, on the
handler with at most some keys touched, and returns true with the result: the history has
grown by the start of `w` (and its finish mark when the child failed to start).
Otherwise it returns false with the history unchanged, nothing but touched keys changed,
and every unfinished dependency of `w` is running. -/
theorem C18_launch_walk (env : Env) (fuel : Nat) (s : cmCTestMultiProcessHandler) (t : Int)
    (hacyclic : ¬ HasCycle s.Tests)
    (hsorted : ∀ x, (mapAt s.Tests x).Pairwise (fun a b => a < b))
    (hflags : ∀ d, s.TestRunningMap d = true → s.TestFinishMap d = false)
    (hfuel : s.Tests.length < fuel)
    (hprops : ∀ w, launchWalk s fuel t = some w → ∃ p, s.Properties w = some p) :
    ∃ w, launchWalk s fuel t = some w ∧ lowestOpen s w = none ∧
      (allFinished s t = true → w = t) ∧
      (allFinished s w = true →
        ∃ s1 s', TouchStep s s1 ∧ StartTestProcess env s1 w = .ok s' ∧
          StartTest env fuel s t = .ok (true, s') ∧
          (s'.Trace = s.Trace ++ [Event.startProcess w] ∨
           s'.Trace = s.Trace ++ [Event.startProcess w, Event.markFinished w])) ∧
      (allFinished s w = false →
        ∃ s', StartTest env fuel s t = .ok (false, s') ∧ s'.Trace = s.Trace ∧
          TouchStep s s' ∧
          ∀ d ∈ mapAt s.Tests w, s.TestFinishMap d = false → s.TestRunningMap d = true) := by
  obtain ⟨w, hw⟩ := launchWalk_ends s hacyclic fuel t [] List.nodup_nil
    (fun x hx => absurd hx (List.not_mem_nil _)) (by simpa using hfuel)
  obtain ⟨hstop, -⟩ := launchWalk_stops s fuel t w hw
  obtain ⟨s1, st, hst⟩ := StartTest_walk env fuel s t w hsorted hw
  have hnotopen := not_open_of_lowestOpen s w hstop
  have hcond : ((mapAt s1.Tests w).filter s1.TestRunningMap).length = 0 ↔
      allFinished s w = true := by
    rw [st.tests, st.running, List.length_eq_zero, List.filter_eq_nil_iff]
    unfold allFinished
    rw [List.all_eq_true]
    constructor
    · intro h d hd
      have h1 := h d hd
      have h2 := hnotopen d hd
      simp only [isOpen] at h2
      cases hr : s.TestRunningMap d with
      | true => exact absurd hr h1
      | false =>
        rw [hr] at h2
        simpa using h2
    · intro h d hd hr
      have := hflags d hr
      rw [h d hd] at this
      exact Bool.noConfusion this
  refine ⟨w, hw, hstop, ?_, ?_, ?_⟩
  · intro hall
    have hl := lowestOpen_of_allFinished s t hall
    cases fuel with
    | zero => omega
    | succ n =>
      simp only [launchWalk, hl, Option.some.injEq] at hw
      exact hw.symm
  · intro hall
    obtain ⟨p, hp⟩ := hprops w hw
    obtain ⟨s', hs'⟩ := StartTestProcess_ok env s1 w p (by rw [st.properties]; exact hp)
    refine ⟨s1, s', st, hs', ?_, ?_⟩
    · simp only [hst, launchAt, if_pos (hcond.2 hall), hs', Except.map]
    · rcases StartTestProcess_step hs' with h | h
      · exact Or.inl (by rw [h.trace, st.trace])
      · exact Or.inr (by rw [h.trace, st.trace])
  · intro hall
    have hne : ¬ ((mapAt s1.Tests w).filter s1.TestRunningMap).length = 0 := by
      rw [hcond, hall]
      decide
    refine ⟨s1, ?_, st.trace, st, ?_⟩
    · rw [hst]
      unfold launchAt
      rw [if_neg hne]
    · intro d hd hf
      have h2 := hnotopen d hd
      simp only [isOpen, hf] at h2
      simpa using h2

/-- C18 at scenario S1 before anything ran: `StartTest(3)` walks from 3 over 2 to 1,
starts test 1 and returns true. -/
theorem C18_launch_walk_witness :
    launchWalk linearChain.handler 4 3 = some 1 ∧
    allFinished linearChain.handler 1 = true ∧
    (StartTest promptEnv 4 linearChain.handler 3).map (fun r => (r.1, r.2.Trace))
      = .ok (true, [Event.startProcess 1]) ∧
    ∃ w, launchWalk linearChain.handler 4 3 = some w ∧
      lowestOpen linearChain.handler w = none := by
  have ht : linearChain.handler.Tests = [(1, []), (2, [1]), (3, [2])] := rfl
  have hwalk : launchWalk linearChain.handler 4 3 = some 1 := rfl
  have hacyclic : ¬ HasCycle linearChain.handler.Tests := by
    rw [ht]
    refine not_hasCycle_of_rank (fun i => i.toNat) ?_
    intro a b hab
    simp [dependsOn_cons_iff, dependsOn_nil] at hab
    rcases hab with ⟨-, ⟨rfl, rfl⟩ | ⟨-, rfl, rfl⟩⟩ <;> decide
  have hsorted : ∀ x, (mapAt linearChain.handler.Tests x).Pairwise (fun a b => a < b) := by
    intro x
    rw [ht]
    unfold mapAt
    simp only [mapFind]
    split_ifs <;> simp
  have hflags : ∀ d, linearChain.handler.TestRunningMap d = true →
      linearChain.handler.TestFinishMap d = false :=
    fun d _ => (@init_state linearChain linearChain.handler rfl).finish d
  have hfuel : linearChain.handler.Tests.length < 4 := by
    rw [ht]
    decide
  have hprops : ∀ w, launchWalk linearChain.handler 4 3 = some w →
      ∃ p, linearChain.handler.Properties w = some p := by
    intro w hw
    rw [hwalk] at hw
    simp only [Option.some.injEq] at hw
    subst hw
    exact ⟨_, rfl⟩
  obtain ⟨w, h1, h2, -⟩ :=
    C18_launch_walk promptEnv 4 linearChain.handler 3 hacyclic hsorted hflags hfuel hprops
  exact ⟨hwalk, rfl, rfl, w, h1, h2⟩

/-! ## C14 and C15 -/

theorem mem_keys_mapErase_of_ne (m : TestMap) (k t : Int) (h : t ∈ m.map Prod.fst)
    (hne : t ≠ k) : t ∈ (mapErase m k).map Prod.fst := by
  unfold mapErase
  simp only [List.mem_map, List.mem_filter] at h ⊢
  obtain ⟨e, he, h2⟩ := h
  exact ⟨e, ⟨he, by simpa [h2] using hne⟩, h2⟩

theorem cycleSearch_nil (fuel : Nat) (this : cmCTestMultiProcessHandler) (visited : List Int) :
    cycleSearch fuel this [] visited = .ok (true, this) := by
  cases fuel <;> rfl

/-- More fuel does not change what the stack loop of `CheckCycles` returns. -/
theorem cycleSearch_more_fuel (k : Nat) (fuel : Nat) :
    ∀ (this : cmCTestMultiProcessHandler) (s visited : List Int)
      (r : Bool × cmCTestMultiProcessHandler),
      cycleSearch fuel this s visited = .ok r → cycleSearch (fuel + k) this s visited = .ok r := by
  induction fuel with
  | zero =>
    intro this s visited r h
    cases s with
    | nil =>
      rw [cycleSearch_nil] at h ⊢
      exact h
    | cons x s => simp [cycleSearch] at h
  | succ n ih =>
    intro this s visited r h
    cases s with
    | nil =>
      rw [cycleSearch_nil] at h ⊢
      exact h
    | cons x s =>
      have he : n + 1 + k = (n + k) + 1 := by omega
      rw [he]
      simp only [cycleSearch] at h ⊢
      split at h
      · exact h
      · exact ih _ _ _ _ h

theorem cycleRoots_none (fuel n : Nat) (this : cmCTestMultiProcessHandler) :
    cycleRoots fuel n this none = .ok (true, this) := by
  cases n <;> rfl

/-- More fuel does not change what the root loop of `CheckCycles` returns. -/
theorem cycleRoots_more_fuel (k j : Nat) (fuel : Nat) (n : Nat) :
    ∀ (this : cmCTestMultiProcessHandler) (it : Option Int)
      (r : Bool × cmCTestMultiProcessHandler),
      cycleRoots fuel n this it = .ok r → cycleRoots (fuel + k) (n + j) this it = .ok r := by
  induction n with
  | zero =>
    intro this it r h
    cases it with
    | none =>
      rw [cycleRoots_none] at h ⊢
      exact h
    | some root => simp [cycleRoots] at h
  | succ n ih =>
    intro this it r h
    cases it with
    | none =>
      rw [cycleRoots_none] at h ⊢
      exact h
    | some root =>
      have he : n + 1 + j = (n + j) + 1 := by omega
      rw [he]
      simp only [cycleRoots] at h ⊢
      cases hc : cycleSearch fuel this [root] [root] with
      | error e => simp [hc] at h
      | ok r1 =>
        obtain ⟨b, s1⟩ := r1
        rw [cycleSearch_more_fuel k fuel _ _ _ _ hc]
        rw [hc] at h
        cases b with
        | false => exact h
        | true => exact ih _ _ _ h

theorem CheckCycles_more_fuel (k : Nat) {fuel : Nat} {this : cmCTestMultiProcessHandler}
    {r : Bool × cmCTestMultiProcessHandler} (h : CheckCycles fuel this = .ok r) :
    CheckCycles (fuel + k) this = .ok r :=
  cycleRoots_more_fuel k k fuel fuel this _ r h

/-- A key of a finished test stays in `Tests` through every small step. -/
theorem micro_stale {t : Int} {s s' : cmCTestMultiProcessHandler} (h : Micro s s')
    (hs : t ∈ s.Tests.map Prod.fst ∧ s.TestFinishMap t = true) :
    t ∈ s'.Tests.map Prod.fst ∧ s'.TestFinishMap t = true := by
  obtain ⟨hk, hf⟩ := hs
  cases h with
  | touch _ _ st => exact ⟨st.keys t hk, by rw [st.finish]; exact hf⟩
  | started _ _ x st _ hx =>
    have hne : t ≠ x := fun h => by rw [← h, hf] at hx; exact Bool.noConfusion hx
    exact ⟨by rw [st.tests]; exact mem_keys_mapErase_of_ne _ _ _ hk hne,
      by rw [st.finish]; exact hf⟩
  | failed _ _ x st _ hx =>
    have hne : t ≠ x := fun h => by rw [← h, hf] at hx; exact Bool.noConfusion hx
    refine ⟨by rw [st.tests]; exact mem_keys_mapErase_of_ne _ _ _ hk hne, ?_⟩
    rw [st.finish, if_neg hne]
    exact hf
  | finished env _ _ p st =>
    refine ⟨?_, ?_⟩
    · rw [st.tests, List.map_map]
      exact hk
    · rw [st.finish]
      split
      · rfl
      · exact hf

/-- With the key of a finished test in `Tests`, the loop `while(Tests.size() != 0)` of
`RunTests` does not end. -/
theorem pendingLoop_stale (env : Nat → Env) (fuel : Nat) (t : Int) (n : Nat) :
    ∀ (i : Nat) (s : cmCTestMultiProcessHandler) (r : Nat × cmCTestMultiProcessHandler),
      t ∈ s.Tests.map Prod.fst ∧ s.TestFinishMap t = true →
      pendingLoop env fuel n i s ≠ .ok r := by
  induction n with
  | zero =>
    intro i s r hs h
    have hlen : ¬ s.Tests.length = 0 := by
      intro h0
      have := List.length_eq_zero.1 h0
      rw [this] at hs
      simp at hs
    simp only [pendingLoop, if_neg hlen] at h
    cases h
  | succ n ih =>
    intro i s r hs h
    have hlen : ¬ s.Tests.length = 0 := by
      intro h0
      have := List.length_eq_zero.1 h0
      rw [this] at hs
      simp at hs
    simp only [pendingLoop, if_neg hlen] at h
    cases hc : CheckOutput (env i) s with
    | error e => simp [hc] at h
    | ok r1 =>
      obtain ⟨b, s1⟩ := r1
      simp only [hc] at h
      have hs1 := micro_keeps
        (P := fun x => t ∈ x.Tests.map Prod.fst ∧ x.TestFinishMap t = true)
        (fun _ _ hm hx => micro_stale hm hx) (CheckOutput_micro hc) hs
      cases hn : StartNextTests (env i) fuel s1 with
      | error e => simp [hn] at h
      | ok s2 =>
        simp only [hn] at h
        have hs2 := micro_keeps
          (P := fun x => t ∈ x.Tests.map Prod.fst ∧ x.TestFinishMap t = true)
          (fun _ _ hm hx => micro_stale hm hx) (StartNextTests_micro hn) hs1
        exact ih (i + 1) s2 r hs2 h

/-- C14 (code bug): `CheckCycles` adds a key to `Tests`.  In the run resumed from the
checkpoint line `1`, with test 2 depending on test 1, `CheckResume` removes test 1 (the
pending keys are `[2]`, test 1 is finished), and `CheckCycles`, with any fuel from the
two iterations it needs, returns true leaving the keys `[1, 2]` with nothing dispatched:
the `operator[]` on the popped dependency 1 inserted it again.  The key of the finished
test is never erased, so `RunTests` does not return, whatever the children do. -/
theorem C14_check_cycles_adds_key :
    resumeDepend.init = .ok resumeDepend.handler ∧
    (CheckResume resumeDepend.handler).Tests.map Prod.fst = [2] ∧
    (CheckResume resumeDepend.handler).TestFinishMap 1 = true ∧
    (∀ k, (CheckCycles (2 + k) (CheckResume resumeDepend.handler)).map
        (fun r => (r.1, r.2.Tests.map Prod.fst, r.2.Trace.filterMap Event.started))
      = .ok (true, [1, 2], [])) ∧
    (∀ start env fuel r, RunTests start env fuel resumeDepend.handler ≠ .ok r) := by
  have hcycles : ∀ k, CheckCycles (2 + k) (CheckResume resumeDepend.handler)
      = .ok (true, resumeDepend.afterCycles 2) := fun k => CheckCycles_more_fuel k rfl
  refine ⟨rfl, rfl, rfl, fun k => by rw [hcycles k]; rfl, ?_⟩
  intro start env fuel r h
  match fuel, h with
  | 0, h =>
    have h0 : RunTests start env 0 resumeDepend.handler = .error .outOfFuel := rfl
    rw [h0] at h
    cases h
  | 1, h =>
    have h1 : RunTests start env 1 resumeDepend.handler = .error .outOfFuel := rfl
    rw [h1] at h
    cases h
  | k + 2, h =>
    have hcc : CheckCycles (k + 2) (CheckResume resumeDepend.handler)
        = .ok (true, resumeDepend.afterCycles 2) := by
      rw [Nat.add_comm]
      exact hcycles k
    unfold RunTests at h
    simp only [hcc] at h
    have hstale : (1 : Int) ∈ ({ resumeDepend.afterCycles 2 with
          MaxIndex := FindMaxIndex (resumeDepend.afterCycles 2) } :
          cmCTestMultiProcessHandler).Tests.map Prod.fst ∧
        ({ resumeDepend.afterCycles 2 with
          MaxIndex := FindMaxIndex (resumeDepend.afterCycles 2) } :
          cmCTestMultiProcessHandler).TestFinishMap 1 = true := by
      refine ⟨?_, rfl⟩
      have hk : ({ resumeDepend.afterCycles 2 with
          MaxIndex := FindMaxIndex (resumeDepend.afterCycles 2) } :
          cmCTestMultiProcessHandler).Tests.map Prod.fst = [1, 2] := rfl
      rw [hk]
      simp
    cases hn : StartNextTests start (k + 2) { resumeDepend.afterCycles 2 with
        MaxIndex := FindMaxIndex (resumeDepend.afterCycles 2) } with
    | error e => simp [hn] at h
    | ok s2 =>
      simp only [hn] at h
      have hs2 := micro_keeps
        (P := fun x => (1 : Int) ∈ x.Tests.map Prod.fst ∧ x.TestFinishMap 1 = true)
        (fun _ _ hm hx => micro_stale hm hx) (StartNextTests_micro hn) hstale
      cases hp : pendingLoop env (k + 2) (k + 2) 0 s2 with
      | error e => simp [hp] at h
      | ok r2 => exact pendingLoop_stale env (k + 2) 1 (k + 2) 0 s2 r2 hs2 hp

/-- C15 (code bug): after `CheckResume` and `CheckCycles` the buckets and the pending map
disagree.  In the run resumed from the checkpoint line `1`, with test 2 depending on
test 1, `CheckCycles` (with any fuel from the two iterations it needs) returns true and
leaves the keys `[1, 2]` in `Tests` while the only bucket member is test 2: the pending
test 1 is a member of no bucket. -/
theorem C15_buckets_miss_pending_key :
    resumeDepend.init = .ok resumeDepend.handler ∧
    resumeDepend.showOnly = false ∧
    bucketMembers resumeDepend.handler = [1, 2] ∧
    bucketMembers (CheckResume resumeDepend.handler) = [2] ∧
    (∀ k, (CheckCycles (2 + k) (CheckResume resumeDepend.handler)).map
        (fun r => (r.1, r.2.Tests.map Prod.fst, bucketMembers r.2, r.2.TestCosts))
      = .ok (true, [1, 2], [2], [(0, [2])])) := by
  have hcycles : ∀ k, CheckCycles (2 + k) (CheckResume resumeDepend.handler)
      = .ok (true, resumeDepend.afterCycles 2) := fun k => CheckCycles_more_fuel k rfl
  exact ⟨rfl, rfl, rfl, rfl, fun k => by rw [hcycles k]; rfl⟩

/-! ## C21 -/

theorem sizeAdd_of_mod {a x n : Nat} (h : a = x % sizeMod) :
    sizeAdd a n = (x + n) % sizeMod := by
  unfold sizeAdd
  rw [h, Nat.mod_add_mod]

theorem sizeSub_of_mod {a x n : Nat} (h : a = (x + n) % sizeMod) :
    sizeSub a n = x % sizeMod := by
  unfold sizeSub
  rw [h, Nat.mod_add_mod]
  have hlt : n % sizeMod < sizeMod := Nat.mod_lt _ (by unfold sizeMod; decide)
  have hn : n = sizeMod * (n / sizeMod) + n % sizeMod := (Nat.div_add_mod n sizeMod).symm
  have he : x + n + (sizeMod - n % sizeMod) = x + sizeMod * (n / sizeMod + 1) := by
    rw [Nat.mul_add, Nat.mul_one]
    omega
  rw [he, Nat.add_mul_mod_self_left]

/-- The weight a failed start takes off the counter and the pass adds back. -/
theorem sizeAdd_sizeSub {a x n : Nat} (h : a = x % sizeMod) :
    sizeAdd (sizeSub a n) n = x % sizeMod := by
  have hlt : n % sizeMod < sizeMod := Nat.mod_lt _ (by unfold sizeMod; decide)
  have hn : n = sizeMod * (n / sizeMod) + n % sizeMod := (Nat.div_add_mod n sizeMod).symm
  have hs : sizeSub a n = (x + (sizeMod - n % sizeMod)) % sizeMod := by
    unfold sizeSub
    rw [h, Nat.mod_add_mod]
  rw [sizeAdd_of_mod hs]
  have he : x + (sizeMod - n % sizeMod) + n = x + sizeMod * (n / sizeMod + 1) := by
    rw [Nat.mul_add, Nat.mul_one]
    omega
  rw [he, Nat.add_mul_mod_self_left]

theorem sum_map_erase (f : cmCTestRunTest → Nat) (p : cmCTestRunTest) :
    ∀ l : List cmCTestRunTest, p ∈ l → ((l.erase p).map f).sum + f p = (l.map f).sum := by
  intro l
  induction l with
  | nil => intro h; exact absurd h (List.not_mem_nil _)
  | cons x l ih =>
    intro h
    by_cases hx : x = p
    · subst hx
      rw [List.erase_cons_head, List.map_cons, List.sum_cons]
      omega
    · have hp : p ∈ l := by
        rcases List.mem_cons.1 h with h | h
        · exact absurd h.symm hx
        · exact h
      rw [List.erase_cons_tail (by simpa using hx), List.map_cons, List.sum_cons,
        List.map_cons, List.sum_cons, ← ih hp]
      omega

theorem sum_map_insertAt (f : cmCTestRunTest → Nat) (k : Nat) (p : cmCTestRunTest)
    (l : List cmCTestRunTest) : ((insertAt k p l).map f).sum = (l.map f).sum + f p := by
  have := ((insertAt_perm k p l).map f).sum_eq
  rw [this, List.map_cons, List.sum_cons]
  omega

/-- Without dependencies `StartTest(t)` is the call of `StartTestProcess(t)` and returns
true. -/
theorem StartTest_plain {env : Env} {fuel : Nat} {s s' : cmCTestMultiProcessHandler} {t : Int}
    {b : Bool} (hd : mapAt s.Tests t = []) (h : StartTest env fuel s t = .ok (b, s')) :
    b = true ∧ StartTestProcess env { s with Tests := mapTouch s.Tests t } t = .ok s' := by
  cases fuel with
  | zero => simp [StartTest] at h
  | succ n =>
    simp only [StartTest, hd, scanDepends, List.length_nil, if_true] at h
    cases hs : StartTestProcess env { s with Tests := mapTouch s.Tests t } t with
    | error e => simp [hs] at h
    | ok r =>
      simp only [hs, Except.ok.injEq, Prod.mk.injEq] at h
      exact ⟨h.1.symm, by rw [h.2]⟩

theorem Balanced.balanced_touch {s : cmCTestMultiProcessHandler} (h : Balanced s) (t : Int) :
    Balanced { s with Tests := mapTouch s.Tests t } :=
  { depends := fun x => by
      show mapAt (mapTouch s.Tests t) x = []
      rw [mapAt_mapTouch]
      exact h.depends x
    known := h.known
    count := h.count }

/-- The budget stays balanced over one started candidate: `StartTestProcess` and the
addition of the weight by `StartNextTests`. -/
theorem Balanced.balanced_start {env : Env} {s s' : cmCTestMultiProcessHandler} {t : Int} {n : Nat}
    (h : Balanced s) (hn : GetProcessorsUsed s t = .ok n)
    (hs : StartTestProcess env s t = .ok s') :
    Balanced { s' with RunningCount := sizeAdd s'.RunningCount n } := by
  rcases StartTestProcess_step hs with st | st
  · obtain ⟨k, q, hq, hh⟩ := st.handles
    have hw : processorsOf ({ s' with RunningCount := sizeAdd s'.RunningCount n } :
        cmCTestMultiProcessHandler) = processorsOf s :=
      processorsOf_congr st.properties st.level
    refine ⟨fun x => ?_, fun p hp => ?_, ?_⟩
    · show mapAt s'.Tests x = []
      rw [st.tests, mapAt_mapErase]
      split
      · rfl
      · exact h.depends x
    · have hp' : p ∈ s'.RunningTests := hp
      rw [hh, mem_insertAt] at hp'
      show ∃ q, s'.Properties p.Index = some q
      rw [st.properties]
      rcases hp' with rfl | hp'
      · exact ⟨q, hq⟩
      · exact h.known p hp'
    · show sizeAdd s'.RunningCount n = _
      unfold runningWeight
      rw [hw]
      show sizeAdd s'.RunningCount n = ((s'.RunningTests).map _).sum % sizeMod
      rw [hh, sum_map_insertAt, st.count]
      have : processorsOf s t = n := processorsOf_eq hn
      show sizeAdd s.RunningCount n = (_ + processorsOf s t) % sizeMod
      rw [this]
      exact sizeAdd_of_mod h.count
  · have hw : processorsOf ({ s' with RunningCount := sizeAdd s'.RunningCount n } :
        cmCTestMultiProcessHandler) = processorsOf s :=
      processorsOf_congr st.properties st.level
    obtain ⟨m, hm, hc⟩ := st.count
    have hmn : m = n := by
      rw [hn] at hm
      exact (Except.ok.inj hm).symm
    subst hmn
    refine ⟨fun x => ?_, fun p hp => ?_, ?_⟩
    · show mapAt s'.Tests x = []
      rw [st.tests, mapAt_mapErase]
      split
      · rfl
      · exact h.depends x
    · have hp' : p ∈ s'.RunningTests := hp
      rw [st.handles] at hp'
      show ∃ q, s'.Properties p.Index = some q
      rw [st.properties]
      exact h.known p hp'
    · show sizeAdd s'.RunningCount m = _
      unfold runningWeight
      rw [hw]
      show sizeAdd s'.RunningCount m = ((s'.RunningTests).map _).sum % sizeMod
      rw [st.handles, hc]
      exact sizeAdd_sizeSub h.count

theorem balanced_startBucket (env : Env) (fuel : Nat) (l : List Int) :
    ∀ (n : Nat) (s : cmCTestMultiProcessHandler) (r : Option Nat × cmCTestMultiProcessHandler),
      Balanced s → startBucket env fuel l n s = .ok r → Balanced r.2 := by
  induction l with
  | nil =>
    intro n s r hb h
    simp only [startBucket, Except.ok.injEq] at h
    rw [← h]
    exact hb
  | cons t l ih =>
    intro n s r hb h
    simp only [startBucket] at h
    split at h
    · exact ih n s r hb h
    · cases hp : GetProcessorsUsed s t with
      | error e => simp [hp] at h
      | ok p =>
        simp only [hp] at h
        split at h
        · simp only [Except.ok.injEq] at h
          rw [← h]
          exact hb
        · cases hst : StartTest env fuel s t with
          | error e => simp [hst] at h
          | ok r1 =>
            obtain ⟨b, s1⟩ := r1
            obtain ⟨hbt, hs1⟩ := StartTest_plain (hb.depends t) hst
            subst hbt
            have hp' : GetProcessorsUsed { s with Tests := mapTouch s.Tests t } t = .ok p :=
              (GetProcessorsUsed_congr rfl rfl t).trans hp
            have hb2 := (hb.balanced_touch t).balanced_start hp' hs1
            simp only [hst] at h
            split at h
            · simp only [Except.ok.injEq] at h
              rw [← h]
              exact hb2
            · exact ih _ _ r hb2 h

theorem balanced_startBuckets (env : Env) (fuel : Nat) (cs : List ℚ) :
    ∀ (n : Nat) (s s' : cmCTestMultiProcessHandler),
      Balanced s → startBuckets env fuel cs n s = .ok s' → Balanced s' := by
  induction cs with
  | nil =>
    intro n s s' hb h
    simp only [startBuckets, Except.ok.injEq] at h
    rw [← h]
    exact hb
  | cons c cs ih =>
    intro n s s' hb h
    simp only [startBuckets] at h
    cases hk : startBucket env fuel (mapAt s.TestCosts c) n s with
    | error e => simp [hk] at h
    | ok r =>
      have hb1 := balanced_startBucket env fuel _ n s r hb hk
      obtain ⟨o, s1⟩ := r
      cases o with
      | none =>
        simp only [hk, Except.ok.injEq] at h
        rw [← h]
        exact hb1
      | some m =>
        simp only [hk] at h
        exact ih m s1 s' hb1 h

theorem balanced_StartNextTests {env : Env} {fuel : Nat} {s s' : cmCTestMultiProcessHandler}
    (hb : Balanced s) (h : StartNextTests env fuel s = .ok s') : Balanced s' := by
  unfold StartNextTests at h
  simp only at h
  split at h
  · simp only [Except.ok.injEq] at h
    rw [← h]
    exact hb
  · exact balanced_startBuckets env fuel _ _ s s' hb h

theorem balanced_finishAll (env : Env) (ps : List cmCTestRunTest) :
    ∀ (s s' : cmCTestMultiProcessHandler), Balanced s → ps.Nodup →
      (∀ p ∈ ps, p ∈ s.RunningTests) → finishAll env ps s = .ok s' → Balanced s' := by
  induction ps with
  | nil =>
    intro s s' hb _ _ h
    simp only [finishAll, Except.ok.injEq] at h
    rw [← h]
    exact hb
  | cons p ps ih =>
    intro s s' hb hn hmem h
    simp only [finishAll] at h
    cases hf : finishTest env s p with
    | error e => simp [hf] at h
    | ok s1 =>
      simp only [hf] at h
      have st := finishTest_step hf
      have hpl : p ∈ s.RunningTests := hmem p (List.mem_cons_self _ _)
      have hw : processorsOf s1 = processorsOf s := processorsOf_congr st.properties st.level
      obtain ⟨m, hm, hc⟩ := st.count
      have hb1 : Balanced s1 := by
        refine ⟨fun x => ?_, fun q hq => ?_, ?_⟩
        · rw [st.tests, mapAt_map_setErase, hb.depends x]
          rfl
        · rw [st.handles] at hq
          rw [st.properties]
          exact hb.known q (List.mem_of_mem_erase hq)
        · unfold runningWeight
          rw [hw, st.handles, hc]
          refine sizeSub_of_mod ?_
          rw [hb.count]
          unfold runningWeight
          rw [← sum_map_erase (fun q => processorsOf s q.Index) p _ hpl, processorsOf_eq hm]
      rw [List.nodup_cons] at hn
      refine ih s1 s' hb1 hn.2 ?_ h
      intro q hq
      rw [st.handles]
      have hne : q ≠ p := fun he => hn.1 (he ▸ hq)
      exact (List.mem_erase_of_ne hne).2 (hmem q (List.mem_cons_of_mem _ hq))

theorem balanced_CheckOutput {env : Env} {s s' : cmCTestMultiProcessHandler} {b : Bool}
    (hb : Balanced s) (hn : (s.RunningTests.map (fun p => p.Index)).Nodup)
    (h : CheckOutput env s = .ok (b, s')) : Balanced s' := by
  unfold CheckOutput at h
  split at h
  · simp only [Except.ok.injEq, Prod.mk.injEq] at h
    rw [← h.2]
    exact hb
  · simp only at h
    cases hf : finishAll env (s.RunningTests.filter (fun p => !env.live p.Index)) s with
    | error e => simp [hf] at h
    | ok s1 =>
      simp only [hf, Except.ok.injEq, Prod.mk.injEq] at h
      rw [← h.2]
      exact balanced_finishAll env _ s s1 hb ((List.Nodup.of_map _ hn).filter _)
        (fun p hp => (List.mem_filter.1 hp).1) hf

theorem balanced_init {c : Setup} {s : cmCTestMultiProcessHandler} (hd : NoDepends c.tests)
    (h : c.init = .ok s) : Balanced s := by
  have hi := init_state h
  refine ⟨fun t => ?_, fun p hp => ?_, ?_⟩
  · rw [hi.tests]
    unfold mapAt
    cases hf : mapFind c.tests t with
    | none => rfl
    | some v =>
      have := hd (t, v) (mem_of_mapFind c.tests t v hf)
      simp only at this
      rw [this]
      rfl
  · rw [hi.handles] at hp
    exact absurd hp (List.not_mem_nil _)
  · unfold runningWeight
    rw [hi.count, hi.handles]
    rfl

theorem reachable_balanced {c : Setup} {s : cmCTestMultiProcessHandler}
    (hd : NoDepends c.tests) (h : Reachable c s) : Balanced s := by
  induction h with
  | setTests s hs => exact balanced_init hd hs
  | startNextTests env fuel s s' _ hstep ih => exact balanced_StartNextTests ih hstep
  | checkOutput env s s' b hprev hstep ih =>
    exact balanced_CheckOutput ih (reachable_inv hprev).1.running_nodup hstep

/-- What `StartTestProcess` does to the budget when the child fails to start. -/
theorem StartTestProcess_failed {env : Env} {s s' : cmCTestMultiProcessHandler} {t : Int}
    {n : Nat} (hstart : env.start t = none) (hn : GetProcessorsUsed s t = .ok n)
    (h : StartTestProcess env s t = .ok s') :
    s'.RunningCount = sizeSub s.RunningCount n ∧ s'.RunningTests = s.RunningTests := by
  unfold StartTestProcess at h
  simp only [EraseTest] at h
  cases hp : s.Properties t with
  | none => simp [hp] at h
  | some p =>
    simp only [hp, hstart] at h
    split at h
    · simp at h
    · rename_i m hm
      simp only [Except.ok.injEq] at h
      subst h
      have hmn : m = n := by
        have he := (GetProcessorsUsed_congr (s := s) rfl rfl t).symm.trans hm
        rw [hn] at he
        exact (Except.ok.inj he).symm
      subst hmn
      exact ⟨rfl, rfl⟩

/-- C21: in every state of a run from `SetTests` on tests without dependencies, whatever
the collaborators answer (failed starts included), `RunningCount` is the sum of
`GetProcessorsUsed` over the tests in the running set, modulo `2^64`; each term of the sum
is what `GetProcessorsUsed` returns, and `ParallelLevel` is at least 1.  When the child of
a test fails to start, `StartTestProcess` leaves the running set alone and subtracts the
weight from the counter in `size_t` arithmetic, and adding the same weight gives the
counter back. -/
theorem C21_budget_accounting (c : Setup) (s : cmCTestMultiProcessHandler)
    (hd : NoDepends c.tests) (h : Reachable c s) :
    s.RunningCount = runningWeight s % sizeMod ∧
    (∀ p ∈ s.RunningTests, GetProcessorsUsed s p.Index = .ok (processorsOf s p.Index)) ∧
    1 ≤ s.ParallelLevel ∧
    (∀ env t s1 n, env.start t = none → GetProcessorsUsed s t = .ok n →
      StartTestProcess env s t = .ok s1 →
      s1.RunningCount = sizeSub s.RunningCount n ∧ s1.RunningTests = s.RunningTests ∧
      sizeAdd s1.RunningCount n = s.RunningCount) := by
  have hb := reachable_balanced hd h
  refine ⟨hb.count, fun p hp => ?_, ?_, ?_⟩
  · obtain ⟨q, hq⟩ := hb.known p hp
    obtain ⟨n, hn⟩ := GetProcessorsUsed_ok hq
    rw [hn, processorsOf_eq hn]
  · obtain ⟨-, s0, hs0, hk⟩ := reachable_inv h
    rw [hk.level, (init_state hs0).level]
    split <;> omega
  · intro env t s1 n hstart hn hs
    obtain ⟨h1, h2⟩ := StartTestProcess_failed hstart hn hs
    refine ⟨h1, h2, ?_⟩
    rw [h1, sizeAdd_sizeSub hb.count]
    exact hb.count.symm

/-- C21 on two tests of weight 1 at `-j 2` when the child of test 1 fails to start: the
failed start wraps the counter from 0 to `2^64 - 1`, and after the pass test 2 runs alone
with `RunningCount = 1`. -/
theorem C21_budget_accounting_witness :
    NoDepends plainPair.tests ∧
    Reachable plainPair (plainPair.stateAfter [.startNextTests failFirst 1]) ∧
    (StartTestProcess failFirst plainPair.handler 1).map (fun r => r.RunningCount)
      = .ok (sizeMod - 1) ∧
    (plainPair.stateAfter [.startNextTests failFirst 1]).Failed = ["t1"] ∧
    (plainPair.stateAfter [.startNextTests failFirst 1]).RunningTests.map (fun p => p.Index)
      = [2] ∧
    (plainPair.stateAfter [.startNextTests failFirst 1]).RunningCount = 1 ∧
    (plainPair.stateAfter [.startNextTests failFirst 1]).RunningCount
      = runningWeight (plainPair.stateAfter [.startNextTests failFirst 1]) % sizeMod := by
  have hd : NoDepends plainPair.tests := by
    intro e he
    have hmem : e ∈ [((1 : Int), ([] : TestSet)), (2, [])] := he
    simp only [List.mem_cons, List.mem_singleton, List.not_mem_nil, or_false] at hmem
    rcases hmem with rfl | rfl <;> rfl
  have hr : Reachable plainPair (plainPair.stateAfter [.startNextTests failFirst 1]) :=
    @reachable_of_run plainPair [.startNextTests failFirst 1] _ rfl
  exact ⟨hd, hr, rfl, rfl, rfl, rfl,
    (C21_budget_accounting plainPair _ hd hr).1⟩

end cmCTestMultiProcessHandler
